import Mathlib

/-!
# CacheDirector: slice classification and slice-aware array construction

A shallow embedding of the closed-form (Haswell) slice classifier of
`lib/librte_slice/rte_slice.h` and of the slice-aware array builder
`create_array` of `examples/KVS/main.c`, followed by the properties proved
about them.

Machine integers are natural numbers; every place where the C code truncates
(`uint8_t`, `uint16_t`, `uint64_t` arithmetic) carries an explicit `% 2 ^ w`.
Loops that the C code does not bound are given a fuel argument: `none` means
that the fuel ran out before the loop left.
-/

namespace CacheDirector

/-! ## Constants of `rte_slice.h` -/

/-- Bit0 hash. -/
def hash_0 : Nat := 0x1B5F575440

/-- Bit1 hash. -/
def hash_1 : Nat := 0x2EB5FAA880

/-- Bit2 hash. -/
def hash_2 : Nat := 0x3CCCC93100

/-- Size of a cache line in bytes. -/
def LINE : Nat := 64

/-! ## The closed-form classifier -/

/-- The compiler builtin `__builtin_parityll`: the number of 1-bits among the
64 bits of the argument, modulo 2. -/
def builtin_parityll (x : Nat) : Nat :=
  (List.range 64).countP (fun i => x.testBit i) % 2

/-- Function for XOR-ing all bits; `ma` is the masked physical address. -/
def rte_xorall64 (ma : Nat) : Nat :=
  builtin_parityll ma

/-- Calculate slice based on the physical address - Haswell. The local
`sliceNum` is a `uint8_t`, so every assignment truncates to 8 bits. -/
def calculateSlice_HF_haswell (pa : Nat) : Nat :=
  let sliceNum : Nat := 0
  let sliceNum := ((sliceNum <<< 1) ||| rte_xorall64 (pa &&& hash_2)) % 2 ^ 8
  let sliceNum := ((sliceNum <<< 1) ||| rte_xorall64 (pa &&& hash_1)) % 2 ^ 8
  let sliceNum := ((sliceNum <<< 1) ||| rte_xorall64 (pa &&& hash_0)) % 2 ^ 8
  sliceNum

/-- The `while` loop of `sliceFinder_HF_haswell`. `offset` is the `uint16_t`
loop variable; `evals` counts how often the loop condition has evaluated the
classifier so far. The result is the returned offset together with the number
of classifier evaluations; `none` when the fuel is used up inside the loop. -/
def sliceFinder_HF_haswell_loop (pa desiredSlice : Nat) : Nat → Nat → Nat → Option (Nat × Nat)
  | 0, _, _ => none
  | fuel + 1, offset, evals =>
    if desiredSlice ≠ calculateSlice_HF_haswell ((pa + offset) % 2 ^ 64) then
      sliceFinder_HF_haswell_loop pa desiredSlice fuel ((offset + LINE) % 2 ^ 16) (evals + 1)
    else
      some (offset, evals + 1)

/-- The function `sliceFinder_HF_haswell` with its classifier evaluations
counted: offset starts at 0. -/
def sliceFinder_HF_haswell_run (fuel pa desiredSlice : Nat) : Option (Nat × Nat) :=
  sliceFinder_HF_haswell_loop pa desiredSlice fuel 0 0

/-- Find the next slice for the input coreNumber, using
`calculateSlice_HF_haswell`: the offset the C function returns. -/
def sliceFinder_HF_haswell (fuel pa desiredSlice : Nat) : Option Nat :=
  (sliceFinder_HF_haswell_run fuel pa desiredSlice).map Prod.fst

/-! ## The slice-aware array builder of the KVS example -/

/-- The variables of `create_array` (built with `SLICE` and `HASWELL` defined)
that the properties below talk about. -/
structure ArrayState where
  /-- `void **array`: the virtual address of every element, `nb_keys` entries. -/
  array : List Nat
  /-- `uint64_t *array_iova`: the physical address of every element. -/
  array_iova : List Nat
  /-- The 64-bit words stored in the backing block through `value`, keyed by
  the address they were stored at; `rte_calloc` hands the block out zeroed. -/
  mem : Nat → Nat
  /-- `unsigned long long offset`. -/
  offset : Nat
  /-- Number of evaluations of `calculateSlice_HF_haswell` so far. -/
  evals : Nat
  /-- Indices for which the validation pass printed `Error! Wrong Slice!`. -/
  wrong : List Nat

/-- One iteration of the element loop of `create_array`, for loop index `i`.
The first chunk has been found before the loop; every later chunk is searched
from the line after the previous element. The progress message printed every
`interval` iterations has no effect on the state and is left out. -/
def create_array_body (fuel slice mem_virtual mem_iova i : Nat) (st : ArrayState) :
    Option ArrayState :=
  let found : Option ArrayState :=
    if i = 0 then
      some { st with
        array := st.array.set 0 ((mem_virtual + st.offset) % 2 ^ 64)
        array_iova := st.array_iova.set 0 ((mem_iova + st.offset) % 2 ^ 64) }
    else
      let offset := 64
      match sliceFinder_HF_haswell_run fuel ((st.array_iova.getD (i - 1) 0 + offset) % 2 ^ 64)
          (slice % 2 ^ 8) with
      | none => none
      | some (o, ev) =>
        let offset := (offset + o) % 2 ^ 64
        some { st with
          offset := offset
          array := st.array.set i ((st.array.getD (i - 1) 0 + offset) % 2 ^ 64)
          array_iova := st.array_iova.set i ((st.array_iova.getD (i - 1) 0 + offset) % 2 ^ 64)
          evals := st.evals + ev }
  found.map fun st1 =>
    { st1 with mem := fun a => if a = st1.array.getD i 0 then i * 2 % 2 ^ 64 else st1.mem a }

/-- The loop `for(i=0;i<nb_keys;i++)` of `create_array`: the first argument is
the number of iterations still to run, the second the loop index `i`. -/
def create_array_for (fuel slice mem_virtual mem_iova : Nat) :
    Nat → Nat → ArrayState → Option ArrayState
  | 0, _, st => some st
  | k + 1, i, st =>
    match create_array_body fuel slice mem_virtual mem_iova i st with
    | none => none
    | some st1 => create_array_for fuel slice mem_virtual mem_iova k (i + 1) st1

/-- The validation pass of `create_array`: every recorded physical address is
classified again and compared with `slice` (a `uint16_t`, not truncated). -/
def create_array_validate (nb_keys slice : Nat) (st : ArrayState) : ArrayState :=
  { st with
    wrong := (List.range nb_keys).filter
      (fun i => calculateSlice_HF_haswell (st.array_iova.getD i 0) ≠ slice)
    evals := st.evals + nb_keys }

/-- The function `create_array(nb_keys, slice)`. `mem_virtual` and `mem_iova`
are what `rte_calloc(0, nb_keys*8, 64, 0)` and `rte_malloc_virt2iova` return:
the virtual and the physical address of the backing block. `fuel` bounds every
single run of `sliceFinder_HF_haswell`; the argument `slice` is a `uint16_t`
and is truncated to the `uint8_t` parameter of the finder. -/
def create_array (fuel nb_keys slice mem_virtual mem_iova : Nat) : Option ArrayState :=
  match sliceFinder_HF_haswell_run fuel mem_iova (slice % 2 ^ 8) with
  | none => none
  | some (o, ev) =>
    let st0 : ArrayState :=
      { array := List.replicate nb_keys 0
        array_iova := List.replicate nb_keys 0
        mem := fun _ => 0
        offset := o
        evals := ev
        wrong := [] }
    (create_array_for fuel slice mem_virtual mem_iova nb_keys 0 st0).map
      (create_array_validate nb_keys slice)

/-! ## The register access layer of `rte_msr.c` -/

/-- The `errno` value "No such device or address" of `errno.h`. -/
def ENXIO : Nat := 6

/-- The `errno` value "I/O error" of `errno.h`. -/
def EIO : Nat := 5

/-- Number of polling for acquiring the slice. -/
def NUMBER_POLLING : Nat := 750

/-- Number of slices; `rte_msr.h` defines `HASWELL`, so the Haswell values of
the constants below are the compiled-in ones. -/
def NUMBER_SLICES : Nat := 8

def PMON_GLOBAL_CTL_ADDRESS : Nat := 0x700

def ENABLE_COUNT : Nat := 0x20000000

def DISABLE_COUNT : Nat := 0x80000000

/-- Event: LLC_LOOKUP, mask: any request (all snooping signals). -/
def SELECTED_EVENT : Nat := 0x441134

def RESET_COUNTERS : Nat := 0x30002

def FILTER_BOX_VALUE : Nat := 0x007E0000

def CHA_CBO_EVENT_ADDRESS : List Nat :=
  [0x0E01, 0x0E11, 0x0E21, 0x0E31, 0x0E41, 0x0E51, 0x0E61, 0x0E71, 0x0E81, 0x0E91,
   0x0EA1, 0x0EB1, 0x0EC1, 0x0ED1, 0x0EE1, 0x0EF1, 0x0F01, 0x0F11, 0x0F21, 0x0F31, 0x0F41,
   0x0F51, 0x0F61, 0x0F71, 0x0F81, 0x0F91, 0x0FA1, 0x0FB1]

def CHA_CBO_CTL_ADDRESS : List Nat :=
  [0x0E00, 0x0E10, 0x0E20, 0x0E30, 0x0E40, 0x0E50, 0x0E60, 0x0E70, 0x0E80, 0x0E90,
   0x0EA0, 0x0EB0, 0x0EC0, 0x0ED0, 0x0EE0, 0x0EF0, 0x0F00, 0x0F10, 0x0F20, 0x0F30, 0x0F40,
   0x0F50, 0x0F60, 0x0F70, 0x0F80, 0x0F90, 0x0FA0, 0x0FB0]

def CHA_CBO_FILTER_ADDRESS : List Nat :=
  [0x0E05, 0x0E15, 0x0E25, 0x0E35, 0x0E45, 0x0E55, 0x0E65, 0x0E75, 0x0E85, 0x0E95,
   0x0EA5, 0x0EB5, 0x0EC5, 0x0ED5, 0x0EE5, 0x0EF5, 0x0F05, 0x0F15, 0x0F25, 0x0F35, 0x0F45,
   0x0F55, 0x0F65, 0x0F75, 0x0F85, 0x0F95, 0x0FA5, 0x0FB5]

def CHA_CBO_COUNTER_ADDRESS : List Nat :=
  [0x0E08, 0x0E18, 0x0E28, 0x0E38, 0x0E48, 0x0E58, 0x0E68, 0x0E78, 0x0E88, 0x0E98,
   0x0EA8, 0x0EB8, 0x0EC8, 0x0ED8, 0x0EE8, 0x0EF8, 0x0F08, 0x0F18, 0x0F28, 0x0F38, 0x0F48,
   0x0F58, 0x0F68, 0x0F78, 0x0F88, 0x0F98, 0x0FA8, 0x0FB8]

/-- The messages the register access layer writes to `stderr`, each with the
values its format string prints. `wr` tells `wrmsr` (true) from `rdmsr`. -/
inductive Diag where
  /-- `"rdmsr: No CPU %d\n"` and `"wrmsr: No CPU %d\n"`. -/
  | no_cpu (wr : Bool) (cpu : Nat)
  /-- `"rdmsr: CPU %d doesn't support MSRs\n"` and the `wrmsr` twin. -/
  | no_msr_support (wr : Bool) (cpu : Nat)
  /-- `perror("rdmsr: open")` and `perror("wrmsr: open")`: the text for `errno`. -/
  | perror_open (wr : Bool) (errno : Nat)
  /-- `"rdmsr: CPU %d cannot read MSR 0x%08x\n"`. -/
  | cannot_read (cpu reg : Nat)
  /-- `perror("rdmsr: pread")`. -/
  | perror_pread (errno : Nat)
  /-- `"wrmsr: CPU %d cannot set MSR 0x%08x to 0x%016x\n"`. -/
  | cannot_set (cpu reg data : Nat)
  /-- `perror("wrmsr: pwrite")`. -/
  | perror_pwrite (errno : Nat)
  deriving DecidableEq

/-- The register address a message prints, if it prints one. -/
def Diag.register : Diag → Option Nat
  | Diag.cannot_read _ reg => some reg
  | Diag.cannot_set _ reg _ => some reg
  | _ => none

/-- What the process does to the outside world, in the order it does it. Every
system call is recorded when it is made, whether it succeeds or not. -/
inductive Event where
  /-- `open("/dev/cpu/0/msr", O_RDONLY)`, or `O_WRONLY` when `wr` is true. -/
  | open_ (wr : Bool)
  /-- `pread(fd, &data, 8, reg)`. -/
  | pread (fd : Int) (reg : Nat)
  /-- `pwrite(fd, &data, 8, reg)`. -/
  | pwrite (fd : Int) (reg data : Nat)
  /-- `close(fd)`; the calls are commented out in the source, so no function
  below produces this event. -/
  | close (fd : Int)
  /-- `_mm_clflush(address)`. -/
  | clflush (address : Nat)
  /-- A message on `stderr`. -/
  | stderr (d : Diag)
  /-- `exit(status)`. -/
  | exit (status : Nat)
  deriving DecidableEq

/-- The answers of the operating system and the hardware. Each answer may
depend on everything that happened before (the trace) and on the arguments of
the call: `Except.error errno` is a failed call (return value -1), `Except.ok`
carries the descriptor for `open`, the number of bytes transferred (and the
value read) for `pread` and `pwrite`. -/
structure Env where
  open_ : List Event → Bool → Except Nat Nat
  pread : List Event → Int → Nat → Except Nat (Nat × Nat)
  pwrite : List Event → Int → Nat → Nat → Except Nat Nat

/-- The process state the register access layer works on. -/
structure MsrState where
  /-- `static int fd` of `rdmsr_on_cpu_0`. -/
  rd_fd : Int
  /-- `static int fd` of `wrmsr_on_cpu_0`. -/
  wr_fd : Int
  /-- The C variable `errno`: set by a failed system call, left alone otherwise. -/
  errno : Nat
  /-- Everything done so far. -/
  trace : List Event
  deriving DecidableEq

/-- The state when the process starts: both descriptors are -1. -/
def MsrState.init : MsrState :=
  { rd_fd := -1, wr_fd := -1, errno := 0, trace := [] }

/-- A function either returns (with a result and the new state) or ends the
process through `exit`. -/
inductive Outcome (α : Type) where
  | ret (a : α) (st : MsrState)
  | exit (status : Nat) (st : MsrState)
  deriving DecidableEq

/-- The block `if (fd < 0) { fd = open(...); if (fd < 0) { ... exit } }` that
starts `rdmsr_on_cpu_0` (with `O_RDONLY` and `rdmsr:` messages) and
`wrmsr_on_cpu_0` (with `O_WRONLY` and `wrmsr:` messages). The result is the
value of the static `fd` after the block. -/
def msr_open (env : Env) (wr : Bool) (fd : Int) (st : MsrState) : Outcome Int :=
  let cpu := 0
  if fd < 0 then
    match env.open_ st.trace wr with
    | Except.ok newfd =>
      Outcome.ret (Int.ofNat newfd) { st with trace := st.trace ++ [Event.open_ wr] }
    | Except.error e =>
      let st1 := { st with errno := e, trace := st.trace ++ [Event.open_ wr] }
      if e = ENXIO then
        Outcome.exit 2
          { st1 with trace := st1.trace ++ [Event.stderr (Diag.no_cpu wr cpu), Event.exit 2] }
      else if e = EIO then
        Outcome.exit 3
          { st1 with
            trace := st1.trace ++ [Event.stderr (Diag.no_msr_support wr cpu), Event.exit 3] }
      else
        Outcome.exit 127
          { st1 with
            trace := st1.trace ++ [Event.stderr (Diag.perror_open wr e), Event.exit 127] }
  else
    Outcome.ret fd st

/-- The failure branch of the `pread` test in `rdmsr_on_cpu_0`. -/
def rdmsr_fail (reg : Nat) (st : MsrState) : Outcome Nat :=
  let cpu := 0
  if st.errno = EIO then
    Outcome.exit 4
      { st with trace := st.trace ++ [Event.stderr (Diag.cannot_read cpu reg), Event.exit 4] }
  else
    Outcome.exit 127
      { st with
        trace := st.trace ++ [Event.stderr (Diag.perror_pread st.errno), Event.exit 127] }

/-- Read an MSR on CPU 0. -/
def rdmsr_on_cpu_0 (env : Env) (reg : Nat) (st : MsrState) : Outcome Nat :=
  match msr_open env false st.rd_fd st with
  | Outcome.exit status st1 => Outcome.exit status st1
  | Outcome.ret fd st1 =>
    let st2 := { st1 with rd_fd := fd }
    let st3 := { st2 with trace := st2.trace ++ [Event.pread fd reg] }
    match env.pread st2.trace fd reg with
    | Except.ok (n, data) =>
      if n ≠ 8 then rdmsr_fail reg st3 else Outcome.ret data st3
    | Except.error e => rdmsr_fail reg { st3 with errno := e }

/-- The failure branch of the `pwrite` test in `wrmsr_on_cpu_0`. -/
def wrmsr_fail (reg data : Nat) (st : MsrState) : Outcome Unit :=
  let cpu := 0
  if st.errno = EIO then
    Outcome.exit 4
      { st with
        trace := st.trace ++ [Event.stderr (Diag.cannot_set cpu reg data), Event.exit 4] }
  else
    Outcome.exit 127
      { st with
        trace := st.trace ++ [Event.stderr (Diag.perror_pwrite st.errno), Event.exit 127] }

/-- The loop `while (valcnt--) { data=*regvals++; ... }` of `wrmsr_on_cpu_0`,
for a non-negative `valcnt`; `regvals` is the memory the pointer points to. -/
def wrmsr_loop (env : Env) (fd : Int) (reg : Nat) : Nat → List Nat → MsrState → Outcome Unit
  | 0, _, st => Outcome.ret () st
  | valcnt + 1, regvals, st =>
    let data := regvals.headD 0
    let st1 := { st with trace := st.trace ++ [Event.pwrite fd reg data] }
    match env.pwrite st.trace fd reg data with
    | Except.ok n =>
      if n ≠ 8 then wrmsr_fail reg data st1
      else wrmsr_loop env fd reg valcnt regvals.tail st1
    | Except.error e => wrmsr_fail reg data { st1 with errno := e }

/-- Write to an MSR on CPU 0. -/
def wrmsr_on_cpu_0 (env : Env) (reg valcnt : Nat) (regvals : List Nat) (st : MsrState) :
    Outcome Unit :=
  match msr_open env true st.wr_fd st with
  | Outcome.exit status st1 => Outcome.exit status st1
  | Outcome.ret fd st1 => wrmsr_loop env fd reg valcnt regvals { st1 with wr_fd := fd }

/-- Polling one address: the loop `for (i=0;i<NUMBER_POLLING;i++)`, the first
argument being the number of iterations still to run. -/
def polling_loop (address : Nat) : Nat → MsrState → MsrState
  | 0, st => st
  | k + 1, st =>
    polling_loop address k { st with trace := st.trace ++ [Event.clflush address] }

/-- Polling one address. -/
def polling (address : Nat) (st : MsrState) : Outcome Unit :=
  Outcome.ret () (polling_loop address NUMBER_POLLING st)

/-- A loop `for(i=0; i<NUMBER_SLICES; i++) wrmsr_on_cpu_0(address[i], 1, register_value)`
of `uncore_init`: the third argument is the number of iterations still to run,
the fourth is `i`. -/
def uncore_init_loop (env : Env) (address : List Nat) (register_value : List Nat) :
    Nat → Nat → MsrState → Outcome Unit
  | 0, _, st => Outcome.ret () st
  | k + 1, i, st =>
    match wrmsr_on_cpu_0 env (address.getD i 0) 1 register_value st with
    | Outcome.exit status st1 => Outcome.exit status st1
    | Outcome.ret _ st1 => uncore_init_loop env address register_value k (i + 1) st1

/-- Initialize uncore registers (CBo/CHA and Global MSR) before polling. -/
def uncore_init (env : Env) (st : MsrState) : Outcome Unit :=
  match wrmsr_on_cpu_0 env PMON_GLOBAL_CTL_ADDRESS 1 [DISABLE_COUNT] st with
  | Outcome.exit status st1 => Outcome.exit status st1
  | Outcome.ret _ st1 =>
  match uncore_init_loop env CHA_CBO_EVENT_ADDRESS [SELECTED_EVENT] NUMBER_SLICES 0 st1 with
  | Outcome.exit status st2 => Outcome.exit status st2
  | Outcome.ret _ st2 =>
  match uncore_init_loop env CHA_CBO_CTL_ADDRESS [RESET_COUNTERS] NUMBER_SLICES 0 st2 with
  | Outcome.exit status st3 => Outcome.exit status st3
  | Outcome.ret _ st3 =>
  match uncore_init_loop env CHA_CBO_FILTER_ADDRESS [FILTER_BOX_VALUE] NUMBER_SLICES 0 st3 with
  | Outcome.exit status st4 => Outcome.exit status st4
  | Outcome.ret _ st4 => wrmsr_on_cpu_0 env PMON_GLOBAL_CTL_ADDRESS 1 [ENABLE_COUNT] st4

/-- The first loop of `find_CHA_CBO`: read CHA/CBo counter's value. The values
read so far are `CHA_CBO_value`, in index order. -/
def find_CHA_CBO_read (env : Env) : Nat → Nat → List Nat → MsrState → Outcome (List Nat)
  | 0, _, CHA_CBO_value, st => Outcome.ret CHA_CBO_value st
  | k + 1, i, CHA_CBO_value, st =>
    match rdmsr_on_cpu_0 env (CHA_CBO_COUNTER_ADDRESS.getD i 0) st with
    | Outcome.exit status st1 => Outcome.exit status st1
    | Outcome.ret data st1 => find_CHA_CBO_read env k (i + 1) (CHA_CBO_value ++ [data]) st1

/-- The second loop of `find_CHA_CBO`: find maximum. The arguments after the
array are the number of iterations still to run, `i`, `max_value` and
`max_index`. -/
def find_CHA_CBO_max (CHA_CBO_value : List Nat) : Nat → Nat → Nat → Nat → Nat
  | 0, _, _, max_index => max_index
  | k + 1, i, max_value, max_index =>
    if CHA_CBO_value.getD i 0 > max_value then
      find_CHA_CBO_max CHA_CBO_value k (i + 1) (CHA_CBO_value.getD i 0) i
    else
      find_CHA_CBO_max CHA_CBO_value k (i + 1) max_value max_index

/-- Read the CBo/CHA counters' value and find the one with maximum number. -/
def find_CHA_CBO (env : Env) (st : MsrState) : Outcome Nat :=
  match find_CHA_CBO_read env NUMBER_SLICES 0 [] st with
  | Outcome.exit status st1 => Outcome.exit status st1
  | Outcome.ret CHA_CBO_value st1 =>
    Outcome.ret (find_CHA_CBO_max CHA_CBO_value NUMBER_SLICES 0 0 0) st1

/-- Calculate slice based on a given virtual address - Haswell and SkyLake.
The `int` of `find_CHA_CBO` is returned as a `uint8_t`. -/
def calculateSlice_uncore (env : Env) (va : Nat) (st : MsrState) : Outcome Nat :=
  match uncore_init env st with
  | Outcome.exit status st1 => Outcome.exit status st1
  | Outcome.ret _ st1 =>
  match polling va st1 with
  | Outcome.exit status st2 => Outcome.exit status st2
  | Outcome.ret _ st2 =>
  match find_CHA_CBO env st2 with
  | Outcome.exit status st3 => Outcome.exit status st3
  | Outcome.ret max_index st3 => Outcome.ret (max_index % 2 ^ 8) st3

/-! ## Packet payload access of the KVS example -/

/-- A `uint64_t` load `*p` on the little-endian host the code is written for
(`x86intrin.h`): `mem` gives the byte at each address. -/
def load64 (mem : Nat → Nat) (p : Nat) : Nat :=
  mem p % 256 + 256 * (mem (p + 1) % 256) + 256 ^ 2 * (mem (p + 2) % 256)
    + 256 ^ 3 * (mem (p + 3) % 256) + 256 ^ 4 * (mem (p + 4) % 256)
    + 256 ^ 5 * (mem (p + 5) % 256) + 256 ^ 6 * (mem (p + 6) % 256)
    + 256 ^ 7 * (mem (p + 7) % 256)

/-- The function `be64toh` of `endian.h` on a little-endian host: the eight
bytes of the argument in reverse order. -/
def be64toh (x : Nat) : Nat :=
  256 ^ 7 * (x % 256) + 256 ^ 6 * (x / 256 % 256) + 256 ^ 5 * (x / 256 ^ 2 % 256)
    + 256 ^ 4 * (x / 256 ^ 3 % 256) + 256 ^ 3 * (x / 256 ^ 4 % 256)
    + 256 ^ 2 * (x / 256 ^ 5 % 256) + 256 * (x / 256 ^ 6 % 256) + x / 256 ^ 7 % 256

/-- The function `memcpy(dst + at, src, n)`, on byte memories that do not
overlap: `dst` after the copy. -/
def memcpy (dst : Nat → Nat) (at_ : Nat) (src : Nat → Nat) (n : Nat) : Nat → Nat :=
  fun a => if at_ ≤ a ∧ a < at_ + n then src (a - at_) else dst a

/-- Read Key: `data` is the packet memory from `rte_pktmbuf_mtod(m, uint8_t *)` on. -/
def read_key_from_packet (data : Nat → Nat) : Nat :=
  be64toh (load64 data 65)

/-- Write Value: the packet memory after `memcpy(data+65,found_value,64)`;
`found_value` is the memory the pointer of that name points to. -/
def write_value_to_packet (data : Nat → Nat) (found_value : Nat → Nat) : Nat → Nat :=
  memcpy data 65 found_value 64

/-! ## Set indexes of `rte_slice.h` -/

/-- 6 bits - [11-6] - 64 sets + 8 way for each core. `rte_slice.h` is compiled
without `SKYLAKE`, so the Haswell values are the ones in force. -/
def L1_INDEX : Nat := 0xFC0

/-- 9 bits - [14-6] - 512 sets + 8 way for each core. -/
def L2_INDEX : Nat := 0x7FC0

/-- 11 bits - [16-6] - 2048 sets per slice + 20 way for each slice (2.5MB). -/
def L3_INDEX_PER_SLICE : Nat := 0x1FFC0

/-- Offset required to get the same indexes: bit 17. -/
def L3_INDEX_STRIDE : Nat := 0x20000

/-- Offset required to get the same indexes: bit 15. -/
def L2_INDEX_STRIDE : Nat := 0x8000

/-- The exit status `EXIT_FAILURE` of `stdlib.h`. -/
def EXIT_FAILURE : Nat := 1

/-- Calculate the index of set for a physical address. `Except.error status`
stands for `exit(status)`. -/
def indexCalculator (addr_in : Nat) (cacheLevel : Int) : Except Nat Nat :=
  if cacheLevel = 1 then
    let index := addr_in &&& L1_INDEX
    Except.ok (index >>> 6)
  else if cacheLevel = 2 then
    let index := addr_in &&& L2_INDEX
    Except.ok (index >>> 6)
  else if cacheLevel = 3 then
    let index := addr_in &&& L3_INDEX_PER_SLICE
    Except.ok (index >>> 6)
  else
    Except.error EXIT_FAILURE

/-! ## Request handling of the KVS example -/

/-- The macro `NB_KEYS`: `(1024*1024*1024L)/64`. -/
def NB_KEYS : Nat := (1024 * 1024 * 1024) / 64

def READ_PERCENT : Nat := 100

/-- The function `htobe64` of `endian.h`: on a little-endian host it is the same
byte swap as `be64toh`. -/
def htobe64 (x : Nat) : Nat :=
  be64toh x

/-- A `uint64_t` store `*p = v` on the little-endian host: byte `k` of the
value goes to address `p + k`. -/
def store64 (mem : Nat → Nat) (p v : Nat) : Nat → Nat :=
  fun a => if p ≤ a ∧ a < p + 8 then v / 256 ^ (a - p) % 256 else mem a

/-- Swap MAC: the destination address (bytes 0..5 of the frame) and the source
address (bytes 6..11) change places. -/
def ether_mirror (eth : Nat → Nat) : Nat → Nat :=
  fun a => if a < 6 then eth (a + 6) else if a < 12 then eth (a - 6) else eth a

/-- The variables of `lcore_main` that request handling changes. -/
structure KvsState where
  /-- The bytes of the backing block the elements of `array` live in. -/
  mem : Nat → Nat
  /-- `uint64_t read_counter`. -/
  read_counter : Nat

/-- The body of the loop `for(i=0;i<nb_rx;i++)` of `lcore_main` for one
received packet, `pkt` being its bytes: the new state and the bytes of the
packet afterwards. `array` is what `create_array` returned. The result is
`none` where the code has no defined behaviour: the WRITE branch stores through
the pointer `value`, which that branch never assigns. Prefetching and the
statistics have no effect on the state and are left out. -/
def lcore_main_packet (array : List Nat) (pkt : Nat → Nat) (st : KvsState) :
    Option (KvsState × (Nat → Nat)) :=
  let key := read_key_from_packet pkt
  if key < NB_KEYS then
    if st.read_counter < READ_PERCENT then
      let value := array.getD key 0
      let mem1 := store64 st.mem value (htobe64 (load64 st.mem value))
      let pkt1 := write_value_to_packet pkt (fun k => mem1 (value + k))
      let read_counter := (st.read_counter + 1) % 2 ^ 64 % 100
      some ({ mem := mem1, read_counter := read_counter }, ether_mirror pkt1)
    else
      none
  else
    some (st, pkt)

/-- The packets of all bursts, handled one after the other; `read_counter`
starts at 0 in `lcore_main`. The result holds the packets as they are sent
back. -/
def lcore_main_packets (array : List Nat) :
    List (Nat → Nat) → KvsState → Option (KvsState × List (Nat → Nat))
  | [], st => some (st, [])
  | pkt :: pkts, st =>
    match lcore_main_packet array pkt st with
    | none => none
    | some (st1, pkt1) =>
      match lcore_main_packets array pkts st1 with
      | none => none
      | some (st2, sent) => some (st2, pkt1 :: sent)

/-! ## Specification-side definitions -/

/-- XOR-reduction of the 64 bits of `x`, as the specification words it. -/
def xorOfBits (x : Nat) : Bool :=
  (List.range 64).foldl (fun acc i => xor acc (x.testBit i)) false

/-- Line `m` (counted from `x` in steps of 64 bytes, addresses taken modulo
`2 ^ 64`) is the first line from `x` on that classifies to slice `s`. -/
def FirstMatch (x s m : Nat) : Prop :=
  calculateSlice_HF_haswell ((x + 64 * m) % 2 ^ 64) = s ∧
    ∀ k, k < m → calculateSlice_HF_haswell ((x + 64 * k) % 2 ^ 64) ≠ s

/-- What holds of the state of `create_array` when the element loop has run
for the indices below `i`: `m0` is the line the first-chunk search stopped at,
`n` is `nb_keys`. -/
structure ArrayInv (slice mem_virtual mem_iova n m0 i : Nat) (st : ArrayState) : Prop where
  len : st.array.length = n
  len_iova : st.array_iova.length = n
  off0 : i = 0 → st.offset = 64 * m0
  first : 0 < i → st.array_iova.getD 0 0 = (mem_iova + 64 * m0) % 2 ^ 64 ∧
    st.array.getD 0 0 = (mem_virtual + 64 * m0) % 2 ^ 64
  slice_eq : ∀ j, j < i → calculateSlice_HF_haswell (st.array_iova.getD j 0) = slice
  bound : ∀ j, j < i → st.array_iova.getD j 0 < 2 ^ 64 ∧ st.array.getD j 0 < 2 ^ 64
  next : ∀ j, j + 1 < i → ∃ m, m ≤ 14 ∧
    FirstMatch ((st.array_iova.getD j 0 + 64) % 2 ^ 64) slice m ∧
    st.array_iova.getD (j + 1) 0 = (st.array_iova.getD j 0 + (64 + 64 * m)) % 2 ^ 64 ∧
    st.array.getD (j + 1) 0 = (st.array.getD j 0 + (64 + 64 * m)) % 2 ^ 64
  stored : ∀ j, j < i → (∀ k, j < k → k < i → st.array.getD k 0 ≠ st.array.getD j 0) →
    st.mem (st.array.getD j 0) = j * 2 % 2 ^ 64

/-- No I/O fails: every `open` yields a descriptor, every `pread` and every
`pwrite` transfers 8 bytes. -/
def Env.Succeeds (env : Env) : Prop :=
  (∀ tr wr, ∃ fd, env.open_ tr wr = Except.ok fd) ∧
    (∀ tr fd reg, ∃ data, env.pread tr fd reg = Except.ok (8, data)) ∧
    (∀ tr fd reg data, env.pwrite tr fd reg data = Except.ok 8)

/-- An environment in which nothing fails: `open` yields descriptor 3 and
every counter reads 5, except the one at `0xE38` (slice 3), which reads 700. -/
def Env.steady : Env :=
  { open_ := fun _ _ => Except.ok 3
    pread := fun _ _ reg => Except.ok (8, if reg = 0xE38 then 700 else 5)
    pwrite := fun _ _ _ _ => Except.ok 8 }

/-- An environment in which every `open` fails with `errno` `e`. -/
def Env.closed (e : Nat) : Env :=
  { open_ := fun _ _ => Except.error e
    pread := fun _ _ _ => Except.ok (8, 0)
    pwrite := fun _ _ _ _ => Except.ok 8 }

/-- An environment in which `open` succeeds and every transfer stops after 4
bytes. -/
def Env.short : Env :=
  { open_ := fun _ _ => Except.ok 3
    pread := fun _ _ _ => Except.ok (4, 0)
    pwrite := fun _ _ _ _ => Except.ok 4 }

/-- An environment in which `open` succeeds, a write of the value 13 fails with
`errno` `e` and every other transfer succeeds. -/
def Env.unlucky (e : Nat) : Env :=
  { open_ := fun _ _ => Except.ok 3
    pread := fun _ _ _ => Except.error e
    pwrite := fun _ _ _ data => if data = 13 then Except.error e else Except.ok 8 }

/-- The trace of `k` single-value writes of `v` to the registers
`address[i]`, `address[i+1]`, ... through descriptor `fd`. -/
def writes_from (fd : Int) (address : List Nat) (v : Nat) : Nat → Nat → List Event
  | 0, _ => []
  | k + 1, i => Event.pwrite fd (address.getD i 0) v :: writes_from fd address v k (i + 1)

/-- The `open` event a call adds to the trace when its static descriptor is
still negative. -/
def opens (wr : Bool) (fd : Int) : List Event :=
  if fd < 0 then [Event.open_ wr] else []

/-- Several calls of `rdmsr_on_cpu_0` in a row, one for each register of the
list; the result is the list of values read. -/
def rdmsr_calls (env : Env) : List Nat → MsrState → Outcome (List Nat)
  | [], st => Outcome.ret [] st
  | reg :: regs, st =>
    match rdmsr_on_cpu_0 env reg st with
    | Outcome.exit status st1 => Outcome.exit status st1
    | Outcome.ret data st1 =>
      match rdmsr_calls env regs st1 with
      | Outcome.exit status st2 => Outcome.exit status st2
      | Outcome.ret rest st2 => Outcome.ret (data :: rest) st2

/-- Several calls of `wrmsr_on_cpu_0` in a row, each writing all the values of
its list to its register. -/
def wrmsr_calls (env : Env) : List (Nat × List Nat) → MsrState → Outcome Unit
  | [], st => Outcome.ret () st
  | (reg, regvals) :: calls, st =>
    match wrmsr_on_cpu_0 env reg regvals.length regvals st with
    | Outcome.exit status st1 => Outcome.exit status st1
    | Outcome.ret _ st1 => wrmsr_calls env calls st1

/-- The register writes of several calls of `wrmsr_on_cpu_0` through
descriptor `fd`, in order. -/
def calls_trace (fd : Int) : List (Nat × List Nat) → List Event
  | [] => []
  | (reg, regvals) :: calls => regvals.map (Event.pwrite fd reg) ++ calls_trace fd calls

/-- The big-endian decoding of the 8 bytes of `mem` from address `p` on. -/
def decode_be (mem : Nat → Nat) (p : Nat) : Nat :=
  256 ^ 7 * (mem p % 256) + 256 ^ 6 * (mem (p + 1) % 256) + 256 ^ 5 * (mem (p + 2) % 256)
    + 256 ^ 4 * (mem (p + 3) % 256) + 256 ^ 3 * (mem (p + 4) % 256)
    + 256 ^ 2 * (mem (p + 5) % 256) + 256 * (mem (p + 6) % 256) + mem (p + 7) % 256

/-- The register writes of one monitoring-session setup through descriptor
`fd`, as the specification lists them: counting disabled, then event, control
and filter register of every slice, then counting enabled. -/
def setup_writes (fd : Int) : List Event :=
  [Event.pwrite fd 0x700 DISABLE_COUNT]
    ++ (List.range NUMBER_SLICES).map (fun i => Event.pwrite fd (0xE01 + 16 * i) SELECTED_EVENT)
    ++ (List.range NUMBER_SLICES).map (fun i => Event.pwrite fd (0xE00 + 16 * i) RESET_COUNTERS)
    ++ (List.range NUMBER_SLICES).map
      (fun i => Event.pwrite fd (0xE05 + 16 * i) FILTER_BOX_VALUE)
    ++ [Event.pwrite fd 0x700 ENABLE_COUNT]

/-- The trace of `k` counter reads through descriptor `fd`, from slice `i` on. -/
def reads_from (fd : Int) : Nat → Nat → List Event
  | 0, _ => []
  | k + 1, i => Event.pread fd (CHA_CBO_COUNTER_ADDRESS.getD i 0) :: reads_from fd k (i + 1)

/-- The values the environment hands out for `k` successive counter reads
through `fd`, from slice `i` on, when the trace so far is `tr`. -/
def read_values (env : Env) (fd : Int) : Nat → Nat → List Event → List Nat
  | 0, _, _ => []
  | k + 1, i, tr =>
    (match env.pread tr fd (CHA_CBO_COUNTER_ADDRESS.getD i 0) with
      | Except.ok (_, data) => data
      | Except.error _ => 0)
      :: read_values env fd k (i + 1) (tr ++ [Event.pread fd (CHA_CBO_COUNTER_ADDRESS.getD i 0)])

/-- An environment in which nothing fails and every counter reads 0. -/
def Env.idle : Env :=
  { open_ := fun _ _ => Except.ok 3
    pread := fun _ _ _ => Except.ok (8, 0)
    pwrite := fun _ _ _ _ => Except.ok 8 }

/-- A packet whose payload bytes 65..72 hold `key` in big-endian order; all
other bytes are 0. -/
def packet_with_key (key : Nat) : Nat → Nat :=
  fun a => if 65 ≤ a ∧ a < 73 then key / 256 ^ (72 - a) % 256 else 0

/-- An environment in which nothing fails and the counters of slices 1 and 2
(registers `0xE18` and `0xE28`) both read 9, every other one 4. -/
def Env.tied : Env :=
  { open_ := fun _ _ => Except.ok 3
    pread := fun _ _ reg => Except.ok (8, if reg = 0xE18 ∨ reg = 0xE28 then 9 else 4)
    pwrite := fun _ _ _ _ => Except.ok 8 }

/-- An environment in which the device can be opened for writing but every
`open` for reading fails with `errno` `e`. -/
def Env.no_read (e : Nat) : Env :=
  { open_ := fun _ wr => if wr then Except.ok 3 else Except.error e
    pread := fun _ _ _ => Except.ok (8, 0)
    pwrite := fun _ _ _ _ => Except.ok 8 }

/-- An environment in which the device can be opened for reading but every
`open` for writing fails with `errno` `e`. -/
def Env.no_write (e : Nat) : Env :=
  { open_ := fun _ wr => if wr then Except.error e else Except.ok 3
    pread := fun _ _ _ => Except.ok (8, 0)
    pwrite := fun _ _ _ _ => Except.ok 8 }

/-- The state of the process after its first register write, the one that
starts `uncore_init`: the write descriptor is open, the read descriptor is not. -/
def MsrState.written : MsrState :=
  { rd_fd := -1, wr_fd := 3, errno := 0,
    trace := [Event.open_ true, Event.pwrite 3 0x700 DISABLE_COUNT] }

/-- A backing block in which the element at address 4160 holds the value 2 and
every other byte is 0, with `read_counter` at its initial value. -/
def KvsState.sample : KvsState :=
  { mem := fun a => if a = 4160 then 2 else 0, read_counter := 0 }

/-- The parity bit `p_x` of the specification: XOR of all bits of the address
masked with `mask`. -/
def parityBit (pa mask : Nat) : Nat :=
  (xorOfBits (pa &&& mask)).toNat

/-! ## Parity lemmas -/

theorem builtin_parityll_lt_two (x : Nat) : builtin_parityll x < 2 := by
  unfold builtin_parityll
  omega

theorem countP_testBit_xor (a b : Nat) (l : List Nat) :
    l.countP (fun i => (a ^^^ b).testBit i) % 2 =
      (l.countP (fun i => a.testBit i) + l.countP (fun i => b.testBit i)) % 2 := by
  induction l with
  | nil => simp
  | cons i l ih =>
    have hx := Nat.testBit_xor a b i
    simp only [List.countP_cons]
    rw [hx]
    generalize l.countP (fun i => (a ^^^ b).testBit i) = n at ih ⊢
    generalize l.countP (fun i => a.testBit i) = na at ih ⊢
    generalize l.countP (fun i => b.testBit i) = nb at ih ⊢
    cases a.testBit i <;> cases b.testBit i <;> simp <;> omega

theorem builtin_parityll_xor (a b : Nat) :
    builtin_parityll (a ^^^ b) = (builtin_parityll a + builtin_parityll b) % 2 := by
  unfold builtin_parityll
  rw [countP_testBit_xor]
  omega

theorem foldl_xor_testBit (x : Nat) (l : List Nat) (acc : Bool) :
    l.foldl (fun acc i => xor acc (x.testBit i)) acc =
      xor acc (decide (l.countP (fun i => x.testBit i) % 2 = 1)) := by
  induction l generalizing acc with
  | nil => simp
  | cons i l ih =>
    simp only [List.foldl_cons, List.countP_cons, ih]
    have h := Nat.mod_two_eq_zero_or_one (l.countP (fun i => x.testBit i))
    cases acc <;> cases x.testBit i <;> rcases h with h | h <;> simp [h] <;> omega

theorem xorOfBits_toNat (x : Nat) : (xorOfBits x).toNat = builtin_parityll x := by
  unfold xorOfBits builtin_parityll
  rw [foldl_xor_testBit]
  have h := Nat.mod_two_eq_zero_or_one ((List.range 64).countP (fun i => x.testBit i))
  rcases h with h | h <;> simp [h]

theorem parityBit_eq (pa mask : Nat) : parityBit pa mask = rte_xorall64 (pa &&& mask) := by
  unfold parityBit rte_xorall64
  exact xorOfBits_toNat _

theorem concat_three_bits (a b c : Nat) (ha : a < 2) (hb : b < 2) (hc : c < 2) :
    ((((((0 <<< 1) ||| a) % 2 ^ 8) <<< 1 ||| b) % 2 ^ 8) <<< 1 ||| c) % 2 ^ 8 =
      4 * a + 2 * b + c := by
  interval_cases a <;> interval_cases b <;> interval_cases c <;> rfl

theorem calculateSlice_HF_haswell_eq (pa : Nat) :
    calculateSlice_HF_haswell pa =
      4 * rte_xorall64 (pa &&& hash_2) + 2 * rte_xorall64 (pa &&& hash_1)
        + rte_xorall64 (pa &&& hash_0) := by
  unfold calculateSlice_HF_haswell
  exact concat_three_bits _ _ _ (builtin_parityll_lt_two _) (builtin_parityll_lt_two _)
    (builtin_parityll_lt_two _)

theorem calculateSlice_HF_haswell_lt (pa : Nat) : calculateSlice_HF_haswell pa < 8 := by
  rw [calculateSlice_HF_haswell_eq]
  have h2 := builtin_parityll_lt_two (pa &&& hash_2)
  have h1 := builtin_parityll_lt_two (pa &&& hash_1)
  have h0 := builtin_parityll_lt_two (pa &&& hash_0)
  unfold rte_xorall64
  omega

/-! ## The classifier inside an aligned 512-byte block -/

theorem mul_add_eq_xor (q lo : Nat) (hlo : lo < 2 ^ 9) :
    2 ^ 9 * q + lo = (2 ^ 9 * q) ^^^ lo := by
  apply Nat.eq_of_testBit_eq
  intro j
  rw [Nat.testBit_xor, Nat.testBit_mul_pow_two_add q hlo j, Nat.testBit_mul_pow_two]
  by_cases hj : j < 9
  · have h9 : ¬ 9 ≤ j := by omega
    simp [hj, h9]
  · have h9 : 9 ≤ j := by omega
    have hlt : lo < 2 ^ j := lt_of_lt_of_le hlo (Nat.pow_le_pow_right (by decide) h9)
    simp [hj, h9, Nat.testBit_lt_two_pow hlt]

theorem rte_xorall64_block (q lo mask : Nat) (hlo : lo < 512) :
    rte_xorall64 ((512 * q + lo) &&& mask) =
      (rte_xorall64 ((512 * q) &&& mask) + rte_xorall64 (lo &&& mask)) % 2 := by
  have h := mul_add_eq_xor q lo (by simpa using hlo)
  have h512 : (2 : Nat) ^ 9 = 512 := by decide
  rw [h512] at h
  unfold rte_xorall64
  rw [h, Nat.and_xor_distrib_right, builtin_parityll_xor]

theorem rte_xorall64_low_0 : ∀ lo, lo < 512 → rte_xorall64 (lo &&& hash_0) = lo / 64 % 2 := by
  decide!

theorem rte_xorall64_low_1 : ∀ lo, lo < 512 → rte_xorall64 (lo &&& hash_1) = lo / 128 % 2 := by
  decide!

theorem rte_xorall64_low_2 : ∀ lo, lo < 512 → rte_xorall64 (lo &&& hash_2) = lo / 256 % 2 := by
  decide!

theorem xor_three_bits : ∀ a, a < 2 → ∀ b, b < 2 → ∀ c, c < 2 → ∀ j, j < 8 →
    4 * ((a + j / 4 % 2) % 2) + 2 * ((b + j / 2 % 2) % 2) + (c + j % 2) % 2 =
      (4 * a + 2 * b + c) ^^^ j := by
  decide

/-- Inside an aligned 512-byte block the slice of line `j` is the slice of the
block's first line XOR `j`; the byte offset `r` inside the line has no
influence. -/
theorem calculateSlice_HF_haswell_block (q j r : Nat) (hj : j < 8) (hr : r < 64) :
    calculateSlice_HF_haswell (512 * q + 64 * j + r) =
      calculateSlice_HF_haswell (512 * q) ^^^ j := by
  have hlo : 64 * j + r < 512 := by omega
  have e0 := rte_xorall64_low_0 _ hlo
  have e1 := rte_xorall64_low_1 _ hlo
  have e2 := rte_xorall64_low_2 _ hlo
  have d0 : (64 * j + r) / 64 % 2 = j % 2 := by omega
  have d1 : (64 * j + r) / 128 % 2 = j / 2 % 2 := by omega
  have d2 : (64 * j + r) / 256 % 2 = j / 4 % 2 := by omega
  have hx : 512 * q + 64 * j + r = 512 * q + (64 * j + r) := by omega
  rw [hx, calculateSlice_HF_haswell_eq, calculateSlice_HF_haswell_eq,
    rte_xorall64_block q _ hash_0 hlo, rte_xorall64_block q _ hash_1 hlo,
    rte_xorall64_block q _ hash_2 hlo, e0, e1, e2, d0, d1, d2]
  exact xor_three_bits _ (builtin_parityll_lt_two _) _ (builtin_parityll_lt_two _) _
    (builtin_parityll_lt_two _) j hj

/-! ## The scan of `sliceFinder_HF_haswell` -/

theorem xor_xor_cancel (a s : Nat) : a ^^^ (a ^^^ s) = s := by
  rw [← Nat.xor_assoc, Nat.xor_self, Nat.zero_xor]

theorem xor_lt_eight (a s : Nat) (ha : a < 8) (hs : s < 8) : a ^^^ s < 8 := by
  have h := @Nat.xor_lt_two_pow a s 3 (by simpa using ha) (by simpa using hs)
  simpa using h

/-- The line of slice `s` in the aligned block `q` is line
`calculateSlice_HF_haswell (512 * q) ^^^ s`. -/
theorem calculateSlice_HF_haswell_block_match (q s r : Nat) (hs : s < 8) (hr : r < 64) :
    calculateSlice_HF_haswell
      (512 * q + 64 * (calculateSlice_HF_haswell (512 * q) ^^^ s) + r) = s := by
  have ht := xor_lt_eight _ s (calculateSlice_HF_haswell_lt (512 * q)) hs
  rw [calculateSlice_HF_haswell_block q _ r ht hr, xor_xor_cancel]

/-- Line `j` of block `q` has slice `s` only if `j` is the line singled out by
`calculateSlice_HF_haswell_block_match`. -/
theorem calculateSlice_HF_haswell_block_unique (q j r s : Nat) (hj : j < 8) (hr : r < 64)
    (h : calculateSlice_HF_haswell (512 * q + 64 * j + r) = s) :
    j = calculateSlice_HF_haswell (512 * q) ^^^ s := by
  rw [calculateSlice_HF_haswell_block q j r hj hr] at h
  rw [← h, xor_xor_cancel]

theorem exists_match_within (x s : Nat) (hx : x < 2 ^ 64) (hs : s < 8) :
    ∃ m, m ≤ 14 ∧ calculateSlice_HF_haswell ((x + 64 * m) % 2 ^ 64) = s := by
  have hj : x / 64 % 8 < 8 := Nat.mod_lt _ (by decide)
  have hr : x % 64 < 64 := Nat.mod_lt _ (by decide)
  have ht := xor_lt_eight _ s (calculateSlice_HF_haswell_lt (512 * (x / 512))) hs
  have ht2 := xor_lt_eight _ s
    (calculateSlice_HF_haswell_lt (512 * ((x / 512 + 1) % 2 ^ 55))) hs
  have hm := calculateSlice_HF_haswell_block_match (x / 512) s (x % 64) hs hr
  have hm2 := calculateSlice_HF_haswell_block_match ((x / 512 + 1) % 2 ^ 55) s (x % 64) hs hr
  generalize calculateSlice_HF_haswell (512 * (x / 512)) ^^^ s = t at ht hm
  generalize calculateSlice_HF_haswell (512 * ((x / 512 + 1) % 2 ^ 55)) ^^^ s = t2 at ht2 hm2
  by_cases hc : x / 64 % 8 ≤ t
  · refine ⟨t - x / 64 % 8, by omega, ?_⟩
    have e : (x + 64 * (t - x / 64 % 8)) % 2 ^ 64 = 512 * (x / 512) + 64 * t + x % 64 := by
      omega
    rw [e]
    exact hm
  · refine ⟨8 - x / 64 % 8 + t2, by omega, ?_⟩
    have e : (x + 64 * (8 - x / 64 % 8 + t2)) % 2 ^ 64 =
        512 * ((x / 512 + 1) % 2 ^ 55) + 64 * t2 + x % 64 := by
      omega
    rw [e]
    exact hm2

theorem exists_first_match (x s : Nat) (hx : x < 2 ^ 64) (hs : s < 8) :
    ∃ m0, m0 ≤ 14 ∧ calculateSlice_HF_haswell ((x + 64 * m0) % 2 ^ 64) = s ∧
      ∀ k, k < m0 → calculateSlice_HF_haswell ((x + 64 * k) % 2 ^ 64) ≠ s := by
  have hex : ∃ m, calculateSlice_HF_haswell ((x + 64 * m) % 2 ^ 64) = s := by
    obtain ⟨m, _, hm⟩ := exists_match_within x s hx hs
    exact ⟨m, hm⟩
  obtain ⟨m, hm14, hm⟩ := exists_match_within x s hx hs
  refine ⟨Nat.find hex, le_trans (Nat.find_min' hex hm) hm14, Nat.find_spec hex, ?_⟩
  intro k hk
  exact Nat.find_min hex hk

theorem sliceFinder_HF_haswell_loop_first (pa s m0 : Nat)
    (hmatch : calculateSlice_HF_haswell ((pa + 64 * m0) % 2 ^ 64) = s)
    (hbefore : ∀ k, k < m0 → calculateSlice_HF_haswell ((pa + 64 * k) % 2 ^ 64) ≠ s)
    (hsmall : 64 * m0 < 2 ^ 16) :
    ∀ fuel m evals, m ≤ m0 → m0 < m + fuel →
      sliceFinder_HF_haswell_loop pa s fuel (64 * m) evals =
        some (64 * m0, evals + (m0 - m) + 1) := by
  intro fuel
  induction fuel with
  | zero => intro m evals h1 h2; omega
  | succ fuel ih =>
    intro m evals h1 h2
    unfold sliceFinder_HF_haswell_loop
    by_cases hm : m = m0
    · subst hm
      rw [if_neg (fun h => h hmatch.symm)]
      congr 2
      omega
    · have hlt : m < m0 := by omega
      have hne := hbefore m hlt
      have hoff : (64 * m + LINE) % 2 ^ 16 = 64 * (m + 1) := by
        unfold LINE
        omega
      rw [if_pos (fun h => hne h.symm), hoff, ih (m + 1) (evals + 1) (by omega) (by omega)]
      congr 2
      omega

/-- For a target slice below 8 the scan stops at the first matching line,
which is one of the first 15 candidate lines. -/
theorem sliceFinder_HF_haswell_run_spec (pa s : Nat) (hpa : pa < 2 ^ 64) (hs : s < 8) :
    ∃ m0, m0 ≤ 14 ∧ calculateSlice_HF_haswell ((pa + 64 * m0) % 2 ^ 64) = s ∧
      (∀ k, k < m0 → calculateSlice_HF_haswell ((pa + 64 * k) % 2 ^ 64) ≠ s) ∧
      ∀ fuel, 15 ≤ fuel → sliceFinder_HF_haswell_run fuel pa s = some (64 * m0, m0 + 1) := by
  obtain ⟨m0, h14, hmatch, hbefore⟩ := exists_first_match pa s hpa hs
  refine ⟨m0, h14, hmatch, hbefore, ?_⟩
  intro fuel hfuel
  have h := sliceFinder_HF_haswell_loop_first pa s m0 hmatch hbefore (by omega) fuel 0 0
    (by omega) (by omega)
  simpa [sliceFinder_HF_haswell_run] using h

/-! ## The element loop of `create_array` -/

theorem getD_set_eq (l : List Nat) (i a : Nat) (h : i < l.length) :
    (l.set i a).getD i 0 = a := by
  simp [List.getD_eq_getElem?_getD, h]

theorem getD_set_ne (l : List Nat) (i j a : Nat) (h : i ≠ j) :
    (l.set i a).getD j 0 = l.getD j 0 := by
  simp [List.getD_eq_getElem?_getD, List.getElem?_set_ne h]

theorem create_array_body_zero (slice mem_virtual mem_iova n m0 : Nat) (st : ArrayState)
    (hn : 0 < n) (hm0 : FirstMatch mem_iova slice m0)
    (inv : ArrayInv slice mem_virtual mem_iova n m0 0 st) (fuel : Nat) :
    ∃ st1, create_array_body fuel slice mem_virtual mem_iova 0 st = some st1 ∧
      ArrayInv slice mem_virtual mem_iova n m0 1 st1 := by
  have hoff := inv.off0 rfl
  have hlen := inv.len
  have hlen2 := inv.len_iova
  simp only [create_array_body, if_true, Option.map_some']
  refine ⟨_, rfl, ?_⟩
  · have ha : (st.array.set 0 ((mem_virtual + st.offset) % 2 ^ 64)).getD 0 0 =
        (mem_virtual + 64 * m0) % 2 ^ 64 := by
      rw [getD_set_eq _ _ _ (by omega), hoff]
    have hi : (st.array_iova.set 0 ((mem_iova + st.offset) % 2 ^ 64)).getD 0 0 =
        (mem_iova + 64 * m0) % 2 ^ 64 := by
      rw [getD_set_eq _ _ _ (by omega), hoff]
    constructor
    · simpa using hlen
    · simpa using hlen2
    · intro h; omega
    · intro _
      exact ⟨hi, ha⟩
    · intro j hj
      have : j = 0 := by omega
      subst this
      show calculateSlice_HF_haswell
        ((st.array_iova.set 0 ((mem_iova + st.offset) % 2 ^ 64)).getD 0 0) = slice
      rw [hi]
      exact hm0.1
    · intro j hj
      have : j = 0 := by omega
      subst this
      show (st.array_iova.set 0 ((mem_iova + st.offset) % 2 ^ 64)).getD 0 0 < 2 ^ 64 ∧
        (st.array.set 0 ((mem_virtual + st.offset) % 2 ^ 64)).getD 0 0 < 2 ^ 64
      rw [hi, ha]
      exact ⟨Nat.mod_lt _ (by positivity), Nat.mod_lt _ (by positivity)⟩
    · intro j hj; omega
    · intro j hj _
      have : j = 0 := by omega
      subst this
      simp

theorem create_array_body_succ (slice mem_virtual mem_iova n m0 i : Nat) (st : ArrayState)
    (hs : slice < 8) (hi : i + 1 < n)
    (inv : ArrayInv slice mem_virtual mem_iova n m0 (i + 1) st) (fuel : Nat)
    (hfuel : 15 ≤ fuel) :
    ∃ st1, create_array_body fuel slice mem_virtual mem_iova (i + 1) st = some st1 ∧
      ArrayInv slice mem_virtual mem_iova n m0 (i + 2) st1 := by
  have hlen := inv.len
  have hlen2 := inv.len_iova
  obtain ⟨hprev, hprevv⟩ := inv.bound i (by omega)
  have hx : (st.array_iova.getD i 0 + 64) % 2 ^ 64 < 2 ^ 64 := Nat.mod_lt _ (by positivity)
  obtain ⟨m, hm14, hmatch, hbefore, hrun⟩ := sliceFinder_HF_haswell_run_spec _ slice hx hs
  have hmod : slice % 2 ^ 8 = slice := Nat.mod_eq_of_lt (by omega)
  have hoff : (64 + 64 * m) % 2 ^ 64 = 64 + 64 * m := Nat.mod_eq_of_lt (by omega)
  simp only [create_array_body, Nat.add_one_ne_zero, if_false, Nat.add_sub_cancel, hmod,
    hrun fuel hfuel, Option.map_some', hoff]
  refine ⟨_, rfl, ?_⟩
  have hne : ∀ j, j < i + 1 → i + 1 ≠ j := fun j hj => by omega
  have hnewi : (st.array_iova.set (i + 1)
      ((st.array_iova.getD i 0 + (64 + 64 * m)) % 2 ^ 64)).getD (i + 1) 0 =
      (st.array_iova.getD i 0 + (64 + 64 * m)) % 2 ^ 64 := getD_set_eq _ _ _ (by omega)
  have hnewa : (st.array.set (i + 1)
      ((st.array.getD i 0 + (64 + 64 * m)) % 2 ^ 64)).getD (i + 1) 0 =
      (st.array.getD i 0 + (64 + 64 * m)) % 2 ^ 64 := getD_set_eq _ _ _ (by omega)
  have hval : (st.array_iova.getD i 0 + (64 + 64 * m)) % 2 ^ 64 =
      ((st.array_iova.getD i 0 + 64) % 2 ^ 64 + 64 * m) % 2 ^ 64 := by omega
  constructor
  · simpa using hlen
  · simpa using hlen2
  · intro h; omega
  · intro _
    dsimp only
    rw [getD_set_ne _ _ _ _ (hne 0 (by omega)), getD_set_ne _ _ _ _ (hne 0 (by omega))]
    exact inv.first (by omega)
  · intro j hj
    dsimp only
    by_cases hji : j = i + 1
    · subst hji
      rw [hnewi, hval]
      exact hmatch
    · rw [getD_set_ne _ _ _ _ (hne j (by omega))]
      exact inv.slice_eq j (by omega)
  · intro j hj
    dsimp only
    by_cases hji : j = i + 1
    · subst hji
      rw [hnewi, hnewa]
      exact ⟨Nat.mod_lt _ (by positivity), Nat.mod_lt _ (by positivity)⟩
    · rw [getD_set_ne _ _ _ _ (hne j (by omega)), getD_set_ne _ _ _ _ (hne j (by omega))]
      exact inv.bound j (by omega)
  · intro j hj
    dsimp only
    by_cases hji : j = i
    · subst hji
      rw [hnewi, hnewa, getD_set_ne _ _ _ _ (hne j (by omega)),
        getD_set_ne _ _ _ _ (hne j (by omega))]
      exact ⟨m, hm14, ⟨hmatch, hbefore⟩, rfl, rfl⟩
    · rw [getD_set_ne _ _ _ _ (hne j (by omega)), getD_set_ne _ _ _ _ (hne j (by omega)),
        getD_set_ne _ _ _ _ (hne (j + 1) (by omega)),
        getD_set_ne _ _ _ _ (hne (j + 1) (by omega))]
      exact inv.next j (by omega)
  · intro j hj hdist
    dsimp only at hdist ⊢
    by_cases hji : j = i + 1
    · subst hji
      rw [if_pos rfl]
    · have hd := hdist (i + 1) (by omega) (by omega)
      rw [if_neg (fun h => hd h.symm), getD_set_ne _ _ _ _ (hne j (by omega))]
      apply inv.stored j (by omega)
      intro k hk1 hk2
      have hk := hdist k hk1 (by omega)
      rw [getD_set_ne _ _ _ _ (hne j (by omega)), getD_set_ne _ _ _ _ (hne k (by omega))] at hk
      exact hk

theorem create_array_for_spec (slice mem_virtual mem_iova n m0 fuel : Nat) (hs : slice < 8)
    (hm0 : FirstMatch mem_iova slice m0) (hfuel : 15 ≤ fuel) :
    ∀ k i st, i + k = n → ArrayInv slice mem_virtual mem_iova n m0 i st →
      ∃ st1, create_array_for fuel slice mem_virtual mem_iova k i st = some st1 ∧
        ArrayInv slice mem_virtual mem_iova n m0 n st1 := by
  intro k
  induction k with
  | zero =>
    intro i st hik inv
    have : i = n := by omega
    subst this
    exact ⟨st, rfl, inv⟩
  | succ k ih =>
    intro i st hik inv
    have hstep : ∃ st1, create_array_body fuel slice mem_virtual mem_iova i st = some st1 ∧
        ArrayInv slice mem_virtual mem_iova n m0 (i + 1) st1 := by
      rcases i with _ | i
      · exact create_array_body_zero slice mem_virtual mem_iova n m0 st (by omega) hm0 inv fuel
      · exact create_array_body_succ slice mem_virtual mem_iova n m0 i st hs (by omega) inv
          fuel hfuel
    obtain ⟨st1, hbody, inv1⟩ := hstep
    obtain ⟨st2, hfor, inv2⟩ := ih (i + 1) st1 (by omega) inv1
    refine ⟨st2, ?_, inv2⟩
    simp only [create_array_for, hbody]
    exact hfor

/-- The result of `create_array` for a target slice below 8: with fuel for 15
candidate lines per search the function returns, and the returned state
satisfies `ArrayInv` for all `nb_keys` elements; the validation pass flags
nothing. -/
theorem create_array_spec (nb_keys slice mem_virtual mem_iova fuel : Nat) (hs : slice < 8)
    (hiova : mem_iova < 2 ^ 64) (hfuel : 15 ≤ fuel) :
    ∃ st m0, create_array fuel nb_keys slice mem_virtual mem_iova = some st ∧ m0 ≤ 14 ∧
      FirstMatch mem_iova slice m0 ∧
      ArrayInv slice mem_virtual mem_iova nb_keys m0 nb_keys st ∧ st.wrong = [] := by
  obtain ⟨m0, hm14, hmatch, hbefore, hrun⟩ :=
    sliceFinder_HF_haswell_run_spec mem_iova slice hiova hs
  have hmod : slice % 2 ^ 8 = slice := Nat.mod_eq_of_lt (by omega)
  have inv0 : ArrayInv slice mem_virtual mem_iova nb_keys m0 0
      { array := List.replicate nb_keys 0, array_iova := List.replicate nb_keys 0,
        mem := fun _ => 0, offset := 64 * m0, evals := m0 + 1, wrong := [] } := by
    constructor
    · simp
    · simp
    · intro _; rfl
    · intro h; omega
    · intro j hj; omega
    · intro j hj; omega
    · intro j hj; omega
    · intro j hj; omega
  obtain ⟨st1, hfor, inv1⟩ := create_array_for_spec slice mem_virtual mem_iova nb_keys m0 fuel
    hs ⟨hmatch, hbefore⟩ hfuel nb_keys 0 _ (by omega) inv0
  refine ⟨create_array_validate nb_keys slice st1, m0, ?_, hm14, ⟨hmatch, hbefore⟩, ?_, ?_⟩
  · simp only [create_array, hmod, hrun fuel hfuel, hfor, Option.map_some']
  · exact ⟨inv1.len, inv1.len_iova, inv1.off0, inv1.first, inv1.slice_eq, inv1.bound,
      inv1.next, inv1.stored⟩
  · show (List.range nb_keys).filter
      (fun i => calculateSlice_HF_haswell (st1.array_iova.getD i 0) ≠ slice) = []
    rw [List.filter_eq_nil_iff]
    intro i hi
    have := inv1.slice_eq i (List.mem_range.mp hi)
    simpa using this

/-! ## Where the scan stops, in terms of aligned 512-byte blocks -/

/-- The first match from `x` lies in the block of `x` or in the next one, and
in the block of `x` when `x` lies in the first line of its block. -/
theorem first_match_block (x s m0 : Nat) (hs : s < 8)
    (hnw : 512 * (x / 512) + 1024 ≤ 2 ^ 64) (hm : FirstMatch x s m0) :
    x + 64 * m0 < 2 ^ 64 ∧ x / 512 ≤ (x + 64 * m0) / 512 ∧
      (x + 64 * m0) / 512 ≤ x / 512 + 1 ∧
      (x % 512 < 64 → (x + 64 * m0) / 512 = x / 512) := by
  obtain ⟨_, hbefore⟩ := hm
  have hr : x % 64 < 64 := Nat.mod_lt _ (by decide)
  have ht := xor_lt_eight _ s (calculateSlice_HF_haswell_lt (512 * (x / 512))) hs
  have ht2 := xor_lt_eight _ s (calculateSlice_HF_haswell_lt (512 * (x / 512 + 1))) hs
  have hc := calculateSlice_HF_haswell_block_match (x / 512) s (x % 64) hs hr
  have hc2 := calculateSlice_HF_haswell_block_match (x / 512 + 1) s (x % 64) hs hr
  generalize calculateSlice_HF_haswell (512 * (x / 512)) ^^^ s = t at ht hc
  generalize calculateSlice_HF_haswell (512 * (x / 512 + 1)) ^^^ s = t2 at ht2 hc2
  by_cases hjt : x / 64 % 8 ≤ t
  · have hle : m0 ≤ t - x / 64 % 8 := by
      by_contra hcon
      apply hbefore (t - x / 64 % 8) (by omega)
      have e : (x + 64 * (t - x / 64 % 8)) % 2 ^ 64 = 512 * (x / 512) + 64 * t + x % 64 := by
        omega
      rw [e]
      exact hc
    omega
  · have hle : m0 ≤ 8 - x / 64 % 8 + t2 := by
      by_contra hcon
      apply hbefore (8 - x / 64 % 8 + t2) (by omega)
      have e : (x + 64 * (8 - x / 64 % 8 + t2)) % 2 ^ 64 =
          512 * (x / 512 + 1) + 64 * t2 + x % 64 := by
        omega
      rw [e]
      exact hc2
    omega

/-- When `x` classifies to `s`, the first match after the line of `x` lies in
the block that follows the block of `x`: every aligned block holds exactly
one line of each slice. -/
theorem next_match_block (x s m : Nat) (hs : s < 8) (hx : calculateSlice_HF_haswell x = s)
    (hnw : 512 * (x / 512) + 1024 ≤ 2 ^ 64) (hm : FirstMatch ((x + 64) % 2 ^ 64) s m) :
    x + (64 + 64 * m) < 2 ^ 64 ∧ (x + (64 + 64 * m)) / 512 = x / 512 + 1 := by
  obtain ⟨hmatch, hbefore⟩ := hm
  have hj : x / 64 % 8 < 8 := Nat.mod_lt _ (by decide)
  have hr : x % 64 < 64 := Nat.mod_lt _ (by decide)
  have hdec : x = 512 * (x / 512) + 64 * (x / 64 % 8) + x % 64 := by omega
  have hxj : x / 64 % 8 = calculateSlice_HF_haswell (512 * (x / 512)) ^^^ s := by
    apply calculateSlice_HF_haswell_block_unique (x / 512) _ (x % 64) s hj hr
    rw [← hdec]
    exact hx
  have ht2 := xor_lt_eight _ s (calculateSlice_HF_haswell_lt (512 * (x / 512 + 1))) hs
  have hc2 := calculateSlice_HF_haswell_block_match (x / 512 + 1) s (x % 64) hs hr
  generalize calculateSlice_HF_haswell (512 * (x / 512 + 1)) ^^^ s = t2 at ht2 hc2
  have hle : m ≤ 7 - x / 64 % 8 + t2 := by
    by_contra hcon
    apply hbefore (7 - x / 64 % 8 + t2) (by omega)
    have e : ((x + 64) % 2 ^ 64 + 64 * (7 - x / 64 % 8 + t2)) % 2 ^ 64 =
        512 * (x / 512 + 1) + 64 * t2 + x % 64 := by
      omega
    rw [e]
    exact hc2
  have hge : 7 - x / 64 % 8 ≤ m := by
    by_contra hcon
    have e : ((x + 64) % 2 ^ 64 + 64 * m) % 2 ^ 64 =
        512 * (x / 512) + 64 * (x / 64 % 8 + 1 + m) + x % 64 := by
      omega
    rw [e] at hmatch
    have hu := calculateSlice_HF_haswell_block_unique (x / 512) _ (x % 64) s
      (by omega) hr hmatch
    omega
  omega

/-- From an address in the first line of its block the first match lies in
that same block. -/
theorem first_match_block_aligned (x s m0 : Nat) (hs : s < 8) (hx : x < 2 ^ 64)
    (hal : x % 512 < 64) (hm : FirstMatch x s m0) :
    x + 64 * m0 < 2 ^ 64 ∧ (x + 64 * m0) / 512 = x / 512 := by
  obtain ⟨_, hbefore⟩ := hm
  have hr : x % 64 < 64 := Nat.mod_lt _ (by decide)
  have ht := xor_lt_eight _ s (calculateSlice_HF_haswell_lt (512 * (x / 512))) hs
  have hc := calculateSlice_HF_haswell_block_match (x / 512) s (x % 64) hs hr
  generalize calculateSlice_HF_haswell (512 * (x / 512)) ^^^ s = t at ht hc
  have hle : m0 ≤ t := by
    by_contra hcon
    apply hbefore t (by omega)
    have e : (x + 64 * t) % 2 ^ 64 = 512 * (x / 512) + 64 * t + x % 64 := by omega
    rw [e]
    exact hc
  omega

/-- Consecutive elements lie in consecutive aligned blocks, as long as the
blocks up to the last element fit below `2 ^ 64`; the virtual addresses
advance by the same amounts as the physical ones. -/
theorem array_iova_chain (slice mem_virtual mem_iova n m0 : Nat) (st : ArrayState)
    (hs : slice < 8) (inv : ArrayInv slice mem_virtual mem_iova n m0 n st)
    (hnw : 512 * (st.array_iova.getD 0 0 / 512 + n) ≤ 2 ^ 64) :
    ∀ i, i < n →
      st.array_iova.getD i 0 / 512 = st.array_iova.getD 0 0 / 512 + i ∧
      st.array_iova.getD i 0 % 64 = st.array_iova.getD 0 0 % 64 ∧
      st.array_iova.getD 0 0 ≤ st.array_iova.getD i 0 ∧
      st.array.getD i 0 =
        (st.array.getD 0 0 + (st.array_iova.getD i 0 - st.array_iova.getD 0 0)) % 2 ^ 64 := by
  intro i
  induction i with
  | zero =>
    intro h0
    have hb := (inv.bound 0 h0).2
    refine ⟨by omega, rfl, le_refl _, ?_⟩
    rw [Nat.sub_self, Nat.add_zero, Nat.mod_eq_of_lt hb]
  | succ i ih =>
    intro hi
    obtain ⟨hblk, hline, hle, hvirt⟩ := ih (by omega)
    obtain ⟨m, _, hfm, hnexti, hnexta⟩ := inv.next i hi
    have hx := inv.slice_eq i (by omega)
    obtain ⟨hlt, hdiv⟩ := next_match_block _ slice m hs hx (by omega) hfm
    rw [Nat.mod_eq_of_lt hlt] at hnexti
    refine ⟨by omega, by omega, by omega, ?_⟩
    rw [hnexta, hvirt, hnexti]
    omega

/-- The chain of `array_iova_chain`, counted from the backing block: element
`i` lies `i` blocks after the block of element 0, at the same offset inside
its line as `mem_iova`, and its virtual address is as far from `mem_virtual`
as its physical address is from `mem_iova`. -/
theorem array_iova_blocks (slice mem_virtual mem_iova n m0 : Nat) (st : ArrayState)
    (hs : slice < 8) (inv : ArrayInv slice mem_virtual mem_iova n m0 n st)
    (hnw0 : mem_iova + 64 * m0 < 2 ^ 64)
    (hnw : 512 * ((mem_iova + 64 * m0) / 512 + n) ≤ 2 ^ 64) :
    ∀ i, i < n →
      st.array_iova.getD i 0 / 512 = (mem_iova + 64 * m0) / 512 + i ∧
      st.array_iova.getD i 0 % 64 = mem_iova % 64 ∧
      mem_iova + 64 * m0 ≤ st.array_iova.getD i 0 ∧
      st.array.getD i 0 = (mem_virtual + (st.array_iova.getD i 0 - mem_iova)) % 2 ^ 64 := by
  intro i hi
  obtain ⟨h0i, h0a⟩ := inv.first (by omega)
  rw [Nat.mod_eq_of_lt hnw0] at h0i
  have hc := array_iova_chain slice mem_virtual mem_iova n m0 st hs inv (by rw [h0i]; exact hnw)
    i hi
  rw [h0i, h0a] at hc
  obtain ⟨h1, h2, h3, h4⟩ := hc
  refine ⟨h1, by omega, h3, ?_⟩
  rw [h4]
  omega

/-- When the backing block of `nb_keys * 8` lines lies inside the 64-bit address
space, no address computed by `create_array` wraps around: the first element and
the blocks of all `nb_keys` elements lie below `2 ^ 64`. -/
theorem create_array_fit (nb_keys slice mem_iova m0 : Nat) (hs : slice < 8) (hn : 0 < nb_keys)
    (hfit : mem_iova + nb_keys * 8 * 64 ≤ 2 ^ 64) (hfm : FirstMatch mem_iova slice m0) :
    mem_iova + 64 * m0 < 2 ^ 64 ∧
      512 * ((mem_iova + 64 * m0) / 512 + nb_keys) ≤ 2 ^ 64 := by
  by_cases hal : mem_iova % 512 < 64
  · obtain ⟨h1, h2⟩ := first_match_block_aligned mem_iova slice m0 hs (by omega) hal hfm
    rw [h2]
    omega
  · obtain ⟨h1, _, h2, _⟩ := first_match_block mem_iova slice m0 hs (by omega) hfm
    omega

/-- Elements in consecutive aligned blocks have increasing addresses. -/
theorem block_step_lt (x y b i : Nat) (hx : x / 512 = b + i) (hy : y / 512 = b + (i + 1)) :
    x < y := by
  omega

/-- Addresses at the same position inside their lines differ by a multiple of
the line size. -/
theorem line_step_dvd (x y r : Nat) (hx : x % 64 = r) (hy : y % 64 = r) : 64 ∣ y - x := by
  omega

/-- A 64-bit step of at most 15 lines that ends above its start has not wrapped
around, so it spans at most 960 bytes. -/
theorem wrap_step_le (x y m : Nat) (hx : x < 2 ^ 64) (hm : m ≤ 14)
    (hy : y = (x + (64 + 64 * m)) % 2 ^ 64) (hlt : x < y) : y - x ≤ 960 := by
  have h : x + (64 + 64 * m) < 2 ^ 64 ∨ 2 ^ 64 ≤ x + (64 + 64 * m) := by omega
  rcases h with h | h
  · rw [Nat.mod_eq_of_lt h] at hy
    omega
  · have h2 : (x + (64 + 64 * m)) % 2 ^ 64 = x + (64 + 64 * m) - 2 ^ 64 := by
      rw [Nat.mod_eq_sub_mod h]
      exact Nat.mod_eq_of_lt (by omega)
    omega

/-- An element that is not the first lies less than `n + 1` blocks after the
base. -/
theorem block_step_fit (y b i n mem : Nat) (hy : y / 512 = b + (i + 1)) (hi : i + 1 < n)
    (hb : b ≤ mem / 512 + 1) : y < mem + (n + 1) * 8 * 64 := by
  omega

/-- Virtual addresses that follow the physical ones at a fixed distance, in a
virtual block with room for `n + 1` blocks, increase with them. -/
theorem virt_step (a a2 v x y mem n : Nat) (ha : a = (v + (x - mem)) % 2 ^ 64)
    (ha2 : a2 = (v + (y - mem)) % 2 ^ 64) (hx : mem ≤ x) (hlt : x < y)
    (hy : y < mem + (n + 1) * 8 * 64) (hv : v + (n + 1) * 8 * 64 ≤ 2 ^ 64) :
    a < a2 ∧ a2 - a = y - x := by
  rw [Nat.mod_eq_of_lt (by omega)] at ha ha2
  omega

theorem sliceFinder_HF_haswell_loop_none (pa s : Nat) (hs : 8 ≤ s) :
    ∀ fuel offset evals, sliceFinder_HF_haswell_loop pa s fuel offset evals = none := by
  intro fuel
  induction fuel with
  | zero => intro offset evals; rfl
  | succ fuel ih =>
    intro offset evals
    unfold sliceFinder_HF_haswell_loop
    have hlt := calculateSlice_HF_haswell_lt ((pa + offset) % 2 ^ 64)
    rw [if_pos (by omega)]
    exact ih _ _

/-! ## The closed-form classifier: results -/

/-- C1: for every address `pa` the slice computed by `calculateSlice_HF_haswell`
is `4 * p2 + 2 * p1 + p0`, where `p_x` is the XOR of all bits of `pa AND hash_x`
and the masks are `0x1B5F575440`, `0x2EB5FAA880` and `0x3CCCC93100`: the three
parity bits are concatenated most-significant first. -/
theorem calculateSlice_HF_haswell_concat (pa : Nat) :
    hash_0 = 0x1B5F575440 ∧ hash_1 = 0x2EB5FAA880 ∧ hash_2 = 0x3CCCC93100 ∧
      calculateSlice_HF_haswell pa =
        4 * parityBit pa hash_2 + 2 * parityBit pa hash_1 + parityBit pa hash_0 := by
  refine ⟨rfl, rfl, rfl, ?_⟩
  rw [parityBit_eq, parityBit_eq, parityBit_eq]
  exact calculateSlice_HF_haswell_eq pa

/-- C2: `calculateSlice_HF_haswell` is a total function whose value is a valid
slice index, `0 <= result < 8`, for every input, and equal inputs give equal
results. -/
theorem calculateSlice_HF_haswell_range (pa : Nat) :
    0 ≤ calculateSlice_HF_haswell pa ∧ calculateSlice_HF_haswell pa < 8 ∧
      ∀ pa2, pa2 = pa → calculateSlice_HF_haswell pa2 = calculateSlice_HF_haswell pa :=
  ⟨Nat.zero_le _, calculateSlice_HF_haswell_lt pa, fun _ h => congrArg _ h⟩

/-- C10: each of the three reference masks is smaller than `2 ^ 40`, and address 0
classifies to slice 0 with all three parities zero. -/
theorem calculateSlice_HF_haswell_zero :
    hash_0 < 2 ^ 40 ∧ hash_1 < 2 ^ 40 ∧ hash_2 < 2 ^ 40 ∧
      rte_xorall64 (0 &&& hash_0) = 0 ∧ rte_xorall64 (0 &&& hash_1) = 0 ∧
      rte_xorall64 (0 &&& hash_2) = 0 ∧ calculateSlice_HF_haswell 0 = 0 := by
  decide

/-! ## The scan: results -/

/-- C4: for every 64-bit address `pa` and every `desiredSlice` below 8 the
function `sliceFinder_HF_haswell` returns an offset `o` that is a multiple of 64
with `calculateSlice_HF_haswell (pa + o) = desiredSlice` (the sum taken as the
`uint64_t` it is in C), and `o` is the least such offset: no smaller multiple of
64 leads to a line of the desired slice. -/
theorem sliceFinder_HF_haswell_least (pa desiredSlice fuel : Nat) (hpa : pa < 2 ^ 64)
    (hs : desiredSlice < 8) (hfuel : 15 ≤ fuel) :
    ∃ o, sliceFinder_HF_haswell fuel pa desiredSlice = some o ∧ 64 ∣ o ∧
      calculateSlice_HF_haswell ((pa + o) % 2 ^ 64) = desiredSlice ∧
      ∀ k, 64 ∣ k → k < o → calculateSlice_HF_haswell ((pa + k) % 2 ^ 64) ≠ desiredSlice := by
  obtain ⟨m0, _, hmatch, hbefore, hrun⟩ := sliceFinder_HF_haswell_run_spec pa desiredSlice hpa hs
  refine ⟨64 * m0, ?_, Nat.dvd_mul_right _ _, hmatch, ?_⟩
  · simp [sliceFinder_HF_haswell, hrun fuel hfuel]
  · rintro k ⟨c, rfl⟩ hk
    exact hbefore c (by omega)

/-- The statement of `sliceFinder_HF_haswell_least` at address 4096 and slice 5. -/
theorem sliceFinder_HF_haswell_least_witness :
    ∃ o, sliceFinder_HF_haswell 15 4096 5 = some o ∧ 64 ∣ o ∧
      calculateSlice_HF_haswell ((4096 + o) % 2 ^ 64) = 5 ∧
      ∀ k, 64 ∣ k → k < o → calculateSlice_HF_haswell ((4096 + k) % 2 ^ 64) ≠ 5 :=
  sliceFinder_HF_haswell_least 4096 5 15 (by decide) (by decide) (by decide)

/-! ## The array builder: results -/

/-- C3: for every base address, every element count `nb_keys` and every target
slice below 8, `create_array` returns, every recorded physical element address
classifies to the target slice, and the validation pass that classifies every
element again reports no mismatch. -/
theorem create_array_round_trip (nb_keys slice mem_virtual mem_iova fuel : Nat)
    (hs : slice < 8) (hiova : mem_iova < 2 ^ 64) (hfuel : 15 ≤ fuel) :
    ∃ st, create_array fuel nb_keys slice mem_virtual mem_iova = some st ∧
      (∀ i, i < nb_keys → calculateSlice_HF_haswell (st.array_iova.getD i 0) = slice) ∧
      st.wrong = [] := by
  obtain ⟨st, m0, hst, _, _, inv, hwrong⟩ :=
    create_array_spec nb_keys slice mem_virtual mem_iova fuel hs hiova hfuel
  exact ⟨st, hst, inv.slice_eq, hwrong⟩

/-- The statement of `create_array_round_trip` for three elements of slice 5. -/
theorem create_array_round_trip_witness :
    ∃ st, create_array 15 3 5 4096 8192 = some st ∧
      (∀ i, i < 3 → calculateSlice_HF_haswell (st.array_iova.getD i 0) = 5) ∧
      st.wrong = [] :=
  create_array_round_trip 3 5 4096 8192 15 (by decide) (by decide) (by decide)

/-- C5: monotonicity. When the backing block of `nb_keys * 8` lines lies inside
the 64-bit address space (no physical address wraps around), the physical address
of element `i + 1` is strictly greater than that of element `i`, for every `i`
with `i + 1 < nb_keys` and every target slice below 8; the difference is a
positive multiple of 64, at most 960. When the virtual block has room for one
more 512-byte block below `2 ^ 64` (no virtual address wraps around), the same
holds for the virtual element addresses, with the same differences. -/
theorem create_array_monotone (nb_keys slice mem_virtual mem_iova fuel : Nat)
    (hs : slice < 8) (hiova : mem_iova < 2 ^ 64) (hfuel : 15 ≤ fuel)
    (hfit : mem_iova + nb_keys * 8 * 64 ≤ 2 ^ 64) :
    ∃ st, create_array fuel nb_keys slice mem_virtual mem_iova = some st ∧
      (∀ i, i + 1 < nb_keys →
        st.array_iova.getD i 0 < st.array_iova.getD (i + 1) 0 ∧
        64 ∣ st.array_iova.getD (i + 1) 0 - st.array_iova.getD i 0 ∧
        st.array_iova.getD (i + 1) 0 - st.array_iova.getD i 0 ≤ 960) ∧
      (mem_virtual + (nb_keys + 1) * 8 * 64 ≤ 2 ^ 64 →
        ∀ i, i + 1 < nb_keys →
          st.array.getD i 0 < st.array.getD (i + 1) 0 ∧
          64 ∣ st.array.getD (i + 1) 0 - st.array.getD i 0 ∧
          st.array.getD (i + 1) 0 - st.array.getD i 0 =
            st.array_iova.getD (i + 1) 0 - st.array_iova.getD i 0) := by
  obtain ⟨st, m0, hst, _, hfm, inv, _⟩ :=
    create_array_spec nb_keys slice mem_virtual mem_iova fuel hs hiova hfuel
  have hphys : ∀ i, i + 1 < nb_keys →
      st.array_iova.getD i 0 < st.array_iova.getD (i + 1) 0 ∧
      64 ∣ st.array_iova.getD (i + 1) 0 - st.array_iova.getD i 0 ∧
      st.array_iova.getD (i + 1) 0 - st.array_iova.getD i 0 ≤ 960 ∧
      (mem_virtual + (nb_keys + 1) * 8 * 64 ≤ 2 ^ 64 →
        st.array.getD i 0 < st.array.getD (i + 1) 0 ∧
        st.array.getD (i + 1) 0 - st.array.getD i 0 =
          st.array_iova.getD (i + 1) 0 - st.array_iova.getD i 0) := by
    intro i hi
    have hn : 0 < nb_keys := by omega
    have hi0 : i < nb_keys := by omega
    have hroom : 512 * (mem_iova / 512) + 1024 ≤ 2 ^ 64 := by omega
    obtain ⟨hnw0, hnw⟩ := create_array_fit nb_keys slice mem_iova m0 hs hn hfit hfm
    obtain ⟨_, _, hb, _⟩ := first_match_block mem_iova slice m0 hs hroom hfm
    obtain ⟨a1, a2, a3, a4⟩ :=
      array_iova_blocks slice mem_virtual mem_iova nb_keys m0 st hs inv hnw0 hnw i hi0
    obtain ⟨b1, b2, _, b4⟩ :=
      array_iova_blocks slice mem_virtual mem_iova nb_keys m0 st hs inv hnw0 hnw (i + 1) hi
    obtain ⟨m, hm14, _, hnext, _⟩ := inv.next i hi
    have hlt := block_step_lt _ _ _ _ a1 b1
    have hle : mem_iova ≤ st.array_iova.getD i 0 := le_trans (Nat.le_add_right _ _) a3
    refine ⟨hlt, line_step_dvd _ _ _ a2 b2,
      wrap_step_le _ _ m (inv.bound i hi0).1 hm14 hnext hlt, ?_⟩
    intro hvfit
    exact virt_step _ _ _ _ _ _ nb_keys a4 b4 hle hlt
      (block_step_fit _ _ i nb_keys mem_iova b1 hi hb) hvfit
  refine ⟨st, hst, fun i hi => ⟨(hphys i hi).1, (hphys i hi).2.1, (hphys i hi).2.2.1⟩, ?_⟩
  intro hvfit i hi
  obtain ⟨_, p2, _, p4⟩ := hphys i hi
  obtain ⟨q1, q2⟩ := p4 hvfit
  exact ⟨q1, by rw [q2]; exact p2, q2⟩

/-- The statement of `create_array_monotone` for four elements of slice 2. -/
theorem create_array_monotone_witness :
    ∃ st, create_array 15 4 2 4096 8192 = some st ∧
      (∀ i, i + 1 < 4 →
        st.array_iova.getD i 0 < st.array_iova.getD (i + 1) 0 ∧
        64 ∣ st.array_iova.getD (i + 1) 0 - st.array_iova.getD i 0 ∧
        st.array_iova.getD (i + 1) 0 - st.array_iova.getD i 0 ≤ 960) ∧
      (4096 + (4 + 1) * 8 * 64 ≤ 2 ^ 64 →
        ∀ i, i + 1 < 4 →
          st.array.getD i 0 < st.array.getD (i + 1) 0 ∧
          64 ∣ st.array.getD (i + 1) 0 - st.array.getD i 0 ∧
          st.array.getD (i + 1) 0 - st.array.getD i 0 =
            st.array_iova.getD (i + 1) 0 - st.array_iova.getD i 0) :=
  create_array_monotone 4 2 4096 8192 15 (by decide) (by decide) (by decide) (by decide)

/-- C6, as the claim states it, fails: for the target slice value 8 the scan of
`sliceFinder_HF_haswell` from address 0 does not stop, whatever the number of
candidate lines it is allowed to inspect. -/
theorem sliceFinder_HF_haswell_diverges :
    ¬ ∃ fuel o, sliceFinder_HF_haswell fuel 0 8 = some o := by
  rintro ⟨fuel, o, h⟩
  simp [sliceFinder_HF_haswell, sliceFinder_HF_haswell_run,
    sliceFinder_HF_haswell_loop_none 0 8 (by decide)] at h

/-- C6, amended: for every start address and every target slice below 8 the scan
stops with a matching line after at most 15 candidate lines (the offset is at
most 896), and `create_array` returns; for a target slice value from 8 to 255
the scan never stops and `create_array` never returns, because the code has no
iteration cap and no exhaustion condition. -/
theorem sliceFinder_HF_haswell_stops_iff (pa s : Nat) (hpa : pa < 2 ^ 64) :
    (s < 8 →
      (∃ o, o ≤ 896 ∧ calculateSlice_HF_haswell ((pa + o) % 2 ^ 64) = s ∧
        ∀ fuel, 15 ≤ fuel → sliceFinder_HF_haswell fuel pa s = some o) ∧
      ∀ fuel nb_keys mem_virtual, 15 ≤ fuel →
        ∃ st, create_array fuel nb_keys s mem_virtual pa = some st) ∧
    (8 ≤ s → s < 256 →
      (∀ fuel, sliceFinder_HF_haswell fuel pa s = none) ∧
      ∀ fuel nb_keys mem_virtual, create_array fuel nb_keys s mem_virtual pa = none) := by
  constructor
  · intro hs
    obtain ⟨m0, h14, hmatch, _, hrun⟩ := sliceFinder_HF_haswell_run_spec pa s hpa hs
    refine ⟨⟨64 * m0, by omega, hmatch, ?_⟩, ?_⟩
    · intro fuel hfuel
      simp [sliceFinder_HF_haswell, hrun fuel hfuel]
    · intro fuel nb_keys mem_virtual hfuel
      obtain ⟨st, _, hst, _⟩ := create_array_spec nb_keys s mem_virtual pa fuel hs hpa hfuel
      exact ⟨st, hst⟩
  · intro hs hs2
    have hmod : s % 2 ^ 8 = s := Nat.mod_eq_of_lt (by omega)
    constructor
    · intro fuel
      simp [sliceFinder_HF_haswell, sliceFinder_HF_haswell_run,
        sliceFinder_HF_haswell_loop_none pa s hs]
    · intro fuel nb_keys mem_virtual
      simp only [create_array, hmod, sliceFinder_HF_haswell_run,
        sliceFinder_HF_haswell_loop_none pa s hs]

/-- The statement of `sliceFinder_HF_haswell_stops_iff` at address 4096, for the
target slices 5 and 9. -/
theorem sliceFinder_HF_haswell_stops_iff_witness :
    ((∃ o, o ≤ 896 ∧ calculateSlice_HF_haswell ((4096 + o) % 2 ^ 64) = 5 ∧
        ∀ fuel, 15 ≤ fuel → sliceFinder_HF_haswell fuel 4096 5 = some o) ∧
      ∀ fuel nb_keys mem_virtual, 15 ≤ fuel →
        ∃ st, create_array fuel nb_keys 5 mem_virtual 4096 = some st) ∧
    ((∀ fuel, sliceFinder_HF_haswell fuel 4096 9 = none) ∧
      ∀ fuel nb_keys mem_virtual, create_array fuel nb_keys 9 mem_virtual 4096 = none) :=
  ⟨(sliceFinder_HF_haswell_stops_iff 4096 5 (by decide)).1 (by decide),
    (sliceFinder_HF_haswell_stops_iff 4096 9 (by decide)).2 (by decide) (by decide)⟩

/-- C7: the code at the input base 64 (64-byte aligned, as `rte_calloc` with
`align = 0` guarantees, but not 512-byte aligned), two elements, slice 0. The
backing block of `2 * 8` lines is `[64, 1088)`. The elements are placed at 512
and 1088: the second one starts at the first byte after the block, the value
`1 * 2 = 2` is stored there, the address is returned to the caller and the
validation pass reports nothing. -/
theorem create_array_leaves_allocation :
    (create_array 15 2 0 64 64).map
        (fun st => (st.array_iova, st.array, st.mem 1088, st.wrong)) =
      some ([512, 1088], [512, 1088], 2, []) ∧
      64 + 2 * 8 * 64 = 1088 ∧ ¬ (1088 + 64 ≤ 64 + 2 * 8 * 64) := by
  decide

/-- Where the sizing of the backing block does cover the scan: for every
512-byte-aligned base address whose block of `nb_keys * 8` lines lies inside the
64-bit address space, every element count and every target slice below 8, each
element produced by `create_array` satisfies `base <= array_iova[i]` and
`array_iova[i] + 64 <= base + nb_keys * 8 * 64`. -/
theorem create_array_within_allocation (nb_keys slice mem_virtual mem_iova fuel : Nat)
    (hs : slice < 8) (hiova : mem_iova < 2 ^ 64) (hal : 512 ∣ mem_iova)
    (hfit : mem_iova + nb_keys * 8 * 64 ≤ 2 ^ 64) (hfuel : 15 ≤ fuel) :
    ∃ st, create_array fuel nb_keys slice mem_virtual mem_iova = some st ∧
      ∀ i, i < nb_keys → mem_iova ≤ st.array_iova.getD i 0 ∧
        st.array_iova.getD i 0 + 64 ≤ mem_iova + nb_keys * 8 * 64 := by
  obtain ⟨st, m0, hst, _, hfm, inv, _⟩ :=
    create_array_spec nb_keys slice mem_virtual mem_iova fuel hs hiova hfuel
  refine ⟨st, hst, ?_⟩
  intro i hi
  obtain ⟨hnw0, hdiv⟩ := first_match_block_aligned mem_iova slice m0 hs hiova (by omega) hfm
  obtain ⟨h1, h2, h3, _⟩ := array_iova_blocks slice mem_virtual mem_iova nb_keys m0 st hs inv
    hnw0 (by rw [hdiv]; omega) i hi
  rw [hdiv] at h1
  omega

/-- The statement of `create_array_within_allocation` for three elements of slice 5
at the aligned base 8192. -/
theorem create_array_within_allocation_witness :
    ∃ st, create_array 15 3 5 4096 8192 = some st ∧
      ∀ i, i < 3 → 8192 ≤ st.array_iova.getD i 0 ∧
        st.array_iova.getD i 0 + 64 ≤ 8192 + 3 * 8 * 64 :=
  create_array_within_allocation 3 5 4096 8192 15 (by decide) (by decide) (by decide)
    (by decide) (by decide)

/-- C8, as the claim states it, fails: with `nb_keys = 0` (base 0, slice 0) the
returned arrays are empty, but the first-chunk search in front of the element
loop has evaluated the classifier once. -/
theorem create_array_zero_keys_classifies :
    (create_array 15 0 0 0 0).map (fun st => (st.array, st.array_iova, st.evals)) =
      some ([], [], 1) := by
  decide

/-- C8, amended: building with `nb_keys = 0` for a target slice below 8 returns an
empty region (no element recorded, nothing stored, nothing flagged), and the
first-chunk search that precedes the element loop evaluates the classifier at
least once and at most 15 times. -/
theorem create_array_zero_keys (slice mem_virtual mem_iova fuel : Nat)
    (hs : slice < 8) (hiova : mem_iova < 2 ^ 64) (hfuel : 15 ≤ fuel) :
    ∃ st, create_array fuel 0 slice mem_virtual mem_iova = some st ∧
      st.array = [] ∧ st.array_iova = [] ∧ (∀ a, st.mem a = 0) ∧ st.wrong = [] ∧
      1 ≤ st.evals ∧ st.evals ≤ 15 := by
  obtain ⟨m0, h14, _, _, hrun⟩ := sliceFinder_HF_haswell_run_spec mem_iova slice hiova hs
  have hmod : slice % 2 ^ 8 = slice := Nat.mod_eq_of_lt (by omega)
  simp only [create_array, hmod, hrun fuel hfuel, create_array_for, Option.map_some']
  refine ⟨_, rfl, rfl, rfl, fun _ => rfl, rfl, ?_, ?_⟩
  · show 1 ≤ m0 + 1 + 0
    omega
  · show m0 + 1 + 0 ≤ 15
    omega

/-- The statement of `create_array_zero_keys` for slice 5 at base 8192. -/
theorem create_array_zero_keys_witness :
    ∃ st, create_array 15 0 5 4096 8192 = some st ∧
      st.array = [] ∧ st.array_iova = [] ∧ (∀ a, st.mem a = 0) ∧ st.wrong = [] ∧
      1 ≤ st.evals ∧ st.evals ≤ 15 :=
  create_array_zero_keys 5 4096 8192 15 (by decide) (by decide) (by decide)

/-- C9: building 1,024 elements for target slice 0 over a backing allocation of
8,192 lines that lies inside the 64-bit address space (at any base address, in
particular any 64-byte-aligned one) yields exactly 1,024 element addresses,
strictly increasing and pairwise distinct, each classifying to slice 0, and the
64-bit word stored in element 0 is 0. -/
theorem create_array_end_to_end (mem_virtual mem_iova fuel : Nat)
    (hfit : mem_iova + 8192 * 64 ≤ 2 ^ 64) (hfuel : 15 ≤ fuel) :
    ∃ st, create_array fuel 1024 0 mem_virtual mem_iova = some st ∧
      st.array_iova.length = 1024 ∧ st.array.length = 1024 ∧
      (∀ i j, i < j → j < 1024 → st.array_iova.getD i 0 < st.array_iova.getD j 0) ∧
      (∀ i j, i < 1024 → j < 1024 → i ≠ j →
        st.array_iova.getD i 0 ≠ st.array_iova.getD j 0) ∧
      (∀ i, i < 1024 → calculateSlice_HF_haswell (st.array_iova.getD i 0) = 0) ∧
      st.mem (st.array.getD 0 0) = 0 := by
  obtain ⟨st, m0, hst, _, hfm, inv, _⟩ :=
    create_array_spec 1024 0 mem_virtual mem_iova fuel (by decide) (by omega) hfuel
  have hnw : mem_iova + 64 * m0 < 2 ^ 64 ∧
      512 * ((mem_iova + 64 * m0) / 512 + 1024) ≤ 2 ^ 64 := by
    by_cases hal : mem_iova % 512 < 64
    · obtain ⟨h1, h2⟩ :=
        first_match_block_aligned mem_iova 0 m0 (by decide) (by omega) hal hfm
      rw [h2]
      omega
    · obtain ⟨h1, _, h2, _⟩ := first_match_block mem_iova 0 m0 (by decide) (by omega) hfm
      omega
  have hblk := array_iova_blocks 0 mem_virtual mem_iova 1024 m0 st (by decide) inv hnw.1 hnw.2
  have hinc : ∀ i j, i < j → j < 1024 →
      st.array_iova.getD i 0 < st.array_iova.getD j 0 := by
    intro i j hij hj
    obtain ⟨hi1, _⟩ := hblk i (by omega)
    obtain ⟨hj1, _⟩ := hblk j hj
    omega
  refine ⟨st, hst, inv.len_iova, inv.len, hinc, ?_, inv.slice_eq, ?_⟩
  · intro i j hi hj hij
    rcases Nat.lt_or_gt_of_ne hij with h | h
    · exact Nat.ne_of_lt (hinc i j h hj)
    · exact Nat.ne_of_gt (hinc j i h hi)
  · have h := inv.stored 0 (by decide)
    rw [Nat.zero_mul, Nat.zero_mod] at h
    apply h
    intro k hk0 hk
    obtain ⟨_, _, h0le, h0a⟩ := hblk 0 (by decide)
    obtain ⟨_, _, _, hka⟩ := hblk k hk
    have hlt := hinc 0 k hk0 hk
    have hb := (inv.bound k hk).1
    rw [h0a, hka]
    omega

/-- The statement of `create_array_end_to_end` at base 8192. -/
theorem create_array_end_to_end_witness :
    ∃ st, create_array 15 1024 0 4096 8192 = some st ∧
      st.array_iova.length = 1024 ∧ st.array.length = 1024 ∧
      (∀ i j, i < j → j < 1024 → st.array_iova.getD i 0 < st.array_iova.getD j 0) ∧
      (∀ i j, i < 1024 → j < 1024 → i ≠ j →
        st.array_iova.getD i 0 ≠ st.array_iova.getD j 0) ∧
      (∀ i, i < 1024 → calculateSlice_HF_haswell (st.array_iova.getD i 0) = 0) ∧
      st.mem (st.array.getD 0 0) = 0 :=
  create_array_end_to_end 4096 8192 15 (by decide) (by decide)

/-! ## The measurement classifier: finding the maximum -/

/-- The loop invariant of the second loop of `find_CHA_CBO`, carried to the
end of the loop: `max_value` bounds every value seen, and it is either still 0
with `max_index` 0, or the value at `max_index`, which no earlier index
reaches. -/
theorem find_CHA_CBO_max_inv (vals : List Nat) :
    ∀ k i mv mi, (∀ j, j < i → vals.getD j 0 ≤ mv) →
      ((mv = 0 ∧ mi = 0) ∨
        (vals.getD mi 0 = mv ∧ mi < i ∧ ∀ j, j < mi → vals.getD j 0 < mv)) →
      ∃ mv2, (∀ j, j < i + k → vals.getD j 0 ≤ mv2) ∧
        ((mv2 = 0 ∧ find_CHA_CBO_max vals k i mv mi = 0) ∨
          (vals.getD (find_CHA_CBO_max vals k i mv mi) 0 = mv2 ∧
            find_CHA_CBO_max vals k i mv mi < i + k ∧
            ∀ j, j < find_CHA_CBO_max vals k i mv mi → vals.getD j 0 < mv2)) := by
  intro k
  induction k with
  | zero =>
    intro i mv mi hle hinv
    exact ⟨mv, hle, hinv⟩
  | succ k ih =>
    intro i mv mi hle hinv
    unfold find_CHA_CBO_max
    by_cases hgt : vals.getD i 0 > mv
    · rw [if_pos hgt]
      have h := ih (i + 1) (vals.getD i 0) i
        (by
          intro j hj
          by_cases hji : j = i
          · rw [hji]
          · have := hle j (by omega)
            omega)
        (Or.inr ⟨rfl, by omega, by
          intro j hj
          have := hle j hj
          omega⟩)
      have e : i + 1 + k = i + (k + 1) := by omega
      rw [e] at h
      exact h
    · rw [if_neg hgt]
      have h := ih (i + 1) mv mi
        (by
          intro j hj
          by_cases hji : j = i
          · rw [hji]
            omega
          · exact hle j (by omega))
        (by
          rcases hinv with h0 | ⟨h1, h2, h3⟩
          · exact Or.inl h0
          · exact Or.inr ⟨h1, by omega, h3⟩)
      have e : i + 1 + k = i + (k + 1) := by omega
      rw [e] at h
      exact h

/-- The index picked by the second loop of `find_CHA_CBO` over all `n`
values: it is 0 or below `n`, its value is the greatest, and it is the lowest
index with that value unless all values are 0. -/
theorem find_CHA_CBO_max_spec (vals : List Nat) (n : Nat) :
    (find_CHA_CBO_max vals n 0 0 0 = 0 ∨ find_CHA_CBO_max vals n 0 0 0 < n) ∧
      (∀ j, j < n → vals.getD j 0 ≤ vals.getD (find_CHA_CBO_max vals n 0 0 0) 0) ∧
      (∀ j, j < find_CHA_CBO_max vals n 0 0 0 →
        vals.getD j 0 < vals.getD (find_CHA_CBO_max vals n 0 0 0) 0) := by
  obtain ⟨mv2, hle, hinv⟩ := find_CHA_CBO_max_inv vals n 0 0 0
    (fun j hj => by omega) (Or.inl ⟨rfl, rfl⟩)
  rw [Nat.zero_add] at hle hinv
  rcases hinv with ⟨h0, hm⟩ | ⟨h1, h2, h3⟩
  · rw [hm]
    refine ⟨Or.inl rfl, ?_, ?_⟩
    · intro j hj
      have := hle j hj
      omega
    · intro j hj
      omega
  · refine ⟨Or.inr h2, ?_, ?_⟩
    · intro j hj
      rw [h1]
      exact hle j hj
    · intro j hj
      rw [h1]
      exact h3 j hj

/-! ## The register access layer when no I/O fails -/

theorem msr_open_ok (env : Env) (henv : env.Succeeds) (wr : Bool) (fd : Int) (st : MsrState) :
    ∃ fd2, 0 ≤ fd2 ∧ (0 ≤ fd → fd2 = fd) ∧
      msr_open env wr fd st =
        Outcome.ret fd2 { st with trace := st.trace ++ opens wr fd } := by
  unfold msr_open opens
  by_cases h : fd < 0
  · obtain ⟨n, hn⟩ := henv.1 st.trace wr
    simp only [h, if_true, hn]
    exact ⟨Int.ofNat n, Int.ofNat_nonneg n, fun h0 => by omega, rfl⟩
  · simp only [h, if_false, List.append_nil]
    exact ⟨fd, by omega, fun _ => rfl, rfl⟩

theorem wrmsr_loop_ok (env : Env) (henv : env.Succeeds) (fd : Int) (reg : Nat) :
    ∀ valcnt regvals st, valcnt ≤ regvals.length →
      wrmsr_loop env fd reg valcnt regvals st =
        Outcome.ret ()
          { st with trace := st.trace ++ (regvals.take valcnt).map (Event.pwrite fd reg) } := by
  intro valcnt
  induction valcnt with
  | zero =>
    intro regvals st _
    simp [wrmsr_loop]
  | succ valcnt ih =>
    intro regvals st hlen
    rcases regvals with _ | ⟨v, rest⟩
    · simp at hlen
    · have hw := henv.2.2 st.trace fd reg v
      simp only [wrmsr_loop, List.headD_cons, hw, List.tail_cons, ne_eq, not_true_eq_false,
        if_false]
      rw [ih rest _ (by simpa using hlen)]
      simp

theorem wrmsr_on_cpu_0_ok (env : Env) (henv : env.Succeeds) (reg valcnt : Nat)
    (regvals : List Nat) (st : MsrState) (hlen : valcnt ≤ regvals.length) :
    ∃ fd, 0 ≤ fd ∧ (0 ≤ st.wr_fd → fd = st.wr_fd) ∧
      wrmsr_on_cpu_0 env reg valcnt regvals st =
        Outcome.ret ()
          { st with
            wr_fd := fd
            trace := st.trace ++ opens true st.wr_fd ++
              (regvals.take valcnt).map (Event.pwrite fd reg) } := by
  obtain ⟨fd, h0, hkeep, hopen⟩ := msr_open_ok env henv true st.wr_fd st
  refine ⟨fd, h0, hkeep, ?_⟩
  simp only [wrmsr_on_cpu_0, hopen]
  rw [wrmsr_loop_ok env henv fd reg valcnt regvals _ hlen]

theorem rdmsr_on_cpu_0_ok (env : Env) (henv : env.Succeeds) (reg : Nat) (st : MsrState) :
    ∃ fd data, 0 ≤ fd ∧ (0 ≤ st.rd_fd → fd = st.rd_fd) ∧
      env.pread (st.trace ++ opens false st.rd_fd) fd reg = Except.ok (8, data) ∧
      rdmsr_on_cpu_0 env reg st =
        Outcome.ret data
          { st with
            rd_fd := fd
            trace := st.trace ++ opens false st.rd_fd ++ [Event.pread fd reg] } := by
  obtain ⟨fd, h0, hkeep, hopen⟩ := msr_open_ok env henv false st.rd_fd st
  obtain ⟨data, hdata⟩ := henv.2.1 (st.trace ++ opens false st.rd_fd) fd reg
  refine ⟨fd, data, h0, hkeep, hdata, ?_⟩
  simp only [rdmsr_on_cpu_0, hopen, hdata, ne_eq, not_true_eq_false, if_false]

theorem opens_of_nonneg (wr : Bool) (fd : Int) (h : 0 ≤ fd) : opens wr fd = [] := by
  unfold opens
  rw [if_neg (by omega)]

theorem uncore_init_loop_ok (env : Env) (henv : env.Succeeds) (address : List Nat) (v : Nat) :
    ∀ k i st, 0 ≤ st.wr_fd →
      uncore_init_loop env address [v] k i st =
        Outcome.ret ()
          { st with trace := st.trace ++ writes_from st.wr_fd address v k i } := by
  intro k
  induction k with
  | zero =>
    intro i st _
    simp [uncore_init_loop, writes_from]
  | succ k ih =>
    intro i st hfd
    obtain ⟨fd, _, hkeep, hw⟩ :=
      wrmsr_on_cpu_0_ok env henv (address.getD i 0) 1 [v] st (by simp)
    have hfdeq := hkeep hfd
    subst hfdeq
    simp only [uncore_init_loop, hw]
    rw [ih]
    · simp [writes_from, opens_of_nonneg true st.wr_fd hfd]
    · exact hfd

theorem writes_from_event (fd : Int) (v : Nat) :
    writes_from fd CHA_CBO_EVENT_ADDRESS v NUMBER_SLICES 0 =
      (List.range NUMBER_SLICES).map (fun i => Event.pwrite fd (0xE01 + 16 * i) v) := by
  rfl

theorem writes_from_ctl (fd : Int) (v : Nat) :
    writes_from fd CHA_CBO_CTL_ADDRESS v NUMBER_SLICES 0 =
      (List.range NUMBER_SLICES).map (fun i => Event.pwrite fd (0xE00 + 16 * i) v) := by
  rfl

theorem writes_from_filter (fd : Int) (v : Nat) :
    writes_from fd CHA_CBO_FILTER_ADDRESS v NUMBER_SLICES 0 =
      (List.range NUMBER_SLICES).map (fun i => Event.pwrite fd (0xE05 + 16 * i) v) := by
  rfl

theorem reads_from_counter (fd : Int) :
    reads_from fd NUMBER_SLICES 0 =
      (List.range NUMBER_SLICES).map (fun i => Event.pread fd (0xE08 + 16 * i)) := by
  rfl

theorem uncore_init_ok (env : Env) (henv : env.Succeeds) (st : MsrState) :
    ∃ fd, 0 ≤ fd ∧ (0 ≤ st.wr_fd → fd = st.wr_fd) ∧
      uncore_init env st =
        Outcome.ret ()
          { st with
            wr_fd := fd
            trace := st.trace ++ opens true st.wr_fd ++ setup_writes fd } := by
  obtain ⟨fd, h0, hkeep, hw⟩ :=
    wrmsr_on_cpu_0_ok env henv PMON_GLOBAL_CTL_ADDRESS 1 [DISABLE_COUNT] st (by simp)
  refine ⟨fd, h0, hkeep, ?_⟩
  simp only [uncore_init, hw]
  rw [uncore_init_loop_ok env henv _ _ _ _ _ (by exact h0)]
  simp only []
  rw [uncore_init_loop_ok env henv _ _ _ _ _ (by exact h0)]
  simp only []
  rw [uncore_init_loop_ok env henv _ _ _ _ _ (by exact h0)]
  simp only []
  obtain ⟨fd2, _, hkeep2, hw2⟩ :=
    wrmsr_on_cpu_0_ok env henv PMON_GLOBAL_CTL_ADDRESS 1 [ENABLE_COUNT]
      { st with
        wr_fd := fd
        trace := st.trace ++ opens true st.wr_fd ++
          List.map (Event.pwrite fd PMON_GLOBAL_CTL_ADDRESS) (List.take 1 [DISABLE_COUNT]) ++
          writes_from fd CHA_CBO_EVENT_ADDRESS SELECTED_EVENT NUMBER_SLICES 0 ++
          writes_from fd CHA_CBO_CTL_ADDRESS RESET_COUNTERS NUMBER_SLICES 0 ++
          writes_from fd CHA_CBO_FILTER_ADDRESS FILTER_BOX_VALUE NUMBER_SLICES 0 } (by simp)
  have hfdeq := hkeep2 h0
  simp only [] at hfdeq
  subst hfdeq
  rw [hw2]
  simp [setup_writes, writes_from_event, writes_from_ctl, writes_from_filter,
    opens_of_nonneg true fd2 h0, PMON_GLOBAL_CTL_ADDRESS]

theorem polling_loop_eq (address : Nat) :
    ∀ k st, polling_loop address k st =
      { st with trace := st.trace ++ List.replicate k (Event.clflush address) } := by
  intro k
  induction k with
  | zero =>
    intro st
    simp [polling_loop]
  | succ k ih =>
    intro st
    simp only [polling_loop]
    rw [ih]
    simp [List.replicate_succ]

theorem find_CHA_CBO_read_ok (env : Env) (henv : env.Succeeds) :
    ∀ k i acc st, 0 ≤ st.rd_fd →
      find_CHA_CBO_read env k i acc st =
        Outcome.ret (acc ++ read_values env st.rd_fd k i st.trace)
          { st with trace := st.trace ++ reads_from st.rd_fd k i } := by
  intro k
  induction k with
  | zero =>
    intro i acc st _
    simp [find_CHA_CBO_read, read_values, reads_from]
  | succ k ih =>
    intro i acc st hfd
    obtain ⟨fd, data, _, hkeep, hdata, hr⟩ :=
      rdmsr_on_cpu_0_ok env henv (CHA_CBO_COUNTER_ADDRESS.getD i 0) st
    have hfdeq := hkeep hfd
    subst hfdeq
    rw [opens_of_nonneg false st.rd_fd hfd, List.append_nil] at hdata hr
    simp only [find_CHA_CBO_read, hr]
    rw [ih]
    · simp only [read_values, reads_from, hdata, List.append_assoc, List.singleton_append]
    · exact hfd

theorem find_CHA_CBO_read_first (env : Env) (henv : env.Succeeds) (k i : Nat) (acc : List Nat)
    (st : MsrState) :
    ∃ fd, 0 ≤ fd ∧ (0 ≤ st.rd_fd → fd = st.rd_fd) ∧
      find_CHA_CBO_read env (k + 1) i acc st =
        Outcome.ret (acc ++ read_values env fd (k + 1) i (st.trace ++ opens false st.rd_fd))
          { st with
            rd_fd := fd
            trace := st.trace ++ opens false st.rd_fd ++ reads_from fd (k + 1) i } := by
  obtain ⟨fd, data, h0, hkeep, hdata, hr⟩ :=
    rdmsr_on_cpu_0_ok env henv (CHA_CBO_COUNTER_ADDRESS.getD i 0) st
  refine ⟨fd, h0, hkeep, ?_⟩
  rw [find_CHA_CBO_read]
  simp only [hr]
  rw [find_CHA_CBO_read_ok env henv]
  · simp only [read_values, reads_from, hdata, List.append_assoc, List.singleton_append]
  · exact h0

theorem find_CHA_CBO_read_all (env : Env) (henv : env.Succeeds) (st : MsrState) :
    ∃ fd, 0 ≤ fd ∧ (0 ≤ st.rd_fd → fd = st.rd_fd) ∧
      find_CHA_CBO_read env NUMBER_SLICES 0 [] st =
        Outcome.ret (read_values env fd NUMBER_SLICES 0 (st.trace ++ opens false st.rd_fd))
          { st with
            rd_fd := fd
            trace := st.trace ++ opens false st.rd_fd ++ reads_from fd NUMBER_SLICES 0 } :=
  find_CHA_CBO_read_first env henv 7 0 [] st

theorem find_CHA_CBO_ok (env : Env) (henv : env.Succeeds) (st : MsrState) :
    ∃ fd, 0 ≤ fd ∧ (0 ≤ st.rd_fd → fd = st.rd_fd) ∧
      find_CHA_CBO env st =
        Outcome.ret
          (find_CHA_CBO_max
            (read_values env fd NUMBER_SLICES 0 (st.trace ++ opens false st.rd_fd))
            NUMBER_SLICES 0 0 0)
          { st with
            rd_fd := fd
            trace := st.trace ++ opens false st.rd_fd ++ reads_from fd NUMBER_SLICES 0 } := by
  obtain ⟨fd, h0, hkeep, hr⟩ := find_CHA_CBO_read_all env henv st
  refine ⟨fd, h0, hkeep, ?_⟩
  rw [find_CHA_CBO, hr]

theorem read_values_length (env : Env) (fd : Int) :
    ∀ k i tr, (read_values env fd k i tr).length = k := by
  intro k
  induction k with
  | zero => intro i tr; rfl
  | succ k ih =>
    intro i tr
    simp [read_values, ih]

theorem steady_succeeds : Env.steady.Succeeds :=
  ⟨fun _ _ => ⟨3, rfl⟩, fun _ _ reg => ⟨if reg = 0xE38 then 700 else 5, rfl⟩,
    fun _ _ _ _ => rfl⟩

theorem tied_succeeds : Env.tied.Succeeds :=
  ⟨fun _ _ => ⟨3, rfl⟩, fun _ _ reg => ⟨if reg = 0xE18 ∨ reg = 0xE28 then 9 else 4, rfl⟩,
    fun _ _ _ _ => rfl⟩

/-- Entry `j` of `read_values` is the value the environment hands out for the
counter register of slice `i + j`, asked after the `j` reads in front of it. -/
theorem read_values_getD (env : Env) (henv : env.Succeeds) (fd : Int) :
    ∀ k i tr j, j < k →
      env.pread (tr ++ reads_from fd j i) fd (CHA_CBO_COUNTER_ADDRESS.getD (i + j) 0) =
        Except.ok (8, (read_values env fd k i tr).getD j 0) := by
  intro k
  induction k with
  | zero => intro i tr j hj; omega
  | succ k ih =>
    intro i tr j hj
    cases j with
    | zero =>
      obtain ⟨data, hdata⟩ := henv.2.1 tr fd (CHA_CBO_COUNTER_ADDRESS.getD i 0)
      simp only [reads_from, List.append_nil, Nat.add_zero, read_values, hdata,
        List.getD_cons_zero]
    | succ j =>
      have h := ih (i + 1) (tr ++ [Event.pread fd (CHA_CBO_COUNTER_ADDRESS.getD i 0)]) j
        (by omega)
      have e : i + 1 + j = i + (j + 1) := by omega
      rw [e] at h
      simp only [reads_from, read_values, List.getD_cons_succ]
      rw [List.append_assoc] at h
      exact h

/-- When no I/O fails, `find_CHA_CBO` reads the counter register of every slice
once, in index order, through the read descriptor, and returns the index its
second loop picks among the values the environment handed out for those
reads: `counter[j]` is what `pread` returned for the counter register of slice
`j`. -/
theorem find_CHA_CBO_counters (env : Env) (henv : env.Succeeds) (st : MsrState) :
    ∃ fd, ∃ counter : List Nat, 0 ≤ fd ∧ (0 ≤ st.rd_fd → fd = st.rd_fd) ∧
      counter.length = NUMBER_SLICES ∧
      (∀ j, j < NUMBER_SLICES →
        env.pread (st.trace ++ opens false st.rd_fd ++ reads_from fd j 0) fd
          (CHA_CBO_COUNTER_ADDRESS.getD j 0) = Except.ok (8, counter.getD j 0)) ∧
      find_CHA_CBO env st =
        Outcome.ret (find_CHA_CBO_max counter NUMBER_SLICES 0 0 0)
          { st with
            rd_fd := fd
            trace := st.trace ++ opens false st.rd_fd ++ reads_from fd NUMBER_SLICES 0 } := by
  obtain ⟨fd, h0, hkeep, hrun⟩ := find_CHA_CBO_ok env henv st
  refine ⟨fd, _, h0, hkeep, read_values_length env fd _ _ _, ?_, hrun⟩
  intro j hj
  have h := read_values_getD env henv fd NUMBER_SLICES 0 (st.trace ++ opens false st.rd_fd) j hj
  rw [Nat.zero_add] at h
  exact h

/-! ## The measurement classifier: results -/

/-- C12: when no I/O fails, `find_CHA_CBO` reads the `NUMBER_SLICES` counter
registers, one `pread` each in index order, and for the vector `counter` of the
values the hardware returned for those reads (`counter[j]` is the value `pread`
handed out for the counter register of slice `j`) it returns an index `m` below
`NUMBER_SLICES` with `counter[m] >= counter[j]` for every `j`; when one counter
is strictly greater than all the others, its index is the one returned. -/
theorem find_CHA_CBO_argmax (env : Env) (henv : env.Succeeds) (st : MsrState) :
    ∃ fd, ∃ counter : List Nat, ∃ m, 0 ≤ fd ∧ (0 ≤ st.rd_fd → fd = st.rd_fd) ∧
      counter.length = NUMBER_SLICES ∧
      (∀ j, j < NUMBER_SLICES →
        env.pread (st.trace ++ opens false st.rd_fd ++ reads_from fd j 0) fd
          (CHA_CBO_COUNTER_ADDRESS.getD j 0) = Except.ok (8, counter.getD j 0)) ∧
      find_CHA_CBO env st =
        Outcome.ret m
          { st with
            rd_fd := fd
            trace := st.trace ++ opens false st.rd_fd ++ reads_from fd NUMBER_SLICES 0 } ∧
      m < NUMBER_SLICES ∧ (∀ j, j < NUMBER_SLICES → counter.getD j 0 ≤ counter.getD m 0) ∧
      ∀ k, k < NUMBER_SLICES →
        (∀ j, j < NUMBER_SLICES → j ≠ k → counter.getD j 0 < counter.getD k 0) → m = k := by
  obtain ⟨fd, counter, h0, hkeep, hlen, hread, hrun⟩ := find_CHA_CBO_counters env henv st
  obtain ⟨hm, hmax, _⟩ := find_CHA_CBO_max_spec counter NUMBER_SLICES
  have hlt : find_CHA_CBO_max counter NUMBER_SLICES 0 0 0 < NUMBER_SLICES := by
    rcases hm with h | h
    · rw [h]
      decide
    · exact h
  refine ⟨fd, counter, _, h0, hkeep, hlen, hread, hrun, hlt, hmax, ?_⟩
  intro k hk hstrict
  by_contra hne
  have h1 := hstrict _ hlt hne
  have h2 := hmax k hk
  omega

/-- The statement of `find_CHA_CBO_argmax` for the environment `Env.steady` once
the write descriptor is open, together with the value computed there: the
counter of slice 3 reads 700, every other one 5, and the result is 3. -/
theorem find_CHA_CBO_argmax_witness :
    (∃ fd, ∃ counter : List Nat, ∃ m,
      0 ≤ fd ∧ (0 ≤ MsrState.written.rd_fd → fd = MsrState.written.rd_fd) ∧
      counter.length = NUMBER_SLICES ∧
      (∀ j, j < NUMBER_SLICES →
        Env.steady.pread
          (MsrState.written.trace ++ opens false MsrState.written.rd_fd ++ reads_from fd j 0)
          fd (CHA_CBO_COUNTER_ADDRESS.getD j 0) = Except.ok (8, counter.getD j 0)) ∧
      find_CHA_CBO Env.steady MsrState.written =
        Outcome.ret m
          { MsrState.written with
            rd_fd := fd
            trace := MsrState.written.trace ++ opens false MsrState.written.rd_fd ++
              reads_from fd NUMBER_SLICES 0 } ∧
      m < NUMBER_SLICES ∧ (∀ j, j < NUMBER_SLICES → counter.getD j 0 ≤ counter.getD m 0) ∧
      ∀ k, k < NUMBER_SLICES →
        (∀ j, j < NUMBER_SLICES → j ≠ k → counter.getD j 0 < counter.getD k 0) → m = k) ∧
    find_CHA_CBO Env.steady MsrState.written =
      Outcome.ret 3
        { MsrState.written with
          rd_fd := 3
          trace := MsrState.written.trace ++ Event.open_ false ::
            (List.range 8).map (fun i => Event.pread 3 (0xE08 + 16 * i)) } :=
  ⟨find_CHA_CBO_argmax Env.steady steady_succeeds MsrState.written, by decide⟩

/-- C13: when no I/O fails, `uncore_init` issues exactly `3 * NUMBER_SLICES + 2`
register writes, in this order: `DISABLE_COUNT` to `0x700`; `SELECTED_EVENT`
(`0x441134`) to the event register of every slice in index order; `RESET_COUNTERS`
(`0x30002`) to the control register of every slice; `FILTER_BOX_VALUE` to the
filter register of every slice; `ENABLE_COUNT` to `0x700`. The registers of slice
`i` are `0xE01 + 16 * i`, `0xE00 + 16 * i` and `0xE05 + 16 * i`. The only other
event is the `open` of the device when the descriptor is not open yet. -/
theorem uncore_init_writes (env : Env) (henv : env.Succeeds) (st : MsrState) :
    ∃ fd, 0 ≤ fd ∧ (0 ≤ st.wr_fd → fd = st.wr_fd) ∧
      uncore_init env st =
        Outcome.ret ()
          { st with
            wr_fd := fd
            trace := st.trace ++ opens true st.wr_fd ++ setup_writes fd } ∧
      (setup_writes fd).length = 3 * NUMBER_SLICES + 2 ∧
      NUMBER_SLICES = 8 ∧ PMON_GLOBAL_CTL_ADDRESS = 0x700 ∧ SELECTED_EVENT = 0x441134 ∧
      RESET_COUNTERS = 0x30002 ∧
      ∀ i, i < NUMBER_SLICES →
        CHA_CBO_EVENT_ADDRESS.getD i 0 = 0xE01 + 16 * i ∧
        CHA_CBO_CTL_ADDRESS.getD i 0 = 0xE00 + 16 * i ∧
        CHA_CBO_FILTER_ADDRESS.getD i 0 = 0xE05 + 16 * i := by
  obtain ⟨fd, h0, hkeep, h⟩ := uncore_init_ok env henv st
  exact ⟨fd, h0, hkeep, h, rfl, rfl, rfl, rfl, rfl, by decide⟩

/-- The statement of `uncore_init_writes` for the environment `Env.steady` at
process start. -/
theorem uncore_init_writes_witness :
    ∃ fd, 0 ≤ fd ∧ (0 ≤ MsrState.init.wr_fd → fd = MsrState.init.wr_fd) ∧
      uncore_init Env.steady MsrState.init =
        Outcome.ret ()
          { MsrState.init with
            wr_fd := fd
            trace := MsrState.init.trace ++ opens true MsrState.init.wr_fd ++ setup_writes fd } ∧
      (setup_writes fd).length = 3 * NUMBER_SLICES + 2 ∧
      NUMBER_SLICES = 8 ∧ PMON_GLOBAL_CTL_ADDRESS = 0x700 ∧ SELECTED_EVENT = 0x441134 ∧
      RESET_COUNTERS = 0x30002 ∧
      ∀ i, i < NUMBER_SLICES →
        CHA_CBO_EVENT_ADDRESS.getD i 0 = 0xE01 + 16 * i ∧
        CHA_CBO_CTL_ADDRESS.getD i 0 = 0xE00 + 16 * i ∧
        CHA_CBO_FILTER_ADDRESS.getD i 0 = 0xE05 + 16 * i :=
  uncore_init_writes Env.steady steady_succeeds MsrState.init

/-- C14: when no I/O fails, every call of `calculateSlice_uncore va`, from any
state, performs the complete setup sequence of `uncore_init`, then exactly
`NUMBER_POLLING = 750` cache-line flushes of `va`, then one read of the counter
register `0xE08 + 16 * i` of every slice in index order, and returns what
`find_CHA_CBO` computes from those values: the index found by the maximum search.
The only other events are the `open` calls of descriptors not open yet. -/
theorem calculateSlice_uncore_trace (env : Env) (henv : env.Succeeds) (va : Nat)
    (st : MsrState) :
    ∃ wfd rfd st1 st2 st3 vals m,
      uncore_init env st = Outcome.ret () st1 ∧ polling va st1 = Outcome.ret () st2 ∧
      find_CHA_CBO_read env NUMBER_SLICES 0 [] st2 = Outcome.ret vals st3 ∧
      find_CHA_CBO env st2 = Outcome.ret m st3 ∧
      m = find_CHA_CBO_max vals NUMBER_SLICES 0 0 0 ∧
      calculateSlice_uncore env va st = Outcome.ret (m % 2 ^ 8) st3 ∧
      st3.trace = st.trace ++ opens true st.wr_fd ++ setup_writes wfd
        ++ List.replicate 750 (Event.clflush va) ++ opens false st.rd_fd
        ++ (List.range NUMBER_SLICES).map (fun i => Event.pread rfd (0xE08 + 16 * i)) ∧
      st3.wr_fd = wfd ∧ st3.rd_fd = rfd ∧ 0 ≤ wfd ∧ 0 ≤ rfd := by
  obtain ⟨wfd, hw0, _, hinit⟩ := uncore_init_ok env henv st
  obtain ⟨st1, hinit, ht1, hw1, hr1⟩ : ∃ st1, uncore_init env st = Outcome.ret () st1 ∧
      st1.trace = st.trace ++ opens true st.wr_fd ++ setup_writes wfd ∧ st1.wr_fd = wfd ∧
      st1.rd_fd = st.rd_fd := ⟨_, hinit, rfl, rfl, rfl⟩
  obtain ⟨st2, hpoll, ht2, hw2, hr2⟩ : ∃ st2, polling va st1 = Outcome.ret () st2 ∧
      st2.trace = st1.trace ++ List.replicate 750 (Event.clflush va) ∧ st2.wr_fd = st1.wr_fd ∧
      st2.rd_fd = st1.rd_fd := by
    refine ⟨_, rfl, ?_, ?_, ?_⟩
    · rw [polling_loop_eq]
      rfl
    · rw [polling_loop_eq]
    · rw [polling_loop_eq]
  obtain ⟨rfd, hr0, _, hread⟩ := find_CHA_CBO_read_all env henv st2
  obtain ⟨st3, vals, hread, ht3, hw3, hr3⟩ : ∃ st3 vals,
      find_CHA_CBO_read env NUMBER_SLICES 0 [] st2 = Outcome.ret vals st3 ∧
      st3.trace = st2.trace ++ opens false st2.rd_fd ++ reads_from rfd NUMBER_SLICES 0 ∧
      st3.wr_fd = st2.wr_fd ∧ st3.rd_fd = rfd := ⟨_, _, hread, rfl, rfl, rfl⟩
  have hfind : find_CHA_CBO env st2 =
      Outcome.ret (find_CHA_CBO_max vals NUMBER_SLICES 0 0 0) st3 := by
    rw [find_CHA_CBO, hread]
  refine ⟨wfd, rfd, st1, st2, st3, vals, _, hinit, hpoll, hread, hfind, rfl, ?_, ?_,
    by rw [hw3, hw2, hw1], hr3, hw0, hr0⟩
  · rw [calculateSlice_uncore, hinit]
    simp only []
    rw [hpoll]
    simp only []
    rw [hfind]
  · rw [ht3, ht2, ht1, hr2, hr1, reads_from_counter]

/-- The statement of `calculateSlice_uncore_trace` for the environment
`Env.steady` and the address 4096 at process start. -/
theorem calculateSlice_uncore_trace_witness :
    ∃ wfd rfd st1 st2 st3 vals m,
      uncore_init Env.steady MsrState.init = Outcome.ret () st1 ∧
      polling 4096 st1 = Outcome.ret () st2 ∧
      find_CHA_CBO_read Env.steady NUMBER_SLICES 0 [] st2 = Outcome.ret vals st3 ∧
      find_CHA_CBO Env.steady st2 = Outcome.ret m st3 ∧
      m = find_CHA_CBO_max vals NUMBER_SLICES 0 0 0 ∧
      calculateSlice_uncore Env.steady 4096 MsrState.init = Outcome.ret (m % 2 ^ 8) st3 ∧
      st3.trace = MsrState.init.trace ++ opens true MsrState.init.wr_fd ++ setup_writes wfd
        ++ List.replicate 750 (Event.clflush 4096) ++ opens false MsrState.init.rd_fd
        ++ (List.range NUMBER_SLICES).map (fun i => Event.pread rfd (0xE08 + 16 * i)) ∧
      st3.wr_fd = wfd ∧ st3.rd_fd = rfd ∧ 0 ≤ wfd ∧ 0 ≤ rfd :=
  calculateSlice_uncore_trace Env.steady steady_succeeds 4096 MsrState.init

/-! ## The register access layer: results -/

/-- C15: when no I/O fails, `wrmsr_on_cpu_0 reg valcnt regvals` (with at least
`valcnt` values in the array) performs exactly `valcnt` 8-byte writes, every one of
them at offset `reg`, carrying `regvals[0]`, ..., `regvals[valcnt-1]` in that
order; with `valcnt = 0` it performs no write. The only other event is the
`open` of the device when the descriptor is not open yet. -/
theorem wrmsr_on_cpu_0_writes (env : Env) (henv : env.Succeeds) (reg valcnt : Nat)
    (regvals : List Nat) (st : MsrState) (hlen : valcnt ≤ regvals.length) :
    ∃ fd st1, wrmsr_on_cpu_0 env reg valcnt regvals st = Outcome.ret () st1 ∧
      st1.trace = st.trace ++ opens true st.wr_fd ++
        (List.range valcnt).map (fun k => Event.pwrite fd reg (regvals.getD k 0)) ∧
      ((List.range valcnt).map (fun k => Event.pwrite fd reg (regvals.getD k 0))).length
        = valcnt ∧
      (valcnt = 0 → st1.trace = st.trace ++ opens true st.wr_fd) := by
  obtain ⟨fd, _, _, hw⟩ := wrmsr_on_cpu_0_ok env henv reg valcnt regvals st hlen
  have hmap : (regvals.take valcnt).map (Event.pwrite fd reg) =
      (List.range valcnt).map (fun k => Event.pwrite fd reg (regvals.getD k 0)) := by
    apply List.ext_getElem
    · simp [hlen]
    · intro i h1 h2
      simp at h1 h2
      simp [List.getD_eq_getElem?_getD, List.getElem?_eq_getElem (by omega : i < regvals.length)]
  refine ⟨fd, _, hw, ?_, by simp, ?_⟩
  · simp only [hmap]
  · intro h0
    subst h0
    simp

/-- The statement of `wrmsr_on_cpu_0_writes` for three values written to
register `0xE01` in the environment `Env.steady` at process start. -/
theorem wrmsr_on_cpu_0_writes_witness :
    ∃ fd st1, wrmsr_on_cpu_0 Env.steady 0xE01 3 [7, 8, 9] MsrState.init = Outcome.ret () st1 ∧
      st1.trace = MsrState.init.trace ++ opens true MsrState.init.wr_fd ++
        (List.range 3).map (fun k => Event.pwrite fd 0xE01 (([7, 8, 9] : List Nat).getD k 0)) ∧
      ((List.range 3).map
        (fun k => Event.pwrite fd 0xE01 (([7, 8, 9] : List Nat).getD k 0))).length = 3 ∧
      (3 = 0 → st1.trace = MsrState.init.trace ++ opens true MsrState.init.wr_fd) :=
  wrmsr_on_cpu_0_writes Env.steady steady_succeeds 0xE01 3 [7, 8, 9] MsrState.init (by decide)

/-- C16: when the static descriptor of a function is not open yet and opening
the register device fails with `errno` `e`, that function ends the process
after the `open` call and one message, without any register read or write, with
exit status 2 for `ENXIO`, 3 for `EIO` and 127 for every other error. This holds
for `rdmsr_on_cpu_0` and for `wrmsr_on_cpu_0` independently: each looks at its
own descriptor and its own `open` only, whatever the state of the other. -/
theorem msr_open_failure (env : Env) (st : MsrState) :
    (∀ reg e, st.rd_fd < 0 → env.open_ st.trace false = Except.error e →
      ∃ d, rdmsr_on_cpu_0 env reg st =
        Outcome.exit (if e = ENXIO then 2 else if e = EIO then 3 else 127)
          { st with
            errno := e
            trace := st.trace ++ [Event.open_ false, Event.stderr d,
              Event.exit (if e = ENXIO then 2 else if e = EIO then 3 else 127)] }) ∧
    (∀ reg valcnt regvals e, st.wr_fd < 0 → env.open_ st.trace true = Except.error e →
      ∃ d, wrmsr_on_cpu_0 env reg valcnt regvals st =
        Outcome.exit (if e = ENXIO then 2 else if e = EIO then 3 else 127)
          { st with
            errno := e
            trace := st.trace ++ [Event.open_ true, Event.stderr d,
              Event.exit (if e = ENXIO then 2 else if e = EIO then 3 else 127)] }) := by
  have hne : EIO ≠ ENXIO := by decide
  constructor
  · intro reg e hrd hopen
    by_cases h1 : e = ENXIO
    · exact ⟨Diag.no_cpu false 0, by simp [rdmsr_on_cpu_0, msr_open, hrd, hopen, h1]⟩
    · by_cases h2 : e = EIO
      · exact ⟨Diag.no_msr_support false 0, by
          simp [rdmsr_on_cpu_0, msr_open, hrd, hopen, h2, hne]⟩
      · exact ⟨Diag.perror_open false e, by
          simp [rdmsr_on_cpu_0, msr_open, hrd, hopen, h1, h2]⟩
  · intro reg valcnt regvals e hwr hopen
    by_cases h1 : e = ENXIO
    · exact ⟨Diag.no_cpu true 0, by simp [wrmsr_on_cpu_0, msr_open, hwr, hopen, h1]⟩
    · by_cases h2 : e = EIO
      · exact ⟨Diag.no_msr_support true 0, by
          simp [wrmsr_on_cpu_0, msr_open, hwr, hopen, h2, hne]⟩
      · exact ⟨Diag.perror_open true e, by
          simp [wrmsr_on_cpu_0, msr_open, hwr, hopen, h1, h2]⟩

/-- The statement of `msr_open_failure` for a read whose `open` fails with `EIO`
while the write descriptor is open (the device is writable but not readable),
and for a write at process start whose `open` fails with `ENXIO` (the device is
readable but not writable). -/
theorem msr_open_failure_witness :
    (∃ d, rdmsr_on_cpu_0 (Env.no_read EIO) 0xE08 MsrState.written =
        Outcome.exit (if EIO = ENXIO then 2 else if EIO = EIO then 3 else 127)
          { MsrState.written with
            errno := EIO
            trace := MsrState.written.trace ++ [Event.open_ false, Event.stderr d,
              Event.exit (if EIO = ENXIO then 2 else if EIO = EIO then 3 else 127)] }) ∧
    (∃ d, wrmsr_on_cpu_0 (Env.no_write ENXIO) 0x700 1 [DISABLE_COUNT] MsrState.init =
        Outcome.exit (if ENXIO = ENXIO then 2 else if ENXIO = EIO then 3 else 127)
          { MsrState.init with
            errno := ENXIO
            trace := MsrState.init.trace ++ [Event.open_ true, Event.stderr d,
              Event.exit (if ENXIO = ENXIO then 2 else if ENXIO = EIO then 3 else 127)] }) :=
  ⟨(msr_open_failure (Env.no_read EIO) MsrState.written).1 0xE08 EIO (by decide) rfl,
    (msr_open_failure (Env.no_write ENXIO) MsrState.init).2 0x700 1 [DISABLE_COUNT] ENXIO
      (by decide) rfl⟩

theorem rdmsr_fail_spec (reg : Nat) (st : MsrState) :
    ∃ d status, rdmsr_fail reg st =
        Outcome.exit status
          { st with trace := st.trace ++ [Event.stderr d, Event.exit status] } ∧
      status = (if st.errno = EIO then 4 else 127) ∧
      (status = 4 → d.register = some reg) ∧ (status ≠ 4 → d.register = none) := by
  by_cases h : st.errno = EIO
  · exact ⟨Diag.cannot_read 0 reg, 4, by simp [rdmsr_fail, h], by simp [h],
      fun _ => rfl, fun h4 => absurd rfl h4⟩
  · exact ⟨Diag.perror_pread st.errno, 127, by simp [rdmsr_fail, h], by simp [h],
      fun h4 => by omega, fun _ => rfl⟩

theorem wrmsr_fail_spec (reg data : Nat) (st : MsrState) :
    ∃ d status, wrmsr_fail reg data st =
        Outcome.exit status
          { st with trace := st.trace ++ [Event.stderr d, Event.exit status] } ∧
      status = (if st.errno = EIO then 4 else 127) ∧
      (status = 4 → d.register = some reg) ∧ (status ≠ 4 → d.register = none) := by
  by_cases h : st.errno = EIO
  · exact ⟨Diag.cannot_set 0 reg data, 4, by simp [wrmsr_fail, h], by simp [h],
      fun _ => rfl, fun h4 => absurd rfl h4⟩
  · exact ⟨Diag.perror_pwrite st.errno, 127, by simp [wrmsr_fail, h], by simp [h],
      fun h4 => by omega, fun _ => rfl⟩

/-- A failed or short `pread` after the descriptor has been obtained: one
attempt, one message, `exit`. -/
theorem rdmsr_on_cpu_0_fail (env : Env) (reg : Nat) (st st1 : MsrState) (fd : Int)
    (hopen : msr_open env false st.rd_fd st = Outcome.ret fd st1)
    (hfail : ∀ data, env.pread st1.trace fd reg ≠ Except.ok (8, data)) :
    ∃ st2 d status, rdmsr_on_cpu_0 env reg st = Outcome.exit status st2 ∧
      st2.trace = st1.trace ++ [Event.pread fd reg, Event.stderr d, Event.exit status] ∧
      status = (if st2.errno = EIO then 4 else 127) ∧
      (status = 4 → d.register = some reg) ∧ (status ≠ 4 → d.register = none) ∧
      (∀ e, env.pread st1.trace fd reg = Except.error e → st2.errno = e) := by
  simp only [rdmsr_on_cpu_0, hopen]
  cases hp : env.pread st1.trace fd reg with
  | error e =>
    simp only []
    obtain ⟨d, status, hf, hs, hreg1, hreg2⟩ := rdmsr_fail_spec reg
      { rd_fd := fd, wr_fd := st1.wr_fd, errno := e,
        trace := st1.trace ++ [Event.pread fd reg] }
    exact ⟨_, d, status, hf, by simp, hs, hreg1, hreg2, fun e2 h2 =>
      Except.error.inj h2⟩
  | ok r =>
    obtain ⟨n, data⟩ := r
    have hn : n ≠ 8 := by
      intro h8
      subst h8
      exact hfail data hp
    simp only [hn, ne_eq, not_false_eq_true, if_true]
    obtain ⟨d, status, hf, hs, hreg1, hreg2⟩ := rdmsr_fail_spec reg
      { rd_fd := fd, wr_fd := st1.wr_fd, errno := st1.errno,
        trace := st1.trace ++ [Event.pread fd reg] }
    exact ⟨_, d, status, hf, by simp, hs, hreg1, hreg2, fun e2 h2 => by
      injection h2⟩

theorem msr_open_exit (env : Env) (wr : Bool) (fd : Int) (st st2 : MsrState) (status : Nat)
    (h : msr_open env wr fd st = Outcome.exit status st2) :
    ∃ pre d, st2.trace = pre ++ [Event.stderr d, Event.exit status] ∧ status ≠ 4 ∧
      d.register = none := by
  unfold msr_open at h
  by_cases hfd : fd < 0
  · rw [if_pos hfd] at h
    cases ho : env.open_ st.trace wr with
    | ok newfd =>
      rw [ho] at h
      simp at h
    | error e =>
      rw [ho] at h
      simp only [] at h
      by_cases h1 : e = ENXIO
      · rw [if_pos h1] at h
        injection h with hs hst
        subst hs hst
        exact ⟨_, _, rfl, by decide, rfl⟩
      · rw [if_neg h1] at h
        by_cases h2 : e = EIO
        · rw [if_pos h2] at h
          injection h with hs hst
          subst hs hst
          exact ⟨_, _, rfl, by decide, rfl⟩
        · rw [if_neg h2] at h
          injection h with hs hst
          subst hs hst
          exact ⟨_, _, rfl, by decide, rfl⟩
  · rw [if_neg hfd] at h
    simp at h

theorem wrmsr_loop_exit (env : Env) (fd : Int) (reg : Nat) :
    ∀ valcnt regvals st st2 status,
      wrmsr_loop env fd reg valcnt regvals st = Outcome.exit status st2 →
      ∃ pre d, st2.trace = pre ++ [Event.stderr d, Event.exit status] ∧
        (status = 4 → d.register = some reg) ∧ (status ≠ 4 → d.register = none) := by
  intro valcnt
  induction valcnt with
  | zero =>
    intro regvals st st2 status h
    simp [wrmsr_loop] at h
  | succ valcnt ih =>
    intro regvals st st2 status h
    unfold wrmsr_loop at h
    simp only [] at h
    cases hp : env.pwrite st.trace fd reg (regvals.headD 0) with
    | error e =>
      rw [hp] at h
      simp only [] at h
      obtain ⟨d, status2, hf, _, hreg1, hreg2⟩ := wrmsr_fail_spec reg (regvals.headD 0)
        { st with
          trace := st.trace ++ [Event.pwrite fd reg (regvals.headD 0)]
          errno := e }
      rw [hf] at h
      injection h with hs hst
      subst hs hst
      exact ⟨_, d, rfl, hreg1, hreg2⟩
    | ok n =>
      rw [hp] at h
      simp only [] at h
      by_cases hn : n ≠ 8
      · rw [if_pos hn] at h
        obtain ⟨d, status2, hf, _, hreg1, hreg2⟩ := wrmsr_fail_spec reg (regvals.headD 0)
          { st with trace := st.trace ++ [Event.pwrite fd reg (regvals.headD 0)] }
        rw [hf] at h
        injection h with hs hst
        subst hs hst
        exact ⟨_, d, rfl, hreg1, hreg2⟩
      · rw [if_neg hn] at h
        exact ih _ _ _ _ h

/-! ## The register access layer: diagnostics and descriptors -/

/-- C18, as the claim states it, fails: when `open` fails with `ENXIO` the
process exits with status 2 after the message `rdmsr: No CPU 0`, which names no
register. -/
theorem rdmsr_on_cpu_0_no_cpu_message :
    rdmsr_on_cpu_0 (Env.closed ENXIO) 0xE08 MsrState.init =
        Outcome.exit 2
          { MsrState.init with
            errno := ENXIO
            trace := [Event.open_ false, Event.stderr (Diag.no_cpu false 0), Event.exit 2] } ∧
      (Diag.no_cpu false 0).register = none := by
  decide

/-- C18, amended: every fatal condition of the register access layer (failed
open, failed or short read, failed or short write) emits a message on `stderr`
right before the process exits; the message names the register address exactly
when the exit status is 4, that is for a read or write that fails with `errno`
`EIO`. The messages for a failed `open` and for every other failed or short
transfer name no register. -/
theorem msr_fatal_message (env : Env) (reg valcnt : Nat) (regvals : List Nat)
    (st st2 : MsrState) (status : Nat)
    (h : rdmsr_on_cpu_0 env reg st = Outcome.exit status st2 ∨
      wrmsr_on_cpu_0 env reg valcnt regvals st = Outcome.exit status st2) :
    ∃ pre d, st2.trace = pre ++ [Event.stderr d, Event.exit status] ∧
      (status = 4 → d.register = some reg) ∧ (status ≠ 4 → d.register = none) := by
  rcases h with h | h
  · cases ho : msr_open env false st.rd_fd st with
    | exit status1 st1 =>
      simp only [rdmsr_on_cpu_0, ho] at h
      injection h with hs hst
      subst hs hst
      obtain ⟨pre, d, htr, h4, hreg⟩ := msr_open_exit env false st.rd_fd st _ _ ho
      exact ⟨pre, d, htr, fun h => absurd h h4, fun _ => hreg⟩
    | ret fd st1 =>
      have hfail : ∀ data, env.pread st1.trace fd reg ≠ Except.ok (8, data) := by
        intro data hp
        simp [rdmsr_on_cpu_0, ho, hp] at h
      obtain ⟨st3, d, status3, hrun, htr, _, hreg1, hreg2, _⟩ :=
        rdmsr_on_cpu_0_fail env reg st st1 fd ho hfail
      rw [hrun] at h
      injection h with hs hst
      subst hs hst
      exact ⟨st1.trace ++ [Event.pread fd reg], d, by rw [htr]; simp, hreg1, hreg2⟩
  · cases ho : msr_open env true st.wr_fd st with
    | exit status1 st1 =>
      simp only [wrmsr_on_cpu_0, ho] at h
      injection h with hs hst
      subst hs hst
      obtain ⟨pre, d, htr, h4, hreg⟩ := msr_open_exit env true st.wr_fd st _ _ ho
      exact ⟨pre, d, htr, fun h => absurd h h4, fun _ => hreg⟩
    | ret fd st1 =>
      simp only [wrmsr_on_cpu_0, ho] at h
      exact wrmsr_loop_exit env fd reg _ _ _ _ _ h

/-- The statement of `msr_fatal_message` for a read of register `0xE08` that
fails with `EIO` at process start. -/
theorem msr_fatal_message_witness :
    ∃ pre d,
      ({ rd_fd := 3, wr_fd := -1, errno := EIO,
         trace := [Event.open_ false, Event.pread 3 0xE08,
           Event.stderr (Diag.cannot_read 0 0xE08), Event.exit 4] } : MsrState).trace =
        pre ++ [Event.stderr d, Event.exit 4] ∧
      (4 = 4 → d.register = some 0xE08) ∧ (4 ≠ 4 → d.register = none) :=
  msr_fatal_message (Env.unlucky EIO) 0xE08 1 [7] MsrState.init
    { rd_fd := 3, wr_fd := -1, errno := EIO,
      trace := [Event.open_ false, Event.pread 3 0xE08,
        Event.stderr (Diag.cannot_read 0 0xE08), Event.exit 4] } 4 (Or.inl (by decide))

theorem opens_of_neg (wr : Bool) (fd : Int) (h : fd < 0) : opens wr fd = [Event.open_ wr] := by
  unfold opens
  rw [if_pos h]

theorem rdmsr_calls_ok (env : Env) (henv : env.Succeeds) :
    ∀ regs st, 0 ≤ st.rd_fd →
      ∃ vals, rdmsr_calls env regs st =
        Outcome.ret vals { st with trace := st.trace ++ regs.map (Event.pread st.rd_fd) } := by
  intro regs
  induction regs with
  | nil =>
    intro st _
    exact ⟨[], by simp [rdmsr_calls]⟩
  | cons reg regs ih =>
    intro st hfd
    obtain ⟨fd, data, _, hkeep, _, hr⟩ := rdmsr_on_cpu_0_ok env henv reg st
    have hfdeq := hkeep hfd
    subst hfdeq
    rw [opens_of_nonneg false st.rd_fd hfd, List.append_nil] at hr
    obtain ⟨vals, hvals⟩ := ih
      { st with trace := st.trace ++ [Event.pread st.rd_fd reg] } hfd
    refine ⟨data :: vals, ?_⟩
    simp only [rdmsr_calls, hr, hvals]
    simp

theorem wrmsr_calls_ok (env : Env) (henv : env.Succeeds) :
    ∀ calls st, 0 ≤ st.wr_fd →
      wrmsr_calls env calls st =
        Outcome.ret () { st with trace := st.trace ++ calls_trace st.wr_fd calls } := by
  intro calls
  induction calls with
  | nil =>
    intro st _
    simp [wrmsr_calls, calls_trace]
  | cons call calls ih =>
    intro st hfd
    obtain ⟨reg, regvals⟩ := call
    obtain ⟨fd, _, hkeep, hw⟩ :=
      wrmsr_on_cpu_0_ok env henv reg regvals.length regvals st (le_refl _)
    have hfdeq := hkeep hfd
    subst hfdeq
    rw [opens_of_nonneg true st.wr_fd hfd, List.append_nil, List.take_length] at hw
    simp only [wrmsr_calls, hw]
    rw [ih]
    · simp [calls_trace]
    · exact hfd

/-- C19: the register handle is opened lazily and kept open. Over any sequence
of successful `rdmsr_on_cpu_0` calls that starts with the read descriptor not
open, the device is opened exactly once, in front of the first read, and is
neither closed nor reopened: the trace is one `open` followed by the reads, all
through the descriptor that `open` returned; a sequence that starts with the
read descriptor open adds reads only. The same holds for any sequence of
`wrmsr_on_cpu_0` calls with the write descriptor. Each function looks at its own
descriptor only: the state of the other descriptor plays no role and is left
unchanged. -/
theorem msr_descriptor_opened_once (env : Env) (henv : env.Succeeds) (st : MsrState) :
    (∀ reg regs, st.rd_fd < 0 →
      ∃ fd vals st1, rdmsr_calls env (reg :: regs) st = Outcome.ret vals st1 ∧ 0 ≤ fd ∧
        st1.rd_fd = fd ∧ st1.wr_fd = st.wr_fd ∧
        st1.trace = st.trace ++ Event.open_ false :: (reg :: regs).map (Event.pread fd)) ∧
    (∀ regs, 0 ≤ st.rd_fd →
      ∃ vals st1, rdmsr_calls env regs st = Outcome.ret vals st1 ∧
        st1.rd_fd = st.rd_fd ∧ st1.wr_fd = st.wr_fd ∧
        st1.trace = st.trace ++ regs.map (Event.pread st.rd_fd)) ∧
    (∀ call calls, st.wr_fd < 0 →
      ∃ fd st1, wrmsr_calls env (call :: calls) st = Outcome.ret () st1 ∧ 0 ≤ fd ∧
        st1.wr_fd = fd ∧ st1.rd_fd = st.rd_fd ∧
        st1.trace = st.trace ++ Event.open_ true :: calls_trace fd (call :: calls)) ∧
    (∀ calls, 0 ≤ st.wr_fd →
      ∃ st1, wrmsr_calls env calls st = Outcome.ret () st1 ∧
        st1.wr_fd = st.wr_fd ∧ st1.rd_fd = st.rd_fd ∧
        st1.trace = st.trace ++ calls_trace st.wr_fd calls) := by
  refine ⟨?_, ?_, ?_, ?_⟩
  · intro reg regs hrd
    obtain ⟨fd, data, h0, _, _, hr⟩ := rdmsr_on_cpu_0_ok env henv reg st
    rw [opens_of_neg false st.rd_fd hrd] at hr
    obtain ⟨vals, hvals⟩ := rdmsr_calls_ok env henv regs
      { st with rd_fd := fd, trace := st.trace ++ [Event.open_ false] ++ [Event.pread fd reg] }
      h0
    refine ⟨fd, data :: vals,
      { st with
        rd_fd := fd
        trace := st.trace ++ [Event.open_ false] ++ [Event.pread fd reg]
          ++ regs.map (Event.pread fd) }, ?_, h0, rfl, rfl, ?_⟩
    · simp only [rdmsr_calls, hr, hvals]
    · simp
  · intro regs hrd
    obtain ⟨vals, hvals⟩ := rdmsr_calls_ok env henv regs st hrd
    exact ⟨vals, _, hvals, rfl, rfl, rfl⟩
  · intro call calls hwr
    obtain ⟨reg2, regvals⟩ := call
    obtain ⟨fd, h0, _, hw⟩ :=
      wrmsr_on_cpu_0_ok env henv reg2 regvals.length regvals st (le_refl _)
    rw [opens_of_neg true st.wr_fd hwr, List.take_length] at hw
    refine ⟨fd,
      { st with
        wr_fd := fd
        trace := st.trace ++ [Event.open_ true] ++ regvals.map (Event.pwrite fd reg2)
          ++ calls_trace fd calls }, ?_, h0, rfl, rfl, ?_⟩
    · simp only [wrmsr_calls, hw]
      rw [wrmsr_calls_ok env henv calls _ h0]
    · simp [calls_trace]
  · intro calls hwr
    exact ⟨_, wrmsr_calls_ok env henv calls st hwr, rfl, rfl, rfl⟩

/-- The statement of `msr_descriptor_opened_once` in the environment
`Env.steady`: three reads once the write descriptor is open (the state in which
the program makes its first read), two further write calls in that same state,
and two write calls at process start. -/
theorem msr_descriptor_opened_once_witness :
    (∃ fd vals st1,
      rdmsr_calls Env.steady (0xE08 :: [0xE18, 0xE08]) MsrState.written =
        Outcome.ret vals st1 ∧
      0 ≤ fd ∧ st1.rd_fd = fd ∧ st1.wr_fd = MsrState.written.wr_fd ∧
      st1.trace = MsrState.written.trace ++
        Event.open_ false :: (0xE08 :: [0xE18, 0xE08]).map (Event.pread fd)) ∧
    (∃ st1,
      wrmsr_calls Env.steady [(0x700, [1]), (0xE01, [2, 3])] MsrState.written =
        Outcome.ret () st1 ∧
      st1.wr_fd = MsrState.written.wr_fd ∧ st1.rd_fd = MsrState.written.rd_fd ∧
      st1.trace = MsrState.written.trace ++
        calls_trace MsrState.written.wr_fd [(0x700, [1]), (0xE01, [2, 3])]) ∧
    (∃ fd st1,
      wrmsr_calls Env.steady ((0x700, [1]) :: [(0xE01, [2, 3])]) MsrState.init =
        Outcome.ret () st1 ∧
      0 ≤ fd ∧ st1.wr_fd = fd ∧ st1.rd_fd = MsrState.init.rd_fd ∧
      st1.trace = MsrState.init.trace ++
        Event.open_ true :: calls_trace fd ((0x700, [1]) :: [(0xE01, [2, 3])])) :=
  ⟨(msr_descriptor_opened_once Env.steady steady_succeeds MsrState.written).1 0xE08
      [0xE18, 0xE08] (by decide),
    (msr_descriptor_opened_once Env.steady steady_succeeds MsrState.written).2.2.2
      [(0x700, [1]), (0xE01, [2, 3])] (by decide),
    (msr_descriptor_opened_once Env.steady steady_succeeds MsrState.init).2.2.1 (0x700, [1])
      [(0xE01, [2, 3])] (by decide)⟩

/-! ## Packet payload access: results -/

theorem be64toh_load64 (mem : Nat → Nat) (p : Nat) :
    be64toh (load64 mem p) = decode_be mem p := by
  unfold be64toh load64 decode_be
  have h0 : mem p % 256 < 256 := Nat.mod_lt _ (by decide)
  have h1 : mem (p + 1) % 256 < 256 := Nat.mod_lt _ (by decide)
  have h2 : mem (p + 2) % 256 < 256 := Nat.mod_lt _ (by decide)
  have h3 : mem (p + 3) % 256 < 256 := Nat.mod_lt _ (by decide)
  have h4 : mem (p + 4) % 256 < 256 := Nat.mod_lt _ (by decide)
  have h5 : mem (p + 5) % 256 < 256 := Nat.mod_lt _ (by decide)
  have h6 : mem (p + 6) % 256 < 256 := Nat.mod_lt _ (by decide)
  have h7 : mem (p + 7) % 256 < 256 := Nat.mod_lt _ (by decide)
  generalize mem p % 256 = b0 at h0 ⊢
  generalize mem (p + 1) % 256 = b1 at h1 ⊢
  generalize mem (p + 2) % 256 = b2 at h2 ⊢
  generalize mem (p + 3) % 256 = b3 at h3 ⊢
  generalize mem (p + 4) % 256 = b4 at h4 ⊢
  generalize mem (p + 5) % 256 = b5 at h5 ⊢
  generalize mem (p + 6) % 256 = b6 at h6 ⊢
  generalize mem (p + 7) % 256 = b7 at h7 ⊢
  omega

theorem load64_memcpy (data v : Nat → Nat) :
    load64 (memcpy data 65 v 64) 65 = load64 v 0 := by
  simp [load64, memcpy]

/-- C20: `read_key_from_packet` returns the big-endian decoding of the 8 payload
bytes at offsets 65..72, `write_value_to_packet` copies the 64 bytes of the value
to the payload offsets 65..128 and leaves every other byte alone, and so reading
the key after writing the value `v` returns `be64toh` of the first 8 bytes of `v`
(the word `*value` of the debug check). -/
theorem packet_key_round_trip (data v : Nat → Nat) :
    read_key_from_packet data = decode_be data 65 ∧
      (∀ a, write_value_to_packet data v a =
        if 65 ≤ a ∧ a ≤ 128 then v (a - 65) else data a) ∧
      read_key_from_packet (write_value_to_packet data v) = be64toh (load64 v 0) := by
  refine ⟨be64toh_load64 data 65, ?_, ?_⟩
  · intro a
    unfold write_value_to_packet memcpy
    by_cases h : 65 ≤ a ∧ a ≤ 128
    · rw [if_pos h, if_pos ⟨h.1, by omega⟩]
    · rw [if_neg h, if_neg (fun h2 => h ⟨h2.1, by omega⟩)]
  · unfold read_key_from_packet write_value_to_packet
    rw [load64_memcpy]

/-! ## The array builder: stored values -/

/-- C11, as the claim states it, fails: with two elements (slice 0, base 0) the
64-bit word stored in element 1 is 2, not the identity value 1. -/
theorem create_array_stores_double :
    (create_array 15 2 0 0 0).map (fun st => st.mem (st.array.getD 1 0)) = some 2 := by
  decide

/-- C11, amended: after `create_array` has built a region of `nb_keys` elements
(target slice below 8, backing block inside the 64-bit address space), the 64-bit
word stored in element `i` is `i * 2`, for every `i < nb_keys`; in particular
element 0 holds 0. -/
theorem create_array_stored_values (nb_keys slice mem_virtual mem_iova fuel : Nat)
    (hs : slice < 8) (hiova : mem_iova < 2 ^ 64)
    (hfit : mem_iova + nb_keys * 8 * 64 ≤ 2 ^ 64) (hfuel : 15 ≤ fuel) :
    ∃ st, create_array fuel nb_keys slice mem_virtual mem_iova = some st ∧
      (∀ i, i < nb_keys → st.mem (st.array.getD i 0) = i * 2) ∧
      (0 < nb_keys → st.mem (st.array.getD 0 0) = 0) := by
  obtain ⟨st, m0, hst, _, hfm, inv, _⟩ :=
    create_array_spec nb_keys slice mem_virtual mem_iova fuel hs hiova hfuel
  have hall : ∀ i, i < nb_keys → st.mem (st.array.getD i 0) = i * 2 := by
    intro i hi
    obtain ⟨hnw0, hnw⟩ := create_array_fit nb_keys slice mem_iova m0 hs (by omega) hfit hfm
    have hblk := array_iova_blocks slice mem_virtual mem_iova nb_keys m0 st hs inv hnw0 hnw
    have h := inv.stored i hi
    rw [Nat.mod_eq_of_lt (by omega)] at h
    apply h
    intro k hik hk
    obtain ⟨hi1, _, hi3, hi4⟩ := hblk i hi
    obtain ⟨hk1, _, hk3, hk4⟩ := hblk k hk
    have hbk := (inv.bound k hk).1
    rw [hi4, hk4]
    omega
  exact ⟨st, hst, hall, fun h0 => by simpa using hall 0 h0⟩

/-- The statement of `create_array_stored_values` for three elements of slice 5
at base 8192. -/
theorem create_array_stored_values_witness :
    ∃ st, create_array 15 3 5 4096 8192 = some st ∧
      (∀ i, i < 3 → st.mem (st.array.getD i 0) = i * 2) ∧
      (0 < 3 → st.mem (st.array.getD 0 0) = 0) :=
  create_array_stored_values 3 5 4096 8192 15 (by decide) (by decide) (by decide) (by decide)

/-! ## Set indexes: results -/

theorem and_mask_shiftRight (a w : Nat) :
    (a &&& (2 ^ w - 1) * 2 ^ 6) >>> 6 = a / 64 % 2 ^ w := by
  apply Nat.eq_of_testBit_eq
  intro j
  have h64 : (64 : Nat) = 2 ^ 6 := by decide
  rw [Nat.testBit_shiftRight, Nat.testBit_and, Nat.testBit_mod_two_pow, h64,
    ← Nat.shiftRight_eq_div_pow, Nat.testBit_shiftRight, Nat.mul_comm,
    Nat.testBit_mul_pow_two, Nat.testBit_two_pow_sub_one]
  have hge : 6 + j ≥ 6 := by omega
  have hsub : 6 + j - 6 = j := by omega
  simp only [hge, hsub, decide_True, Bool.true_and]
  exact Bool.and_comm _ _

/-- C21: for every address `a`, `indexCalculator a 1 = (a >> 6) mod 64`,
`indexCalculator a 2 = (a >> 6) mod 512` and `indexCalculator a 3 = (a >> 6) mod
2048`; for every other `cacheLevel` the function ends the program with
`EXIT_FAILURE`. Adding `L2_INDEX_STRIDE` (`0x8000`) leaves the level-2 index
unchanged, and adding `L3_INDEX_STRIDE` (`0x20000`) leaves the level-3 index
unchanged (the sums being 64-bit). -/
theorem indexCalculator_levels (a : Nat) (cacheLevel : Int) :
    indexCalculator a 1 = Except.ok (a / 64 % 64) ∧
      indexCalculator a 2 = Except.ok (a / 64 % 512) ∧
      indexCalculator a 3 = Except.ok (a / 64 % 2048) ∧
      (cacheLevel ≠ 1 → cacheLevel ≠ 2 → cacheLevel ≠ 3 →
        indexCalculator a cacheLevel = Except.error EXIT_FAILURE) ∧
      EXIT_FAILURE = 1 ∧ L2_INDEX_STRIDE = 0x8000 ∧ L3_INDEX_STRIDE = 0x20000 ∧
      indexCalculator ((a + L2_INDEX_STRIDE) % 2 ^ 64) 2 = indexCalculator a 2 ∧
      indexCalculator ((a + L3_INDEX_STRIDE) % 2 ^ 64) 3 = indexCalculator a 3 := by
  have e1 : ∀ x, indexCalculator x 1 = Except.ok (x / 64 % 64) := by
    intro x
    have h : (x &&& (2 ^ 6 - 1) * 2 ^ 6) >>> 6 = x / 64 % 64 := and_mask_shiftRight x 6
    have hm : L1_INDEX = (2 ^ 6 - 1) * 2 ^ 6 := by decide
    unfold indexCalculator
    rw [if_pos rfl]
    simp only [hm, h]
  have e2 : ∀ x, indexCalculator x 2 = Except.ok (x / 64 % 512) := by
    intro x
    have h : (x &&& (2 ^ 9 - 1) * 2 ^ 6) >>> 6 = x / 64 % 512 := and_mask_shiftRight x 9
    have hm : L2_INDEX = (2 ^ 9 - 1) * 2 ^ 6 := by decide
    unfold indexCalculator
    rw [if_neg (by decide), if_pos rfl]
    simp only [hm, h]
  have e3 : ∀ x, indexCalculator x 3 = Except.ok (x / 64 % 2048) := by
    intro x
    have h : (x &&& (2 ^ 11 - 1) * 2 ^ 6) >>> 6 = x / 64 % 2048 := and_mask_shiftRight x 11
    have hm : L3_INDEX_PER_SLICE = (2 ^ 11 - 1) * 2 ^ 6 := by decide
    unfold indexCalculator
    rw [if_neg (by decide), if_neg (by decide), if_pos rfl]
    simp only [hm, h]
  refine ⟨e1 a, e2 a, e3 a, ?_, rfl, rfl, rfl, ?_, ?_⟩
  · intro h1 h2 h3
    simp [indexCalculator, h1, h2, h3]
  · have hx : (a + 32768) % 18446744073709551616 / 64 % 512 = a / 64 % 512 := by omega
    rw [e2, e2]
    exact congrArg Except.ok hx
  · have hx : (a + 131072) % 18446744073709551616 / 64 % 2048 = a / 64 % 2048 := by omega
    rw [e3, e3]
    exact congrArg Except.ok hx

/-! ## The measurement classifier: ties -/

theorem idle_succeeds : Env.idle.Succeeds :=
  ⟨fun _ _ => ⟨3, rfl⟩, fun _ _ _ => ⟨0, rfl⟩, fun _ _ _ _ => rfl⟩

/-- C24: the measurement classifier never reports ambiguity. When no I/O fails,
`find_CHA_CBO` returns an index `m` below `NUMBER_SLICES` for the vector
`counter` of the values the hardware returned (`counter[j]` is the value `pread`
handed out for the counter register of slice `j`): `counter[m]` is the greatest
value, every index holding that same value is at least `m`, so among several
counters that share the maximum the lowest index is returned; and when all
counters are zero the result is 0, an ordinary slice index. -/
theorem find_CHA_CBO_ties (env : Env) (henv : env.Succeeds) (st : MsrState) :
    ∃ fd, ∃ counter : List Nat, ∃ m, 0 ≤ fd ∧ (0 ≤ st.rd_fd → fd = st.rd_fd) ∧
      counter.length = NUMBER_SLICES ∧
      (∀ j, j < NUMBER_SLICES →
        env.pread (st.trace ++ opens false st.rd_fd ++ reads_from fd j 0) fd
          (CHA_CBO_COUNTER_ADDRESS.getD j 0) = Except.ok (8, counter.getD j 0)) ∧
      find_CHA_CBO env st =
        Outcome.ret m
          { st with
            rd_fd := fd
            trace := st.trace ++ opens false st.rd_fd ++ reads_from fd NUMBER_SLICES 0 } ∧
      m < NUMBER_SLICES ∧ (∀ j, j < NUMBER_SLICES → counter.getD j 0 ≤ counter.getD m 0) ∧
      (∀ j, j < NUMBER_SLICES → counter.getD j 0 = counter.getD m 0 → m ≤ j) ∧
      ((∀ j, j < NUMBER_SLICES → counter.getD j 0 = 0) → m = 0) := by
  obtain ⟨fd, counter, h0, hkeep, hlen, hread, hrun⟩ := find_CHA_CBO_counters env henv st
  obtain ⟨hm, hmax, hlow⟩ := find_CHA_CBO_max_spec counter NUMBER_SLICES
  have hlt : find_CHA_CBO_max counter NUMBER_SLICES 0 0 0 < NUMBER_SLICES := by
    rcases hm with h | h
    · rw [h]
      decide
    · exact h
  refine ⟨fd, counter, _, h0, hkeep, hlen, hread, hrun, hlt, hmax, ?_, ?_⟩
  · intro j _ heq
    by_contra hcon
    have := hlow j (by omega)
    omega
  · intro hzero
    by_contra hcon
    have h0 := hlow 0 (by omega)
    have h1 := hzero 0 (by decide)
    have h2 := hzero _ hlt
    omega

/-- The statement of `find_CHA_CBO_ties` in the environment `Env.tied` once the
write descriptor is open, together with the values computed: with the maximum 9
shared by the counters of slices 1 and 2 the result is 1, and in `Env.idle`,
where every counter reads 0, the result is 0. -/
theorem find_CHA_CBO_ties_witness :
    (∃ fd, ∃ counter : List Nat, ∃ m,
      0 ≤ fd ∧ (0 ≤ MsrState.written.rd_fd → fd = MsrState.written.rd_fd) ∧
      counter.length = NUMBER_SLICES ∧
      (∀ j, j < NUMBER_SLICES →
        Env.tied.pread
          (MsrState.written.trace ++ opens false MsrState.written.rd_fd ++ reads_from fd j 0)
          fd (CHA_CBO_COUNTER_ADDRESS.getD j 0) = Except.ok (8, counter.getD j 0)) ∧
      find_CHA_CBO Env.tied MsrState.written =
        Outcome.ret m
          { MsrState.written with
            rd_fd := fd
            trace := MsrState.written.trace ++ opens false MsrState.written.rd_fd ++
              reads_from fd NUMBER_SLICES 0 } ∧
      m < NUMBER_SLICES ∧ (∀ j, j < NUMBER_SLICES → counter.getD j 0 ≤ counter.getD m 0) ∧
      (∀ j, j < NUMBER_SLICES → counter.getD j 0 = counter.getD m 0 → m ≤ j) ∧
      ((∀ j, j < NUMBER_SLICES → counter.getD j 0 = 0) → m = 0)) ∧
    find_CHA_CBO Env.tied MsrState.written =
      Outcome.ret 1
        { MsrState.written with
          rd_fd := 3
          trace := MsrState.written.trace ++ Event.open_ false ::
            (List.range 8).map (fun i => Event.pread 3 (0xE08 + 16 * i)) } ∧
    find_CHA_CBO Env.idle MsrState.written =
      Outcome.ret 0
        { MsrState.written with
          rd_fd := 3
          trace := MsrState.written.trace ++ Event.open_ false ::
            (List.range 8).map (fun i => Event.pread 3 (0xE08 + 16 * i)) } :=
  ⟨find_CHA_CBO_ties Env.tied tied_succeeds MsrState.written, by decide, by decide⟩

/-! ## The closed-form classifier: lines and blocks -/

theorem calculateSlice_HF_haswell_split (pa : Nat) :
    calculateSlice_HF_haswell pa =
      calculateSlice_HF_haswell (512 * (pa / 512)) ^^^ (pa / 64 % 8) := by
  have hdec : pa = 512 * (pa / 512) + 64 * (pa / 64 % 8) + pa % 64 := by omega
  have h := calculateSlice_HF_haswell_block (pa / 512) (pa / 64 % 8) (pa % 64)
    (Nat.mod_lt _ (by decide)) (Nat.mod_lt _ (by decide))
  rw [← hdec] at h
  exact h

theorem calculateSlice_HF_haswell_same_line (pa pb : Nat) (h : pb / 64 = pa / 64) :
    calculateSlice_HF_haswell pb = calculateSlice_HF_haswell pa := by
  rw [calculateSlice_HF_haswell_split pa, calculateSlice_HF_haswell_split pb, h]
  have hq : pb / 512 = pa / 512 := by omega
  rw [hq]

theorem rte_xorall64_mod (pa mask : Nat) (hmask : mask < 2 ^ 38) :
    rte_xorall64 (pa % 2 ^ 38 &&& mask) = rte_xorall64 (pa &&& mask) := by
  have h1 : pa % 2 ^ 38 = pa &&& 2 ^ 38 - 1 := (Nat.and_pow_two_sub_one_eq_mod pa 38).symm
  have h2 : (2 ^ 38 - 1) &&& mask = mask := by
    rw [Nat.and_comm]
    exact Nat.and_pow_two_sub_one_of_lt_two_pow hmask
  rw [h1, Nat.and_assoc, h2]

theorem calculateSlice_HF_haswell_mod (pa : Nat) :
    calculateSlice_HF_haswell (pa % 2 ^ 38) = calculateSlice_HF_haswell pa := by
  rw [calculateSlice_HF_haswell_eq, calculateSlice_HF_haswell_eq,
    rte_xorall64_mod pa hash_0 (by decide), rte_xorall64_mod pa hash_1 (by decide),
    rte_xorall64_mod pa hash_2 (by decide)]

/-- C25: the slice mapping is constant inside a cache line: for every `pa`,
`calculateSlice_HF_haswell pa` equals the value at `pa` with its low 6 bits
cleared, any two addresses of the same 64-byte line classify to the same slice,
and the result depends only on the address bits 6..37. -/
theorem calculateSlice_HF_haswell_line (pa : Nat) :
    calculateSlice_HF_haswell pa = calculateSlice_HF_haswell (pa - pa % 64) ∧
      (∀ pb, pb / 64 = pa / 64 → calculateSlice_HF_haswell pb = calculateSlice_HF_haswell pa) ∧
      (∀ pb, pb / 64 % 2 ^ 32 = pa / 64 % 2 ^ 32 →
        calculateSlice_HF_haswell pb = calculateSlice_HF_haswell pa) := by
  refine ⟨?_, fun pb h => calculateSlice_HF_haswell_same_line pa pb h, ?_⟩
  · exact calculateSlice_HF_haswell_same_line (pa - pa % 64) pa (by omega)
  · intro pb h
    rw [← calculateSlice_HF_haswell_mod pa, ← calculateSlice_HF_haswell_mod pb]
    exact calculateSlice_HF_haswell_same_line _ _ (by omega)

/-- C26: for every 512-byte-aligned address `B` and every `k` below 8,
`calculateSlice_HF_haswell (B + 64 * k) = calculateSlice_HF_haswell B XOR k`; hence
the eight lines of the block classify to eight distinct slices, and every slice
below 8 owns exactly one line of the block. -/
theorem calculateSlice_HF_haswell_block_xor (B k : Nat) (hB : 512 ∣ B) (hk : k < 8) :
    calculateSlice_HF_haswell (B + 64 * k) = calculateSlice_HF_haswell B ^^^ k ∧
      (∀ k2, k2 < 8 →
        calculateSlice_HF_haswell (B + 64 * k2) = calculateSlice_HF_haswell (B + 64 * k) →
        k2 = k) ∧
      (∀ s, s < 8 → ∃ k1, k1 < 8 ∧ calculateSlice_HF_haswell (B + 64 * k1) = s ∧
        ∀ k2, k2 < 8 → calculateSlice_HF_haswell (B + 64 * k2) = s → k2 = k1) := by
  obtain ⟨q, rfl⟩ := hB
  have hblk : ∀ j, j < 8 → calculateSlice_HF_haswell (512 * q + 64 * j) =
      calculateSlice_HF_haswell (512 * q) ^^^ j := by
    intro j hj
    exact calculateSlice_HF_haswell_block q j 0 hj (by decide)
  have huniq : ∀ j s, j < 8 → calculateSlice_HF_haswell (512 * q + 64 * j) = s →
      j = calculateSlice_HF_haswell (512 * q) ^^^ s := by
    intro j s hj h
    exact calculateSlice_HF_haswell_block_unique q j 0 s hj (by decide) h
  refine ⟨hblk k hk, ?_, ?_⟩
  · intro k2 hk2 h
    exact (huniq k2 _ hk2 h).trans (huniq k _ hk rfl).symm
  · intro s hs
    refine ⟨calculateSlice_HF_haswell (512 * q) ^^^ s,
      xor_lt_eight _ s (calculateSlice_HF_haswell_lt _) hs, ?_, ?_⟩
    · exact calculateSlice_HF_haswell_block_match q s 0 hs (by decide)
    · intro k2 hk2 h
      exact huniq k2 s hk2 h

/-- The statement of `calculateSlice_HF_haswell_block_xor` for line 5 of the
block at 4096. -/
theorem calculateSlice_HF_haswell_block_xor_witness :
    calculateSlice_HF_haswell (4096 + 64 * 5) = calculateSlice_HF_haswell 4096 ^^^ 5 ∧
      (∀ k2, k2 < 8 →
        calculateSlice_HF_haswell (4096 + 64 * k2) = calculateSlice_HF_haswell (4096 + 64 * 5) →
        k2 = 5) ∧
      (∀ s, s < 8 → ∃ k1, k1 < 8 ∧ calculateSlice_HF_haswell (4096 + 64 * k1) = s ∧
        ∀ k2, k2 < 8 → calculateSlice_HF_haswell (4096 + 64 * k2) = s → k2 = k1) :=
  calculateSlice_HF_haswell_block_xor 4096 5 (by decide) (by decide)

/-! ## The scan and the array builder: bounds -/

/-- C27: for every 64-bit address `pa` and every `desiredSlice` below 8 the loop
of `sliceFinder_HF_haswell` ends after at most 14 increments of `offset`: the
returned offset is `64 * m` with `m <= 14`, hence at most 896 and far below the
`2 ^ 16` at which the `uint16_t` would wrap; consecutive elements of a region
built by `create_array` are therefore at most 960 bytes apart. -/
theorem sliceFinder_HF_haswell_bound (pa desiredSlice fuel nb_keys mem_virtual : Nat)
    (hpa : pa < 2 ^ 64) (hs : desiredSlice < 8) (hfuel : 15 ≤ fuel) :
    (∃ m, m ≤ 14 ∧ sliceFinder_HF_haswell_run fuel pa desiredSlice = some (64 * m, m + 1) ∧
      sliceFinder_HF_haswell fuel pa desiredSlice = some (64 * m) ∧ 64 * m ≤ 896 ∧
      64 * m < 2 ^ 16) ∧
    (∃ st, create_array fuel nb_keys desiredSlice mem_virtual pa = some st ∧
      ∀ i, i + 1 < nb_keys → ∃ d, d ≤ 960 ∧
        st.array_iova.getD (i + 1) 0 = (st.array_iova.getD i 0 + d) % 2 ^ 64 ∧
        st.array.getD (i + 1) 0 = (st.array.getD i 0 + d) % 2 ^ 64) := by
  constructor
  · obtain ⟨m0, h14, _, _, hrun⟩ := sliceFinder_HF_haswell_run_spec pa desiredSlice hpa hs
    refine ⟨m0, h14, hrun fuel hfuel, ?_, by omega, by omega⟩
    simp [sliceFinder_HF_haswell, hrun fuel hfuel]
  · obtain ⟨st, m0, hst, _, _, inv, _⟩ :=
      create_array_spec nb_keys desiredSlice mem_virtual pa fuel hs hpa hfuel
    refine ⟨st, hst, ?_⟩
    intro i hi
    obtain ⟨m, hm14, _, hnexti, hnexta⟩ := inv.next i hi
    exact ⟨64 + 64 * m, by omega, hnexti, hnexta⟩

/-- The statement of `sliceFinder_HF_haswell_bound` at address 8192 for slice 5
and a region of four elements. -/
theorem sliceFinder_HF_haswell_bound_witness :
    (∃ m, m ≤ 14 ∧ sliceFinder_HF_haswell_run 15 8192 5 = some (64 * m, m + 1) ∧
      sliceFinder_HF_haswell 15 8192 5 = some (64 * m) ∧ 64 * m ≤ 896 ∧
      64 * m < 2 ^ 16) ∧
    (∃ st, create_array 15 4 5 4096 8192 = some st ∧
      ∀ i, i + 1 < 4 → ∃ d, d ≤ 960 ∧
        st.array_iova.getD (i + 1) 0 = (st.array_iova.getD i 0 + d) % 2 ^ 64 ∧
        st.array.getD (i + 1) 0 = (st.array.getD i 0 + d) % 2 ^ 64) :=
  sliceFinder_HF_haswell_bound 8192 5 15 4 4096 (by decide) (by decide) (by decide)

/-- C28: if the base physical address is 512-byte aligned, the target slice is
below 8 and the backing block of `nb_keys * 8` lines lies inside the 64-bit
address space, then the `i`-th element built by `create_array` lies in the `i`-th
512-byte block of the backing block, for every `i < nb_keys`; hence all elements
fit inside the `nb_keys * 8` lines that were allocated. -/
theorem create_array_element_block (nb_keys slice mem_virtual mem_iova fuel : Nat)
    (hs : slice < 8) (hiova : mem_iova < 2 ^ 64) (hal : 512 ∣ mem_iova)
    (hfit : mem_iova + nb_keys * 8 * 64 ≤ 2 ^ 64) (hfuel : 15 ≤ fuel) :
    ∃ st, create_array fuel nb_keys slice mem_virtual mem_iova = some st ∧
      ∀ i, i < nb_keys →
        mem_iova + 512 * i ≤ st.array_iova.getD i 0 ∧
        st.array_iova.getD i 0 + 64 ≤ mem_iova + 512 * (i + 1) ∧
        st.array_iova.getD i 0 + 64 ≤ mem_iova + nb_keys * 8 * 64 := by
  obtain ⟨st, m0, hst, _, hfm, inv, _⟩ :=
    create_array_spec nb_keys slice mem_virtual mem_iova fuel hs hiova hfuel
  refine ⟨st, hst, ?_⟩
  intro i hi
  obtain ⟨hnw0, hdiv⟩ := first_match_block_aligned mem_iova slice m0 hs hiova (by omega) hfm
  obtain ⟨h1, h2, h3, _⟩ := array_iova_blocks slice mem_virtual mem_iova nb_keys m0 st hs inv
    hnw0 (by rw [hdiv]; omega) i hi
  rw [hdiv] at h1
  omega

/-- The statement of `create_array_element_block` for three elements of slice 5
at the aligned base 8192. -/
theorem create_array_element_block_witness :
    ∃ st, create_array 15 3 5 4096 8192 = some st ∧
      ∀ i, i < 3 →
        8192 + 512 * i ≤ st.array_iova.getD i 0 ∧
        st.array_iova.getD i 0 + 64 ≤ 8192 + 512 * (i + 1) ∧
        st.array_iova.getD i 0 + 64 ≤ 8192 + 3 * 8 * 64 :=
  create_array_element_block 3 5 4096 8192 15 (by decide) (by decide) (by decide)
    (by decide) (by decide)

/-! ## The array builder: which lines are taken -/

/-- The elements recorded by `create_array` are the matching lines counted from
the base, in order and without gaps: there are line numbers `K 0 < K 1 < ...`
(line `k` being the address `mem_iova + 64 * k`, taken modulo `2 ^ 64`) such that
element `i` is line `K i`, for its physical and its virtual address alike, and
the matching lines up to `K i` are exactly `K 0, ..., K i`. -/
theorem create_array_lines (slice mem_virtual mem_iova n m0 : Nat) (st : ArrayState)
    (hfm : FirstMatch mem_iova slice m0)
    (inv : ArrayInv slice mem_virtual mem_iova n m0 n st) :
    ∀ t, t ≤ n → ∃ K : Nat → Nat,
      (∀ i j, i < j → j < t → K i < K j) ∧
      (∀ i, i < t → st.array_iova.getD i 0 = (mem_iova + 64 * K i) % 2 ^ 64 ∧
        st.array.getD i 0 = (mem_virtual + 64 * K i) % 2 ^ 64) ∧
      (0 < t → K 0 = m0) ∧
      (∀ i, i < t → ∀ k, k ≤ K i →
        (calculateSlice_HF_haswell ((mem_iova + 64 * k) % 2 ^ 64) = slice ↔
          ∃ j, j ≤ i ∧ k = K j)) := by
  intro t
  induction t with
  | zero =>
    intro _
    exact ⟨fun _ => 0, fun i j _ hj => by omega, fun i hi => by omega, fun h => by omega,
      fun i hi => by omega⟩
  | succ t ih =>
    intro ht
    obtain ⟨K, hmono, haddr, hK0, hiff⟩ := ih (by omega)
    rcases t with _ | t
    · obtain ⟨hi0, ha0⟩ := inv.first (by omega)
      refine ⟨fun _ => m0, fun i j hij hj => by omega, ?_, fun _ => rfl, ?_⟩
      · intro i hi
        have : i = 0 := by omega
        subst this
        exact ⟨hi0, ha0⟩
      · intro i hi k hk
        have hk1 : k ≤ m0 := hk
        constructor
        · intro hmatch
          refine ⟨0, by omega, ?_⟩
          show k = m0
          by_contra hne
          exact hfm.2 k (by omega) hmatch
        · rintro ⟨j, _, hj⟩
          have hj1 : k = m0 := hj
          rw [hj1]
          exact hfm.1
    · obtain ⟨m, _, hnext, hnexti, hnexta⟩ := inv.next t (by omega)
      obtain ⟨hit, hat⟩ := haddr t (by omega)
      have hle : ∀ i, i ≤ t → K i ≤ K t := by
        intro i hi
        by_cases h : i = t
        · rw [h]
        · exact Nat.le_of_lt (hmono i t (by omega) (by omega))
      refine ⟨fun i => if i = t + 1 then K t + 1 + m else K i, ?_, ?_, ?_, ?_⟩
      · intro i j hij hj
        have hi : i ≠ t + 1 := by omega
        simp only [hi, if_false]
        by_cases hjt : j = t + 1
        · simp only [hjt, if_true]
          have := hle i (by omega)
          omega
        · simp only [hjt, if_false]
          exact hmono i j hij (by omega)
      · intro i hi
        by_cases hit1 : i = t + 1
        · subst hit1
          simp only [if_true]
          rw [hnexti, hnexta, hit, hat]
          constructor <;> omega
        · simp only [hit1, if_false]
          exact haddr i (by omega)
      · intro _
        have h0 : (0 : Nat) ≠ t + 1 := by omega
        simp only [h0, if_false]
        exact hK0 (by omega)
      · intro i hi k hk
        by_cases hit1 : i = t + 1
        · subst hit1
          simp only [if_true] at hk
          by_cases hk1 : k ≤ K t
          · rw [hiff t (by omega) k hk1]
            constructor
            · rintro ⟨j, hj, hkj⟩
              have hjne : j ≠ t + 1 := by omega
              exact ⟨j, by omega, by simp only [hjne, if_false]; exact hkj⟩
            · rintro ⟨j, hj, hkj⟩
              by_cases hjt : j = t + 1
              · simp only [hjt, if_true] at hkj
                omega
              · simp only [hjt, if_false] at hkj
                exact ⟨j, by omega, hkj⟩
          · have e : (mem_iova + 64 * k) % 2 ^ 64 =
                ((st.array_iova.getD t 0 + 64) % 2 ^ 64 + 64 * (k - (K t + 1))) % 2 ^ 64 := by
              rw [hit]
              omega
            rw [e]
            by_cases hk2 : k = K t + 1 + m
            · constructor
              · intro _
                exact ⟨t + 1, by omega, by simp only [if_true]; exact hk2⟩
              · intro _
                have e2 : k - (K t + 1) = m := by omega
                rw [e2]
                exact hnext.1
            · constructor
              · intro hmatch
                exact absurd hmatch (hnext.2 (k - (K t + 1)) (by omega))
              · rintro ⟨j, hj, hkj⟩
                by_cases hjt : j = t + 1
                · simp only [hjt, if_true] at hkj
                  omega
                · simp only [hjt, if_false] at hkj
                  have := hle j (by omega)
                  omega
        · have hik : k ≤ K i := by simpa only [hit1, if_false] using hk
          rw [hiff i (by omega) k hik]
          constructor
          · rintro ⟨j, hj, hkj⟩
            have hjne : j ≠ t + 1 := by omega
            exact ⟨j, hj, by simp only [hjne, if_false]; exact hkj⟩
          · rintro ⟨j, hj, hkj⟩
            have hjne : j ≠ t + 1 := by omega
            simp only [hjne, if_false] at hkj
            exact ⟨j, hj, hkj⟩

/-- C22: no matching line is skipped or revisited. For every base address, every
`nb_keys >= 1` and every target slice below 8, element 0 of `create_array` is the
first line at or after the base (in 64-byte steps, addresses being 64-bit) that
classifies to the slice, and element `i + 1` is the first such line at or after
`array_iova[i] + 64`. Equivalently, with line `k` standing for the address
`base + 64 * k`: the recorded addresses are the lines `K 0 < K 1 < ...`, and the
lines up to `K i` that classify to the slice are exactly `K 0, ..., K i`. -/
theorem create_array_first_lines (nb_keys slice mem_virtual mem_iova fuel : Nat)
    (hs : slice < 8) (hiova : mem_iova < 2 ^ 64) (hn : 1 ≤ nb_keys) (hfuel : 15 ≤ fuel) :
    ∃ st, ∃ K : Nat → Nat, create_array fuel nb_keys slice mem_virtual mem_iova = some st ∧
      FirstMatch mem_iova slice (K 0) ∧
      st.array_iova.getD 0 0 = (mem_iova + 64 * K 0) % 2 ^ 64 ∧
      (∀ i, i + 1 < nb_keys → ∃ m,
        FirstMatch ((st.array_iova.getD i 0 + 64) % 2 ^ 64) slice m ∧
        st.array_iova.getD (i + 1) 0 =
          ((st.array_iova.getD i 0 + 64) % 2 ^ 64 + 64 * m) % 2 ^ 64) ∧
      (∀ i j, i < j → j < nb_keys → K i < K j) ∧
      (∀ i, i < nb_keys → st.array_iova.getD i 0 = (mem_iova + 64 * K i) % 2 ^ 64) ∧
      (∀ i, i < nb_keys → ∀ k, k ≤ K i →
        (calculateSlice_HF_haswell ((mem_iova + 64 * k) % 2 ^ 64) = slice ↔
          ∃ j, j ≤ i ∧ k = K j)) := by
  obtain ⟨st, m0, hst, _, hfm, inv, _⟩ :=
    create_array_spec nb_keys slice mem_virtual mem_iova fuel hs hiova hfuel
  obtain ⟨K, hmono, haddr, hK0, hiff⟩ :=
    create_array_lines slice mem_virtual mem_iova nb_keys m0 st hfm inv nb_keys (le_refl _)
  have hk0 := hK0 (by omega)
  refine ⟨st, K, hst, by rw [hk0]; exact hfm, (haddr 0 (by omega)).1, ?_, hmono,
    fun i hi => (haddr i hi).1, hiff⟩
  intro i hi
  obtain ⟨m, _, hnext, hnexti, _⟩ := inv.next i hi
  refine ⟨m, hnext, ?_⟩
  rw [hnexti]
  omega

/-- The statement of `create_array_first_lines` for three elements of slice 5 at
base 8192. -/
theorem create_array_first_lines_witness :
    ∃ st, ∃ K : Nat → Nat, create_array 15 3 5 4096 8192 = some st ∧
      FirstMatch 8192 5 (K 0) ∧
      st.array_iova.getD 0 0 = (8192 + 64 * K 0) % 2 ^ 64 ∧
      (∀ i, i + 1 < 3 → ∃ m,
        FirstMatch ((st.array_iova.getD i 0 + 64) % 2 ^ 64) 5 m ∧
        st.array_iova.getD (i + 1) 0 =
          ((st.array_iova.getD i 0 + 64) % 2 ^ 64 + 64 * m) % 2 ^ 64) ∧
      (∀ i j, i < j → j < 3 → K i < K j) ∧
      (∀ i, i < 3 → st.array_iova.getD i 0 = (8192 + 64 * K i) % 2 ^ 64) ∧
      (∀ i, i < 3 → ∀ k, k ≤ K i →
        (calculateSlice_HF_haswell ((8192 + 64 * k) % 2 ^ 64) = 5 ↔
          ∃ j, j ≤ i ∧ k = K j)) :=
  create_array_first_lines 3 5 4096 8192 15 (by decide) (by decide) (by decide) (by decide)

/-- C23: the two recorded identities of every element stay in step. For every
`i < nb_keys` the virtual pointer `array[i]` and the physical address
`array_iova[i]` lie at the same byte offset `D` from `mem_virtual` and `mem_iova`:
the 64-bit differences `array[i] - mem_virtual` and `array_iova[i] - mem_iova` are
equal, and they are equal as plain numbers whenever neither sum wraps around. -/
theorem create_array_same_offset (nb_keys slice mem_virtual mem_iova fuel : Nat)
    (hs : slice < 8) (hiova : mem_iova < 2 ^ 64) (hvirt : mem_virtual < 2 ^ 64)
    (hfuel : 15 ≤ fuel) :
    ∃ st, create_array fuel nb_keys slice mem_virtual mem_iova = some st ∧
      ∀ i, i < nb_keys → ∃ D, 64 ∣ D ∧
        st.array_iova.getD i 0 = (mem_iova + D) % 2 ^ 64 ∧
        st.array.getD i 0 = (mem_virtual + D) % 2 ^ 64 ∧
        (st.array.getD i 0 + 2 ^ 64 - mem_virtual) % 2 ^ 64 =
          (st.array_iova.getD i 0 + 2 ^ 64 - mem_iova) % 2 ^ 64 ∧
        (mem_iova + D < 2 ^ 64 → mem_virtual + D < 2 ^ 64 →
          st.array.getD i 0 - mem_virtual = st.array_iova.getD i 0 - mem_iova) := by
  obtain ⟨st, m0, hst, _, hfm, inv, _⟩ :=
    create_array_spec nb_keys slice mem_virtual mem_iova fuel hs hiova hfuel
  obtain ⟨K, _, haddr, _, _⟩ :=
    create_array_lines slice mem_virtual mem_iova nb_keys m0 st hfm inv nb_keys (le_refl _)
  refine ⟨st, hst, ?_⟩
  intro i hi
  obtain ⟨h1, h2⟩ := haddr i hi
  refine ⟨64 * K i, Nat.dvd_mul_right _ _, h1, h2, ?_, ?_⟩
  · rw [h1, h2]
    omega
  · intro hw1 hw2
    rw [h1, h2, Nat.mod_eq_of_lt hw1, Nat.mod_eq_of_lt hw2]
    omega

/-- The statement of `create_array_same_offset` for three elements of slice 5,
the backing block being at 4096 (virtual) and 8192 (physical). -/
theorem create_array_same_offset_witness :
    ∃ st, create_array 15 3 5 4096 8192 = some st ∧
      ∀ i, i < 3 → ∃ D, 64 ∣ D ∧
        st.array_iova.getD i 0 = (8192 + D) % 2 ^ 64 ∧
        st.array.getD i 0 = (4096 + D) % 2 ^ 64 ∧
        (st.array.getD i 0 + 2 ^ 64 - 4096) % 2 ^ 64 =
          (st.array_iova.getD i 0 + 2 ^ 64 - 8192) % 2 ^ 64 ∧
        (8192 + D < 2 ^ 64 → 4096 + D < 2 ^ 64 →
          st.array.getD i 0 - 4096 = st.array_iova.getD i 0 - 8192) :=
  create_array_same_offset 3 5 4096 8192 15 (by decide) (by decide) (by decide) (by decide)

/-! ## Request handling: results -/

theorem load64_lt (mem : Nat → Nat) (p : Nat) : load64 mem p < 2 ^ 64 := by
  unfold load64
  omega

theorem be64toh_lt (x : Nat) : be64toh x < 2 ^ 64 := by
  unfold be64toh
  omega

theorem store64_at (mem : Nat → Nat) (p v k : Nat) (hk : k < 8) :
    store64 mem p v (p + k) = v / 256 ^ k % 256 := by
  unfold store64
  rw [if_pos ⟨by omega, by omega⟩, Nat.add_sub_cancel_left]

theorem store64_frame (mem : Nat → Nat) (p v a : Nat) (h : a < p ∨ p + 8 ≤ a) :
    store64 mem p v a = mem a := by
  unfold store64
  rw [if_neg (by omega)]

theorem load64_store64 (mem : Nat → Nat) (p v : Nat) (hv : v < 2 ^ 64) :
    load64 (store64 mem p v) p = v := by
  have h0 := store64_at mem p v 0 (by decide)
  rw [Nat.add_zero, Nat.pow_zero, Nat.div_one] at h0
  unfold load64
  rw [h0, store64_at mem p v 1 (by decide), store64_at mem p v 2 (by decide),
    store64_at mem p v 3 (by decide), store64_at mem p v 4 (by decide),
    store64_at mem p v 5 (by decide), store64_at mem p v 6 (by decide),
    store64_at mem p v 7 (by decide)]
  omega

theorem load64_store64_frame (mem : Nat → Nat) (p v q : Nat) (h : q + 8 ≤ p ∨ p + 8 ≤ q) :
    load64 (store64 mem p v) q = load64 mem q := by
  unfold load64
  rw [store64_frame mem p v q (by omega), store64_frame mem p v (q + 1) (by omega),
    store64_frame mem p v (q + 2) (by omega), store64_frame mem p v (q + 3) (by omega),
    store64_frame mem p v (q + 4) (by omega), store64_frame mem p v (q + 5) (by omega),
    store64_frame mem p v (q + 6) (by omega), store64_frame mem p v (q + 7) (by omega)]

theorem decode_be_reverse (mem : Nat → Nat) :
    decode_be mem 0 = load64 (fun a => mem (7 - a)) 0 := by
  have e1 : 7 - (0 + 1) = 6 := rfl
  have e2 : 7 - (0 + 2) = 5 := rfl
  have e3 : 7 - (0 + 3) = 4 := rfl
  have e4 : 7 - (0 + 4) = 3 := rfl
  have e5 : 7 - (0 + 5) = 2 := rfl
  have e6 : 7 - (0 + 6) = 1 := rfl
  have e7 : 7 - (0 + 7) = 0 := rfl
  simp only [decode_be, load64, Nat.sub_zero, e1, e2, e3, e4, e5, e6, e7, Nat.zero_add]
  omega

theorem load64_reverse (mem : Nat → Nat) :
    decode_be (fun a => mem (7 - a)) 0 = load64 mem 0 := by
  have e1 : 7 - (0 + 1) = 6 := rfl
  have e2 : 7 - (0 + 2) = 5 := rfl
  have e3 : 7 - (0 + 3) = 4 := rfl
  have e4 : 7 - (0 + 4) = 3 := rfl
  have e5 : 7 - (0 + 5) = 2 := rfl
  have e6 : 7 - (0 + 6) = 1 := rfl
  have e7 : 7 - (0 + 7) = 0 := rfl
  simp only [decode_be, load64, Nat.sub_zero, e1, e2, e3, e4, e5, e6, e7, Nat.zero_add]
  omega

theorem be64toh_be64toh (x : Nat) (hx : x < 2 ^ 64) : be64toh (be64toh x) = x := by
  have h1 := load64_store64 (fun _ => 0) 0 x hx
  have h2 := be64toh_load64 (store64 (fun _ => 0) 0 x) 0
  rw [h1] at h2
  rw [h2, decode_be_reverse, be64toh_load64, load64_reverse, h1]

theorem htobe64_lt (x : Nat) : htobe64 x < 2 ^ 64 :=
  be64toh_lt x

theorem htobe64_htobe64 (x : Nat) (hx : x < 2 ^ 64) : htobe64 (htobe64 x) = x :=
  be64toh_be64toh x hx

/-- The READ branch of `lcore_main_packet`: what an in-range request does when
`read_counter` is below `READ_PERCENT`. -/
theorem lcore_main_packet_read (array : List Nat) (pkt : Nat → Nat) (st : KvsState)
    (hin : read_key_from_packet pkt < NB_KEYS) (hrc : st.read_counter < READ_PERCENT) :
    ∃ st1 pkt1, lcore_main_packet array pkt st = some (st1, pkt1) ∧
      st1.mem = store64 st.mem (array.getD (read_key_from_packet pkt) 0)
        (htobe64 (load64 st.mem (array.getD (read_key_from_packet pkt) 0))) ∧
      st1.read_counter = (st.read_counter + 1) % 100 := by
  have hlt : st.read_counter < 100 := hrc
  simp only [lcore_main_packet, hin, hrc, if_true]
  refine ⟨_, _, rfl, rfl, ?_⟩
  show (st.read_counter + 1) % 2 ^ 64 % 100 = (st.read_counter + 1) % 100
  omega

theorem decode_be_byte (mem : Nat → Nat) (p j : Nat) (hj : j < 8) :
    decode_be mem p / 256 ^ j % 256 = mem (p + (7 - j)) % 256 := by
  unfold decode_be
  have h0 : mem p % 256 < 256 := Nat.mod_lt _ (by decide)
  have h1 : mem (p + 1) % 256 < 256 := Nat.mod_lt _ (by decide)
  have h2 : mem (p + 2) % 256 < 256 := Nat.mod_lt _ (by decide)
  have h3 : mem (p + 3) % 256 < 256 := Nat.mod_lt _ (by decide)
  have h4 : mem (p + 4) % 256 < 256 := Nat.mod_lt _ (by decide)
  have h5 : mem (p + 5) % 256 < 256 := Nat.mod_lt _ (by decide)
  have h6 : mem (p + 6) % 256 < 256 := Nat.mod_lt _ (by decide)
  have h7 : mem (p + 7) % 256 < 256 := Nat.mod_lt _ (by decide)
  have e0 : mem (p + 0) = mem p := rfl
  interval_cases j <;> simp only [Nat.reduceSub, e0] <;>
    generalize mem p % 256 = b0 at h0 ⊢ <;>
    generalize mem (p + 1) % 256 = b1 at h1 ⊢ <;>
    generalize mem (p + 2) % 256 = b2 at h2 ⊢ <;>
    generalize mem (p + 3) % 256 = b3 at h3 ⊢ <;>
    generalize mem (p + 4) % 256 = b4 at h4 ⊢ <;>
    generalize mem (p + 5) % 256 = b5 at h5 ⊢ <;>
    generalize mem (p + 6) % 256 = b6 at h6 ⊢ <;>
    generalize mem (p + 7) % 256 = b7 at h7 ⊢ <;>
    omega

theorem load64_byte (mem : Nat → Nat) (p j : Nat) (hj : j < 8) :
    load64 mem p / 256 ^ j % 256 = mem (p + j) % 256 := by
  unfold load64
  have h0 : mem p % 256 < 256 := Nat.mod_lt _ (by decide)
  have h1 : mem (p + 1) % 256 < 256 := Nat.mod_lt _ (by decide)
  have h2 : mem (p + 2) % 256 < 256 := Nat.mod_lt _ (by decide)
  have h3 : mem (p + 3) % 256 < 256 := Nat.mod_lt _ (by decide)
  have h4 : mem (p + 4) % 256 < 256 := Nat.mod_lt _ (by decide)
  have h5 : mem (p + 5) % 256 < 256 := Nat.mod_lt _ (by decide)
  have h6 : mem (p + 6) % 256 < 256 := Nat.mod_lt _ (by decide)
  have h7 : mem (p + 7) % 256 < 256 := Nat.mod_lt _ (by decide)
  have e0 : mem (p + 0) = mem p := rfl
  interval_cases j <;> (try simp only [e0]) <;>
    generalize mem p % 256 = b0 at h0 ⊢ <;>
    generalize mem (p + 1) % 256 = b1 at h1 ⊢ <;>
    generalize mem (p + 2) % 256 = b2 at h2 ⊢ <;>
    generalize mem (p + 3) % 256 = b3 at h3 ⊢ <;>
    generalize mem (p + 4) % 256 = b4 at h4 ⊢ <;>
    generalize mem (p + 5) % 256 = b5 at h5 ⊢ <;>
    generalize mem (p + 6) % 256 = b6 at h6 ⊢ <;>
    generalize mem (p + 7) % 256 = b7 at h7 ⊢ <;>
    omega

theorem decode_be_lt (mem : Nat → Nat) (p : Nat) : decode_be mem p < 2 ^ 64 := by
  rw [← be64toh_load64]
  exact be64toh_lt _

theorem load64_congr (m1 m2 : Nat → Nat) (p : Nat)
    (h : ∀ j, j < 8 → m1 (p + j) % 256 = m2 (p + j) % 256) : load64 m1 p = load64 m2 p := by
  have h0 := h 0 (by decide)
  rw [Nat.add_zero] at h0
  unfold load64
  rw [h0, h 1 (by decide), h 2 (by decide), h 3 (by decide), h 4 (by decide), h 5 (by decide),
    h 6 (by decide), h 7 (by decide)]

/-- The READ branch of `lcore_main_packet`, byte by byte: the 8 bytes of the
element are put back in reverse order, every other byte of the backing block is
left alone. -/
theorem lcore_main_packet_read_bytes (array : List Nat) (pkt : Nat → Nat) (st : KvsState)
    (hin : read_key_from_packet pkt < NB_KEYS) (hrc : st.read_counter < READ_PERCENT) :
    ∃ st1 pkt1, lcore_main_packet array pkt st = some (st1, pkt1) ∧
      (∀ j, j < 8 → st1.mem (array.getD (read_key_from_packet pkt) 0 + j) =
        st.mem (array.getD (read_key_from_packet pkt) 0 + (7 - j)) % 256) ∧
      (∀ a, a < array.getD (read_key_from_packet pkt) 0 ∨
          array.getD (read_key_from_packet pkt) 0 + 8 ≤ a → st1.mem a = st.mem a) ∧
      load64 st1.mem (array.getD (read_key_from_packet pkt) 0) =
        decode_be st.mem (array.getD (read_key_from_packet pkt) 0) ∧
      load64 st1.mem (array.getD (read_key_from_packet pkt) 0) =
        htobe64 (load64 st.mem (array.getD (read_key_from_packet pkt) 0)) ∧
      st1.read_counter < READ_PERCENT := by
  obtain ⟨st1, pkt1, hrun, hmem, hcnt⟩ := lcore_main_packet_read array pkt st hin hrc
  have hv : htobe64 (load64 st.mem (array.getD (read_key_from_packet pkt) 0)) =
      decode_be st.mem (array.getD (read_key_from_packet pkt) 0) :=
    be64toh_load64 _ _
  refine ⟨st1, pkt1, hrun, ?_, ?_, ?_, ?_, ?_⟩
  · intro j hj
    rw [hmem, hv, store64_at _ _ _ j hj]
    exact decode_be_byte _ _ j hj
  · intro a ha
    rw [hmem]
    exact store64_frame _ _ _ _ ha
  · rw [hmem, hv]
    exact load64_store64 _ _ _ (decode_be_lt _ _)
  · rw [hmem]
    exact load64_store64 _ _ _ (htobe64_lt _)
  · rw [hcnt]
    exact Nat.mod_lt _ (by decide)

/-- C29: handling a READ request for an in-range key `k` byte-swaps the stored
64-bit value of element `k` in place: the 8 bytes of the element are put back in
reverse order, so the stored word becomes the big-endian reading of the bytes it
had, which is `htobe64` of the old word. Every other byte of the backing block,
hence every other element, is unchanged. A second READ of the same key restores
the 8 bytes, and a single READ changes the stored word whenever the value is not
its own byte reversal (some byte differs from its mirror byte). -/
theorem lcore_main_read_swaps (array : List Nat) (pkt : Nat → Nat) (st : KvsState) (k : Nat)
    (hk : read_key_from_packet pkt = k) (hin : k < NB_KEYS)
    (hrc : st.read_counter < READ_PERCENT) :
    ∃ st1 pkt1, lcore_main_packet array pkt st = some (st1, pkt1) ∧
      (∀ j, j < 8 →
        st1.mem (array.getD k 0 + j) = st.mem (array.getD k 0 + (7 - j)) % 256) ∧
      load64 st1.mem (array.getD k 0) = decode_be st.mem (array.getD k 0) ∧
      load64 st1.mem (array.getD k 0) = htobe64 (load64 st.mem (array.getD k 0)) ∧
      (∀ a, a < array.getD k 0 ∨ array.getD k 0 + 8 ≤ a → st1.mem a = st.mem a) ∧
      (∀ j, array.getD j 0 + 8 ≤ array.getD k 0 ∨ array.getD k 0 + 8 ≤ array.getD j 0 →
        load64 st1.mem (array.getD j 0) = load64 st.mem (array.getD j 0)) ∧
      ((∃ j, j < 8 ∧ st.mem (array.getD k 0 + j) % 256 ≠
          st.mem (array.getD k 0 + (7 - j)) % 256) →
        load64 st1.mem (array.getD k 0) ≠ load64 st.mem (array.getD k 0)) ∧
      (∀ pkt2, read_key_from_packet pkt2 = k →
        ∃ st2 pkt3, lcore_main_packet array pkt2 st1 = some (st2, pkt3) ∧
          (∀ j, j < 8 → st2.mem (array.getD k 0 + j) = st.mem (array.getD k 0 + j) % 256) ∧
          load64 st2.mem (array.getD k 0) = load64 st.mem (array.getD k 0)) := by
  subst hk
  obtain ⟨st1, pkt1, hrun, hbytes, hframe, hdec, hswap, hrc1⟩ :=
    lcore_main_packet_read_bytes array pkt st hin hrc
  refine ⟨st1, pkt1, hrun, hbytes, hdec, hswap, hframe, ?_, ?_, ?_⟩
  · intro j hj
    apply load64_congr
    intro i hi
    rw [hframe _ (by omega)]
  · rintro ⟨j, hj, hne⟩ heq
    apply hne
    have h1 := load64_byte st1.mem (array.getD (read_key_from_packet pkt) 0) j hj
    rw [heq, load64_byte _ _ j hj, hbytes j hj, Nat.mod_mod] at h1
    exact h1
  · intro pkt2 hk2
    obtain ⟨st2, pkt3, hrun2, hbytes2, _, _, _, _⟩ :=
      lcore_main_packet_read_bytes array pkt2 st1 (by rw [hk2]; exact hin) hrc1
    rw [hk2] at hbytes2
    have hback : ∀ j, j < 8 →
        st2.mem (array.getD (read_key_from_packet pkt) 0 + j) =
          st.mem (array.getD (read_key_from_packet pkt) 0 + j) % 256 := by
      intro j hj
      rw [hbytes2 j hj, hbytes (7 - j) (by omega), Nat.mod_mod]
      have e : 7 - (7 - j) = j := by omega
      rw [e]
    refine ⟨st2, pkt3, hrun2, hback, ?_⟩
    apply load64_congr
    intro j hj
    rw [hback j hj, Nat.mod_mod]

/-- The statement of `lcore_main_read_swaps` for a request for key 1, element 1
living at address 4160 and holding the value 2 (`KvsState.sample`), together
with the bytes computed there: after the READ the byte 2 has moved from address
4160 to address 4167. -/
theorem lcore_main_read_swaps_witness :
    (∃ st1 pkt1,
      lcore_main_packet [4096, 4160] (packet_with_key 1) KvsState.sample = some (st1, pkt1) ∧
      (∀ j, j < 8 →
        st1.mem (([4096, 4160] : List Nat).getD 1 0 + j) =
          KvsState.sample.mem (([4096, 4160] : List Nat).getD 1 0 + (7 - j)) % 256) ∧
      load64 st1.mem (([4096, 4160] : List Nat).getD 1 0) =
        decode_be KvsState.sample.mem (([4096, 4160] : List Nat).getD 1 0) ∧
      load64 st1.mem (([4096, 4160] : List Nat).getD 1 0) =
        htobe64 (load64 KvsState.sample.mem (([4096, 4160] : List Nat).getD 1 0)) ∧
      (∀ a, a < ([4096, 4160] : List Nat).getD 1 0 ∨
          ([4096, 4160] : List Nat).getD 1 0 + 8 ≤ a →
        st1.mem a = KvsState.sample.mem a) ∧
      (∀ j, ([4096, 4160] : List Nat).getD j 0 + 8 ≤ ([4096, 4160] : List Nat).getD 1 0 ∨
          ([4096, 4160] : List Nat).getD 1 0 + 8 ≤ ([4096, 4160] : List Nat).getD j 0 →
        load64 st1.mem (([4096, 4160] : List Nat).getD j 0) =
          load64 KvsState.sample.mem (([4096, 4160] : List Nat).getD j 0)) ∧
      ((∃ j, j < 8 ∧ KvsState.sample.mem (([4096, 4160] : List Nat).getD 1 0 + j) % 256 ≠
          KvsState.sample.mem (([4096, 4160] : List Nat).getD 1 0 + (7 - j)) % 256) →
        load64 st1.mem (([4096, 4160] : List Nat).getD 1 0) ≠
          load64 KvsState.sample.mem (([4096, 4160] : List Nat).getD 1 0)) ∧
      (∀ pkt2, read_key_from_packet pkt2 = 1 →
        ∃ st2 pkt3, lcore_main_packet [4096, 4160] pkt2 st1 = some (st2, pkt3) ∧
          (∀ j, j < 8 → st2.mem (([4096, 4160] : List Nat).getD 1 0 + j) =
            KvsState.sample.mem (([4096, 4160] : List Nat).getD 1 0 + j) % 256) ∧
          load64 st2.mem (([4096, 4160] : List Nat).getD 1 0) =
            load64 KvsState.sample.mem (([4096, 4160] : List Nat).getD 1 0))) ∧
    (lcore_main_packet [4096, 4160] (packet_with_key 1) KvsState.sample).map
        (fun r => (r.1.mem 4160, r.1.mem 4167, load64 r.1.mem 4160, r.1.read_counter)) =
      some (0, 2, 2 * 256 ^ 7, 1) ∧
    load64 KvsState.sample.mem 4160 = 2 :=
  ⟨lcore_main_read_swaps [4096, 4160] (packet_with_key 1) KvsState.sample 1 (by decide)
      (by decide) (by decide), by decide, by decide⟩

/-- Every state the packet loop reaches from `read_counter = 0` has
`read_counter` below 100, whatever the packets are. -/
theorem lcore_main_packets_counter (array : List Nat) :
    ∀ pkts st, st.read_counter < 100 →
      ∃ st1 sent, lcore_main_packets array pkts st = some (st1, sent) ∧
        st1.read_counter < 100 ∧ sent.length = pkts.length := by
  intro pkts
  induction pkts with
  | nil =>
    intro st hst
    exact ⟨st, [], rfl, hst, rfl⟩
  | cons pkt pkts ih =>
    intro st hst
    have hstep : ∃ st1 pkt1, lcore_main_packet array pkt st = some (st1, pkt1) ∧
        st1.read_counter < 100 := by
      by_cases hin : read_key_from_packet pkt < NB_KEYS
      · obtain ⟨st1, pkt1, hrun, _, hcnt⟩ := lcore_main_packet_read array pkt st hin hst
        exact ⟨st1, pkt1, hrun, by rw [hcnt]; exact Nat.mod_lt _ (by decide)⟩
      · exact ⟨st, pkt, by simp only [lcore_main_packet, hin, if_false], hst⟩
    obtain ⟨st1, pkt1, hrun, hst1⟩ := hstep
    obtain ⟨st2, sent, hrest, hst2, hlen⟩ := ih st1 hst1
    refine ⟨st2, pkt1 :: sent, ?_, hst2, by simp [hlen]⟩
    simp only [lcore_main_packets, hrun, hrest]

/-- C30: with `READ_PERCENT = 100`, `read_counter` stays in `[0, 100)` in every
state the packet loop reaches from its initial value 0, whatever packets arrive;
so in every such state an in-range request takes the READ branch (it swaps the
stored value and advances the counter modulo 100), and the WRITE branch, which
stores through the never-assigned pointer `value`, is never taken: handling a
packet always has a defined result. -/
theorem lcore_main_read_only (array : List Nat) (pkts : List (Nat → Nat)) (mem : Nat → Nat) :
    READ_PERCENT = 100 ∧
      ∃ st sent,
        lcore_main_packets array pkts { mem := mem, read_counter := 0 } = some (st, sent) ∧
        st.read_counter < 100 ∧ sent.length = pkts.length ∧
        (∀ pkt, lcore_main_packet array pkt st ≠ none) ∧
        ∀ pkt, read_key_from_packet pkt < NB_KEYS →
          ∃ st1 pkt1, lcore_main_packet array pkt st = some (st1, pkt1) ∧
            st1.mem = store64 st.mem (array.getD (read_key_from_packet pkt) 0)
              (htobe64 (load64 st.mem (array.getD (read_key_from_packet pkt) 0))) ∧
            st1.read_counter = (st.read_counter + 1) % 100 := by
  obtain ⟨st, sent, hrun, hst, hlen⟩ :=
    lcore_main_packets_counter array pkts { mem := mem, read_counter := 0 }
      (Nat.zero_lt_succ 99)
  refine ⟨rfl, st, sent, hrun, hst, hlen, ?_, ?_⟩
  · intro pkt
    by_cases hin : read_key_from_packet pkt < NB_KEYS
    · obtain ⟨st1, pkt1, h, _⟩ := lcore_main_packet_read array pkt st hin hst
      rw [h]
      exact Option.some_ne_none _
    · simp only [lcore_main_packet, hin, if_false]
      exact Option.some_ne_none _
  · intro pkt hin
    exact lcore_main_packet_read array pkt st hin hst

end CacheDirector
